import Mathlib

/-!
rrlib_uri: paths and URIs.

A shallow embedding of `tPath` (tPath.h, tPath.cpp) and `tURI` (tURI.h, tURI.cpp).

Conventions of the embedding:

* a `char` is a `Byte` (`Fin 256`), holding the unsigned value of the byte;
* a `tStringRange` (pointer + length view, compared by content) is the list of the
  bytes it refers to; the default-constructed range `(nullptr, 0)` is `[]`;
* `std::vector<char> memory` is a `List Byte`; the offset table lives inside it, each
  `uint` entry taking `sizeof(uint) = 4` bytes (little endian);
* `uint` arithmetic is arithmetic modulo `2^32` (`toUInt`); `size_t` has 64 bits;
* the character functions of the C library (`isalnum`, `isspace`, `strtol`) are those of
  the "C" locale;
* a read or write outside the bytes an object owns has no defined result: functions
  that can perform one return `Option`, and `none` stands for that situation;
* `tURI::Decode` returns `none` where the source throws `std::invalid_argument`.
-/

namespace rrlib.uri

/-! ## Bytes, string ranges, `uint` -/

/-- One `char`, as its unsigned byte value. -/
abbrev Byte := Fin 256

/-- The bytes a `tStringRange` refers to (tStringRange.h); equality is by content. -/
abbrev tStringRange := List Byte

/-- Conversion of an integer to a byte (`static_cast<unsigned char>`). -/
def toByte (n : Nat) : Byte := ⟨n % 256, Nat.mod_lt n (by decide)⟩

/-- Conversion of an integer to `uint` (32 bits). -/
def toUInt (n : Nat) : Nat := n % 4294967296

/-- The four bytes `memcpy` stores for one `uint` of the offset table. -/
def uintBytes (n : Nat) : List Byte :=
  [toByte n, toByte (n / 256), toByte (n / 65536), toByte (n / 16777216)]

/-- Reads entry `index` of a `uint` table that starts at the first byte of `memory`
(`GetElementOffsetTable()[index]`); `none` when the entry is not inside `memory`. -/
def readUInt (memory : List Byte) (index : Nat) : Option Nat :=
  match memory.drop (4 * index) with
  | b0 :: b1 :: b2 :: b3 :: _ =>
      some (b0.val + 256 * b1.val + 65536 * b2.val + 16777216 * b3.val)
  | _ => none

/-! ## tPath -/

/-- The two fields of `tPath` (tPath.h:351, 359). -/
structure tPath where
  element_count : Nat
  memory : List Byte
deriving DecidableEq, Repr

/-- Default constructor `tPath()` (tPath.h:89): no elements, empty memory. -/
def tPath.empty : tPath := ⟨0, []⟩

/-- `Size()` (tPath.h:239). -/
def tPath.Size (p : tPath) : Nat := p.element_count

/-- The bytes readable from `GetPathStringBegin()` (tPath.h:389): the string literal
`"\0"` when `memory` is empty, else what `memory` holds from index
`(element_count + 1) * sizeof(uint)` on (nothing, when that index is not inside). -/
def tPath.GetPathStringBegin (p : tPath) : List Byte :=
  if p.memory.length = 0 then [0, 0] else p.memory.drop ((p.element_count + 1) * 4)

/-- `IsAbsolute()` (tPath.h:174): `GetPathStringBegin()[0] == '/'`. -/
def tPath.IsAbsolute (p : tPath) : Option Bool :=
  match p.GetPathStringBegin with
  | c :: _ => some (c == 47)
  | [] => none

/-- `operator[]` (tPath.h:260): the range
`(chars + table[index], table[index + 1] - table[index] - 1)`, the length computed in
`uint`; the result is the content of that range, `none` when the table entries or the
range are not inside the path's bytes. -/
def tPath.operatorIndex (p : tPath) (index : Nat) : Option tStringRange :=
  match readUInt p.memory index, readUInt p.memory (index + 1) with
  | some t0, some t1 =>
      let length := toUInt (t1 + (4294967296 - t0) + 4294967295)
      let chars := p.GetPathStringBegin
      if t0 + length ≤ chars.length then some ((chars.drop t0).take length) else none
  | _, _ => none

/-- `operator==` of two paths (tPath.h:252): equal element counts and equal memory. -/
def tPath.operatorEq (lhs rhs : tPath) : Bool :=
  lhs.element_count == rhs.element_count && lhs.memory == rhs.memory

/-- Dereferencing a `tConstIterator` at `element_index` (`UpdateElement`, tPath.h:339):
the empty range at or past the end, else `path[element_index]`. -/
def tConstIterator.UpdateElement (path : tPath) (element_index : Nat) : Option tStringRange :=
  if element_index ≥ path.element_count then some [] else path.operatorIndex element_index

/-- The elements visited by `for (it = ...; it != End(); ++it)`, `k` steps from
`element_index`. -/
def tPath.visit (path : tPath) : Nat → Nat → Option (List tStringRange)
  | 0, _ => some []
  | k + 1, element_index =>
      match tConstIterator.UpdateElement path element_index, tPath.visit path k (element_index + 1) with
      | some e, some rest => some (e :: rest)
      | _, _ => none

/-- All elements, visited from `Begin()` to `End()`. -/
def tPath.elements (path : tPath) : Option (List tStringRange) :=
  path.visit path.element_count 0

/-- The first loop of `Set(bool, begin, end)` (tPath.h:205-212): the entries
`elements[0 .. element_count]`, starting from `current_offset`. -/
def tableEntries : Nat → List tStringRange → List Nat
  | current_offset, [] => [current_offset]
  | current_offset, it :: rest =>
      current_offset :: tableEntries (toUInt (current_offset + (it.length + 1))) rest

/-- The value of `current_offset` after the first loop of `Set(bool, begin, end)`. -/
def finalOffset : Nat → List tStringRange → Nat
  | current_offset, [] => current_offset
  | current_offset, it :: rest => finalOffset (toUInt (current_offset + (it.length + 1))) rest

/-- The second loop of `Set(bool, begin, end)` (tPath.h:225-231): for each element,
`lengths[i]` bytes of it (the length was stored as `uint`), then `'/'`. -/
def copyLoop : List tStringRange → List Byte
  | [] => []
  | it :: rest => it.take (toUInt it.length) ++ 47 :: copyLoop rest

/-- `Set(bool absolute, begin, end)` / `tPath(bool, begin, end)` (tPath.h:196-234).
`memory` is resized to `table_size + current_offset`, the table is copied in, the
characters are written behind it and the last byte is set to 0. The bytes written
behind the table are `current_offset` many unless the `uint` offsets wrapped; then
they run past the end of `memory` (`none`). -/
def tPath.Set_elements (absolute : Bool) (E : List tStringRange) : Option tPath :=
  let start := if absolute then 1 else 0
  let elements := tableEntries start E
  let current_offset := finalOffset start E
  let table_size := (E.length + 1) * 4
  let required_memory := table_size + current_offset
  let written := (if absolute then [(47 : Byte)] else []) ++ copyLoop E
  if written.length = current_offset then
    some ⟨E.length, (elements.flatMap uintBytes ++ written).set (required_memory - 1) 0⟩
  else none


/-- The scan of `Set(const tStringRange&, char)` (tPath.cpp:121-128): for every index
`i` with `1 ≤ i < end_index` holding the separator, the entry `i + 1`, stored as `uint`. -/
def separatorEntries (path_string : List Byte) (separator : Byte) (end_index : Nat) :
    List Nat :=
  ((List.range end_index).filter
    (fun i => decide (1 ≤ i) && decide (path_string[i]? = some separator))).map
      (fun i => toUInt (i + 1))

/-- The loop `for (i = 1; i < element_count; i++) memory[table_size + elements[i] - 1] = '/'`
(tPath.cpp:143-146), over the entries `elements[1 .. element_count - 1]`. -/
def rewriteSeparators (table_size : Nat) : List Nat → List Byte → List Byte
  | [], memory => memory
  | entry :: rest, memory =>
      rewriteSeparators table_size rest (memory.set (table_size + entry - 1) 47)

/-- `Set(const tStringRange& path_string, char separator)` / `tPath(path_string, separator)`
(tPath.cpp:110-149). For an empty `path_string` the source reads
`CharPointer()[Length() - 1]`, a byte in front of the range, and writes `elements[1]` of
an array of one entry: `none`. -/
def tPath.Set_string (path_string : List Byte) (separator : Byte) : Option tPath :=
  match path_string with
  | [] => none
  | first :: _ =>
      let absolute := first == separator
      let start_index := if absolute then 1 else 0
      let end_index := path_string.length -
        (if path_string.getLast? = some separator then 1 else 0)
      let found := separatorEntries path_string separator end_index
      let element_count := 1 + found.length
      let elements := start_index :: found ++ [toUInt (end_index + 1)]
      let table_size := (element_count + 1) * 4
      let required_memory := table_size + end_index + 1
      let memory := elements.flatMap uintBytes ++ path_string.take end_index ++ [0]
      let memory :=
        if separator ≠ 47 then
          rewriteSeparators table_size found
            (if absolute then memory.set table_size 47 else memory)
        else memory
      some ⟨element_count, memory.set (required_memory - 1) 0⟩

/-- The loop of `Normalize` (tPath.cpp:72-90): `k` iterations from index `i`, on the
buffer and the index `w` of `current_write_element`. `"."` is `[46]`, `".."` is
`[46, 46]`; ranges are compared by content. -/
def NormalizeLoop : Nat → Nat → List tStringRange → Nat → List tStringRange × Nat
  | 0, _, buffer, w => (buffer, w)
  | k + 1, i, buffer, w =>
      let e := buffer.getD i []
      if e = [46] then NormalizeLoop k (i + 1) buffer w
      else if e = [46, 46] then
        NormalizeLoop k (i + 1) buffer (if w > 0 then w - 1 else w)
      else NormalizeLoop k (i + 1) (buffer.set w e) (w + 1)

/-- `Normalize(buffer, size)` (tPath.cpp:69-92): the buffer afterwards and the returned
count. The only caller passes the length of the buffer as `size`. -/
def Normalize (buffer : List tStringRange) (size : Nat) : List tStringRange × Nat :=
  NormalizeLoop size 0 buffer 0

/-- The loops of `Append` (tPath.cpp:98-105). Their body is `buffer[offset + i] == path[i];`:
an equality test whose value is dropped. Nothing is stored in `buffer`. -/
def compareLoop (buffer : List tStringRange) (path : tPath) (offset : Nat) :
    Nat → Nat → List tStringRange
  | 0, _ => buffer
  | k + 1, i =>
      let _dropped : Bool :=
        decide (some (buffer.getD (offset + i) []) = path.operatorIndex i)
      compareLoop buffer path offset k (i + 1)

/-- `Append` (tPath.cpp:95-108). `buffer` starts as `Size() + append.Size()`
default-constructed ranges; the result is `tPath(IsAbsolute(), &buffer[0], &buffer[size])`
(copying the zero bytes of a default-constructed range does nothing). -/
def tPath.Append (self append : tPath) : Option tPath :=
  let buffer : List tStringRange := List.replicate (self.Size + append.Size) []
  let buffer := compareLoop buffer self 0 self.Size 0
  let buffer := compareLoop buffer append self.Size append.Size 0
  let normalized := Normalize buffer (self.Size + append.Size)
  match self.IsAbsolute with
  | some absolute => tPath.Set_elements absolute (normalized.1.take normalized.2)
  | none => none

/-! ## tURI -/

/-- The content of a null-terminated string that starts with the given bytes: what
precedes the first zero byte. -/
def cstr (bytes : List Byte) : List Byte := bytes.takeWhile (fun c => c ≠ 0)

/-- `std::isalnum` in the "C" locale: ASCII digits and letters. -/
def isalnum (c : Byte) : Bool :=
  (48 ≤ c.val && c.val ≤ 57) || (65 ≤ c.val && c.val ≤ 90) || (97 ≤ c.val && c.val ≤ 122)

/-- `std::isspace` in the "C" locale. -/
def isspace (c : Byte) : Bool := c.val = 32 || (9 ≤ c.val && c.val ≤ 13)

/-- `strchr(s, c) != NULL` for the null-terminated string `s` written without its
terminator. The terminator counts as part of the string: `strchr(s, 0)` finds it. -/
def strchr : List Byte → Byte → Bool
  | [], c => c = 0
  | x :: rest, c => if x = c then true else if x = 0 then false else strchr rest c

/-- `cTO_HEX_TABLE` (tURI.cpp:67). -/
def cTO_HEX_TABLE : List Byte :=
  [48, 49, 50, 51, 52, 53, 54, 55, 56, 57, 65, 66, 67, 68, 69, 70]

/-- `tURI.cUNENCODED_RESERVED_CHARACTERS_PATH` (tURI.cpp:68): `!$&'()*+,;=:@`. -/
def tURI.cUNENCODED_RESERVED_CHARACTERS_PATH : List Byte :=
  [33, 36, 38, 39, 40, 41, 42, 43, 44, 59, 61, 58, 64]

/-- `tURI::Encode` (tURI.cpp:128-148): the bytes written to `encode_buffer`. -/
def tURI.Encode (decoded : List Byte) (unencoded_reserved_characters : List Byte) : List Byte :=
  match decoded with
  | [] => []
  | character :: rest =>
      if isalnum character || strchr unencoded_reserved_characters character ||
          character = 95 || character = 46 || character = 45 || character = 126 then
        character :: tURI.Encode rest unencoded_reserved_characters
      else
        let value := character.val
        37 :: cTO_HEX_TABLE.getD (value >>> 4) 0 :: cTO_HEX_TABLE.getD (value &&& 15) 0 ::
          tURI.Encode rest unencoded_reserved_characters

/-- Value of a character as a digit of `strtol`: `0-9`, then letters of either case
from 10 on. -/
def digitValue (c : Byte) : Option Nat :=
  if 48 ≤ c.val ∧ c.val ≤ 57 then some (c.val - 48)
  else if 97 ≤ c.val ∧ c.val ≤ 122 then some (c.val - 87)
  else if 65 ≤ c.val ∧ c.val ≤ 90 then some (c.val - 55)
  else none

/-- The digits `strtol` consumes in base 16, accumulated from `acc`. -/
def hexDigits : List Byte → Nat → Nat
  | [], acc => acc
  | c :: rest, acc =>
      match digitValue c with
      | some d => if d < 16 then hexDigits rest (acc * 16 + d) else acc
      | none => acc

/-- `strtol(temp, &endptr, 16)` on a null-terminated string: leading white space, an
optional sign, an optional `0x`/`0X`, then hexadecimal digits; 0 when there is no digit.
The caller passes at most two characters, so the value fits a `long`. -/
def strtol16 (temp : List Byte) : Int :=
  let s := (cstr temp).dropWhile isspace
  let negative := s.head? = some 45
  let s := if s.head? = some 45 ∨ s.head? = some 43 then s.tail else s
  let s := if s.head? = some 48 ∧ (s.tail.head? = some 120 ∨ s.tail.head? = some 88)
    then s.tail.tail else s
  let magnitude : Int := hexDigits s 0
  if negative then -magnitude else magnitude

/-- `static_cast<char>` of a `long`: the low byte. -/
def castChar (v : Int) : Byte := toByte (v % 256).toNat

/-- `tURI::Decode` (tURI.cpp:98-126): the bytes written to `decode_buffer`, `none` where
the source throws `std::invalid_argument`. -/
def tURI.Decode : List Byte → Option (List Byte)
  | [] => some []
  | c :: rest =>
      if c ≠ 37 then (tURI.Decode rest).map (fun out => c :: out)
      else
        match rest with
        | h1 :: h2 :: rest2 =>
            let result := castChar (strtol16 [h1, h2, 0])
            if result = 0 then none
            else (tURI.Decode rest2).map (fun out => result :: out)
        | _ => none

/-- `TotalCharacters()` (tPath.h:247), a `size_t` difference (64 bits). -/
def tPath.TotalCharacters (p : tPath) : Nat :=
  (p.memory.length + 18446744073709551616 - (p.element_count + 1) * 4 % 18446744073709551616)
    % 18446744073709551616

/-- The URI string wrapped by `tURI` (tURI.h:139). -/
structure tURI where
  uri : List Byte
deriving DecidableEq, Repr

/-- `ToString()` (tURI.h:117). -/
def tURI.ToString (self : tURI) : List Byte := self.uri

/-- The loop of `tURI::tURI(const tPath&, const char*)` (tURI.cpp:85-93): what `k`
iterations from index `i` write to `buffer`. -/
def encodeLoop (path : tPath) (unencoded_reserved_characters : List Byte) :
    Nat → Nat → Option (List Byte)
  | 0, _ => some []
  | k + 1, i =>
      match path.operatorIndex i,
          encodeLoop path unencoded_reserved_characters k (i + 1) with
      | some element, some rest =>
          some ((if i > 0 then [(47 : Byte)] else []) ++
            tURI.Encode element unencoded_reserved_characters ++ rest)
      | _, _ => none

/-- `tURI::tURI(const tPath& path, const char* unencoded_reserved_characters)`
(tURI.cpp:75-96). `buffer` has `TotalCharacters() * 3 + 1` bytes; `uri = buffer` reads it
as a null-terminated string. `none` when the path's bytes cannot be read, when `memory`
is too short for its table (`TotalCharacters()` wraps around) or when the text does not
fit `buffer`. -/
def tURI.ofPath (path : tPath) (unencoded_reserved_characters : List Byte) : Option tURI :=
  if path.memory.length < (path.element_count + 1) * 4 then none
  else
    match path.IsAbsolute, encodeLoop path unencoded_reserved_characters path.Size 0 with
    | some absolute, some body =>
        let buffer := (if absolute then [(47 : Byte)] else []) ++ body
        if buffer.length + 1 ≤ path.TotalCharacters * 3 + 1 then some ⟨cstr buffer⟩
        else none
    | _, _ => none

/-- The sub-matches of `cPARSE_REGEX` (tURI.cpp:66) that `Parse` reads: groups 2, 4, 5,
7 and 9; `none` is a group that did not take part in the match. Group 5 is not optional
in the expression, so it takes part in every match. -/
structure tMatch where
  group2 : Option (List Byte)
  group4 : Option (List Byte)
  group5 : List Byte
  group7 : Option (List Byte)
  group9 : Option (List Byte)
deriving DecidableEq, Repr

/-- `std::regex_match(uri, match, cPARSE_REGEX)` for
`^(([^:/?#]+):)?(//([^/?#]*))?([^?#]*)(\?([^#]*))?(#(.*))?` (ECMAScript grammar, greedy
quantifiers, the whole string has to match):
* group 2 is the longest run of characters other than `: / ? #`, taken when it is not
  empty and a `:` follows it;
* group 4 follows `//` and runs up to the next `/ ? #`;
* group 5 runs up to the next `? #`;
* group 7 follows `?` and runs up to the next `#`;
* group 9 follows `#` and is the rest, in which `.` accepts every character but the line
  terminators `\n` and `\r`; with one of these behind the `#` nothing matches. -/
def regex_match (uri : List Byte) : Option tMatch :=
  let inScheme : Byte → Bool := fun c => c ≠ 58 && c ≠ 47 && c ≠ 63 && c ≠ 35
  let run := uri.takeWhile inScheme
  let afterRun := uri.dropWhile inScheme
  let hasScheme := decide (run ≠ []) && decide (afterRun.head? = some 58)
  let s1 := if hasScheme then afterRun.tail else uri
  let inAuthority : Byte → Bool := fun c => c ≠ 47 && c ≠ 63 && c ≠ 35
  let hasAuthority := decide (s1.head? = some 47) && decide (s1.tail.head? = some 47)
  let s2 := if hasAuthority then s1.tail.tail.dropWhile inAuthority else s1
  let inPath : Byte → Bool := fun c => c ≠ 63 && c ≠ 35
  let s3 := s2.dropWhile inPath
  let hasQuery := decide (s3.head? = some 63)
  let s4 := if hasQuery then s3.tail.dropWhile (fun c => c ≠ 35) else s3
  let hasFragment := decide (s4.head? = some 35)
  if hasFragment && !(s4.tail.all (fun c => c ≠ 10 && c ≠ 13)) then none
  else
    some {
      group2 := if hasScheme then some run else none
      group4 := if hasAuthority then some (s1.tail.tail.takeWhile inAuthority) else none
      group5 := s2.takeWhile inPath
      group7 := if hasQuery then some (s3.tail.takeWhile (fun c => c ≠ 35)) else none
      group9 := if hasFragment then some s4.tail else none }

/-- The fields of `tURIElements` (tURIElements.h:70-77). -/
structure tURIElements where
  scheme : List Byte
  authority : List Byte
  path : tPath
  query : List Byte
  fragment : List Byte
deriving DecidableEq, Repr

/-- How a call ends: it returns, it throws `std::invalid_argument`, or it reads outside
the bytes it may read. -/
inductive tOutcome where
  | returned
  | invalid_argument
  | undefined
deriving DecidableEq, Repr

/-- `tURI::Parse(tURIElements& result)` (tURI.cpp:150-166): how the call ends and the
state of `result` afterwards. `tURI.Decode` runs before the first assignment to `result`;
`tPath(decoded_buffer)` reads the decoded bytes as a null-terminated string. Group 5 takes
part in every match, so the path is always built from the decoded text. Where the call
has no defined result the state of `result` carries no meaning. -/
def tURI.Parse (self : tURI) (result : tURIElements) : tOutcome × tURIElements :=
  match regex_match self.uri with
  | none => (tOutcome.invalid_argument, result)
  | some m =>
      match tURI.Decode m.group5 with
      | none => (tOutcome.invalid_argument, result)
      | some decoded =>
          match tPath.Set_string (cstr decoded) 47 with
          | none => (tOutcome.undefined, result)
          | some path =>
              (tOutcome.returned,
                { scheme := m.group2.getD []
                  authority := m.group4.getD []
                  path := path
                  query := m.group7.getD []
                  fragment := m.group9.getD [] })

/-- The bytes of an ASCII string literal. -/
def bytes (s : String) : List Byte := s.toList.map (fun c => toByte c.toNat)

/-- Number of characters `Set(bool, begin, end)` needs behind the table. -/
def packedSize (absolute : Bool) (E : List tStringRange) : Nat :=
  (if absolute then 1 else 0) + (E.map (fun e => e.length + 1)).sum

/-! ## Further members of tPath: comparison, order, binary stream operators -/

/-- `Clear()` (tPath.h:141): `element_count = 0; memory.clear()`. -/
def tPath.Clear (_self : tPath) : tPath := ⟨0, []⟩

/-- `end_index` of `Set(path_string, separator)` (tPath.cpp:114). -/
def endIndex (path_string : List Byte) (separator : Byte) : Nat :=
  path_string.length - (if path_string.getLast? = some separator then 1 else 0)

/-- The loop of `CountCommonElements` (tPath.h:150-157): `k` iterations from index `i`,
returning `i` at the first `(*this)[i] != other[i]` and `max` after the last iteration.
Ranges are compared by content (tStringRange.h:114-122); `none` when one of the two
ranges is not inside its path's bytes (the source compares the lengths first and reads the
bytes of two ranges of equal length). -/
def countLoop (self other : tPath) (max : Nat) : Nat → Nat → Option Nat
  | 0, _ => some max
  | k + 1, i =>
      match self.operatorIndex i, other.operatorIndex i with
      | some lhs, some rhs =>
          if lhs ≠ rhs then some i else countLoop self other max k (i + 1)
      | _, _ => none

/-- `CountCommonElements(other)` (tPath.h:147-161):
`max = std::max(other.Size(), this->Size())`, then the loop over `i < max`. -/
def tPath.CountCommonElements (self other : tPath) : Option Nat :=
  let max := Nat.max other.Size self.Size
  countLoop self other max max 0

/-- The value of a `char` in a comparison: `char` is signed (x86-64). -/
def charValue (c : Byte) : Int := if c.val < 128 then (c.val : Int) else (c.val : Int) - 256

/-- `operator<` of `std::vector<char>`: `std::lexicographical_compare` on the `char`s. -/
def vectorLess : List Byte → List Byte → Bool
  | [], [] => false
  | [], _ :: _ => true
  | _ :: _, [] => false
  | a :: as, b :: bs =>
      if charValue a < charValue b then true
      else if charValue b < charValue a then false
      else vectorLess as bs

/-- `operator<` of two paths (tPath.h:256):
`std::tie(lhs.element_count, lhs.memory) < std::tie(rhs.element_count, rhs.memory)`. -/
def tPath.operatorLess (lhs rhs : tPath) : Bool :=
  decide (lhs.element_count < rhs.element_count) ||
    (!decide (rhs.element_count < lhs.element_count) && vectorLess lhs.memory rhs.memory)

/-- Modelled from the spec: `WriteInt` of the binary output stream (rrlib/serialization,
not among the sources), "a 32-bit integer": the four bytes of the low 32 bits. -/
def WriteInt (v : Nat) : List Byte := uintBytes v

/-- Modelled from the spec: `ReadInt` of the binary input stream (rrlib/serialization, not
among the sources): the next four bytes as a signed 32-bit integer, and the rest of the
stream. -/
def ReadInt (stream : List Byte) : Option (Int × List Byte) :=
  match stream with
  | b0 :: b1 :: b2 :: b3 :: rest =>
      let v := b0.val + 256 * b1.val + 65536 * b2.val + 16777216 * b3.val
      some (if v < 2147483648 then (v : Int) else (v : Int) - 4294967296, rest)
  | _ => none

/-- The loop of `operator<<(tOutputStream&, const tPath&)` (tPath.cpp:160-163): each
`stream << path[i]` writes the bytes of the element and a zero byte (tStringRange.h:124). -/
def writeElements (path : tPath) : Nat → Nat → Option (List Byte)
  | 0, _ => some []
  | k + 1, i =>
      match path.operatorIndex i, writeElements path k (i + 1) with
      | some element, some rest => some (element ++ 0 :: rest)
      | _, _ => none

/-- `operator<<(tOutputStream&, const tPath&)` (tPath.cpp:152-165): the bytes written to
the stream. -/
def tPath.writeBinary (path : tPath) : Option (List Byte) :=
  match path.IsAbsolute, writeElements path path.Size 0 with
  | some absolute, some body =>
      some (WriteInt path.TotalCharacters ++ ((if absolute then [(0 : Byte)] else []) ++ body))
  | _, _ => none

/-- `operator>>(tInputStream&, tPath&)` (tPath.cpp:167-174): `size_t size = ReadInt()`,
`size` bytes are read into `buffer`, then `Set(tStringRange(buffer, size), 0)`. `none`
when the stream does not hold the integer or `size` further bytes, and where `Set` has no
defined result. -/
def tPath.readBinary (stream : List Byte) : Option tPath :=
  match ReadInt stream with
  | some (v, rest) =>
      let size := (v % 18446744073709551616).toNat
      if size ≤ rest.length then tPath.Set_string (rest.take size) 0 else none
  | none => none

/-! ## The wording of the specification, for comparison with the code -/

/-- Spec 4.7, "hex digits": `0-9`, `A-F`, `a-f`. -/
def isHexDigit (c : Byte) : Bool :=
  (48 ≤ c.val && c.val ≤ 57) || (65 ≤ c.val && c.val ≤ 70) || (97 ≤ c.val && c.val ≤ 102)

/-- Value of a hexadecimal digit (0 for any other character). -/
def hexValue (c : Byte) : Nat :=
  if 48 ≤ c.val ∧ c.val ≤ 57 then c.val - 48
  else if 65 ≤ c.val ∧ c.val ≤ 70 then c.val - 55
  else if 97 ≤ c.val ∧ c.val ≤ 102 then c.val - 87
  else 0

/-- Spec 4.7: every `%` of the input is followed, inside the input, by two hexadecimal
digits that denote a non-zero byte. -/
def escapesValid : List Byte → Bool
  | [] => true
  | c :: rest =>
      (c != 37 ||
        match rest with
        | h1 :: h2 :: _ =>
            isHexDigit h1 && isHexDigit h2 && (16 * hexValue h1 + hexValue h2 != 0)
        | _ => false) && escapesValid rest

/-- Spec 4.7, the decoded text: bytes other than `%` verbatim, each escape `%XY` replaced
by the byte `0xXY`, in order. -/
def specDecode : List Byte → List Byte
  | [] => []
  | c :: rest =>
      if c = 37 then
        match rest with
        | h1 :: h2 :: rest2 => toByte (16 * hexValue h1 + hexValue h2) :: specDecode rest2
        | _ => []
      else c :: specDecode rest

/-- Auxiliary: the indices at which `c` stands in a string, counted from `off`. -/
def positions (c : Byte) : Nat → List Byte → List Nat
  | _, [] => []
  | off, b :: rest =>
      if b = c then off :: positions c (off + 1) rest else positions c (off + 1) rest

/-- The pieces of a string split at every occurrence of `c`: an empty piece stands between
two consecutive occurrences, in front of a leading and behind a trailing one. -/
def pieces (c : Byte) : List Byte → List (List Byte)
  | [] => [[]]
  | b :: rest =>
      if b = c then [] :: pieces c rest
      else
        match pieces c rest with
        | [] => [[b]]
        | p :: ps => (b :: p) :: ps

/-- The string `s` without one leading `c`, if it starts with `c`, and without one trailing
`c`, if it ends with `c`. -/
def remainder (s : List Byte) (c : Byte) : List Byte :=
  (if s.getLast? = some c then s.dropLast else s).drop (if s.head? = some c then 1 else 0)

/-- One step of the stack definition of normalization, the top of the stack being the
last entry: `.` leaves the stack unchanged, `..` pops the top if the stack is not empty
and is dropped otherwise, any other element is pushed. -/
def stackStep (stack : List tStringRange) (element : tStringRange) : List tStringRange :=
  if element = [46] then stack
  else if element = [46, 46] then (if stack ≠ [] then stack.dropLast else stack)
  else stack ++ [element]

/-- The stack obtained by folding the element sequence left to right from the empty
stack. -/
def stackNormalize (P : List tStringRange) : List tStringRange := P.foldl stackStep []

/-- The canonical path string: a leading `/` if absolute, then the elements with one `/`
between consecutive elements. -/
def canonicalString (absolute : Bool) (E : List tStringRange) : List Byte :=
  (if absolute then [(47 : Byte)] else []) ++ List.intercalate [47] E

/-! ## Theorems -/

theorem toUInt_of_lt {n : Nat} (h : n < 4294967296) : toUInt n = n :=
  Nat.mod_eq_of_lt h

theorem finalOffset_eq (E : List tStringRange) :
    ∀ off, off + (E.map (fun e => e.length + 1)).sum < 4294967296 →
      finalOffset off E = off + (E.map (fun e => e.length + 1)).sum := by
  induction E with
  | nil => intro off _; simp [finalOffset]
  | cons e rest ih =>
      intro off h
      simp only [List.map_cons, List.sum_cons] at h ⊢
      have h1 : toUInt (off + (e.length + 1)) = off + (e.length + 1) :=
        toUInt_of_lt (by omega)
      simp only [finalOffset, h1]
      rw [ih _ (by omega)]
      omega

theorem copyLoop_eq (E : List tStringRange)
    (h : (E.map (fun e => e.length + 1)).sum < 4294967296) :
    copyLoop E = E.flatMap (fun e => e ++ [47]) := by
  induction E with
  | nil => rfl
  | cons e rest ih =>
      simp only [List.map_cons, List.sum_cons] at h
      have h1 : toUInt e.length = e.length := toUInt_of_lt (by omega)
      simp only [copyLoop, h1, List.take_length, List.flatMap_cons, ih (by omega)]
      simp

theorem flatMap_sep_length (E : List tStringRange) :
    (E.flatMap (fun e => e ++ [(47 : Byte)])).length = (E.map (fun e => e.length + 1)).sum := by
  induction E with
  | nil => rfl
  | cons e rest ih =>
      rw [List.flatMap_cons, List.length_append, ih]
      simp

theorem tableEntries_length (E : List tStringRange) :
    ∀ off, (tableEntries off E).length = E.length + 1 := by
  induction E with
  | nil => intro off; rfl
  | cons e rest ih => intro off; simp [tableEntries, ih]

theorem tableEntries_getElem? (E : List tStringRange) :
    ∀ off i, off + (E.map (fun e => e.length + 1)).sum < 4294967296 → i ≤ E.length →
      (tableEntries off E)[i]? = some (off + ((E.take i).map (fun e => e.length + 1)).sum) := by
  induction E with
  | nil =>
      intro off i _ hi
      have : i = 0 := by simpa using hi
      subst this
      simp [tableEntries]
  | cons e rest ih =>
      intro off i h hi
      simp only [List.map_cons, List.sum_cons] at h
      cases i with
      | zero => simp [tableEntries]
      | succ j =>
          have h1 : toUInt (off + (e.length + 1)) = off + (e.length + 1) :=
            toUInt_of_lt (by omega)
          simp only [tableEntries, h1, List.getElem?_cons_succ, List.take_succ_cons,
            List.map_cons, List.sum_cons]
          rw [ih _ j (by omega) (by simpa using hi)]
          congr 1
          omega

theorem tableEntries_lt (E : List tStringRange) :
    ∀ off, off + (E.map (fun e => e.length + 1)).sum < 4294967296 →
      ∀ t ∈ tableEntries off E, t < 4294967296 := by
  induction E with
  | nil => intro off h t ht; simp [tableEntries] at ht; subst ht; simpa using h
  | cons e rest ih =>
      intro off h t ht
      simp only [List.map_cons, List.sum_cons] at h
      have h1 : toUInt (off + (e.length + 1)) = off + (e.length + 1) :=
        toUInt_of_lt (by omega)
      simp only [tableEntries, h1, List.mem_cons] at ht
      rcases ht with rfl | ht
      · omega
      · exact ih _ (by omega) t ht

theorem readUInt_uintBytes (t : Nat) (h : t < 4294967296) (rest : List Byte) :
    readUInt (uintBytes t ++ rest) 0 = some t := by
  simp only [readUInt, uintBytes, toByte, List.drop_zero, List.cons_append, List.nil_append,
    Option.some.injEq, Nat.mul_zero]
  omega

theorem readUInt_table (tbl : List Nat) :
    ∀ (i : Nat) (t : Nat) (rest : List Byte), tbl[i]? = some t → t < 4294967296 →
      readUInt (tbl.flatMap uintBytes ++ rest) i = some t := by
  induction tbl with
  | nil => intro i t rest h; simp at h
  | cons a as ih =>
      intro i t rest h ht
      cases i with
      | zero =>
          simp only [List.getElem?_cons_zero, Option.some.injEq] at h
          subst h
          simp only [List.flatMap_cons, List.append_assoc]
          exact readUInt_uintBytes a ht _
      | succ j =>
          simp only [List.getElem?_cons_succ] at h
          have := ih j t rest h ht
          simp only [readUInt, List.flatMap_cons, uintBytes, List.cons_append,
            List.nil_append] at this ⊢
          have e : 4 * (j + 1) = 4 * j + 1 + 1 + 1 + 1 := by omega
          rw [e]
          simpa only [List.drop_succ_cons] using this

theorem flatMap_uintBytes_length (tbl : List Nat) :
    (tbl.flatMap uintBytes).length = 4 * tbl.length := by
  induction tbl with
  | nil => rfl
  | cons a as ih =>
      rw [List.flatMap_cons, List.length_append, ih]
      simp [uintBytes]
      omega

theorem GetPathStringBegin_table (n : Nat) (tbl : List Nat) (chars : List Byte)
    (hlen : tbl.length = n + 1) :
    tPath.GetPathStringBegin ⟨n, tbl.flatMap uintBytes ++ chars⟩ = chars := by
  have hl := flatMap_uintBytes_length tbl
  have hne : (tbl.flatMap uintBytes ++ chars).length ≠ 0 := by
    rw [List.length_append, hl, hlen]; omega
  have hd : (n + 1) * 4 = (tbl.flatMap uintBytes).length := by rw [hl, hlen]; omega
  simp only [tPath.GetPathStringBegin, if_neg hne, hd, List.drop_left]

theorem operatorIndex_table (n : Nat) (tbl : List Nat) (chars : List Byte) (i t0 t1 : Nat)
    (hlen : tbl.length = n + 1) (h0 : tbl[i]? = some t0) (h1 : tbl[i + 1]? = some t1)
    (ht0 : t0 < 4294967296) (ht1 : t1 < 4294967296) :
    tPath.operatorIndex ⟨n, tbl.flatMap uintBytes ++ chars⟩ i =
      if t0 + toUInt (t1 + (4294967296 - t0) + 4294967295) ≤ chars.length then
        some ((chars.drop t0).take (toUInt (t1 + (4294967296 - t0) + 4294967295)))
      else none := by
  simp only [tPath.operatorIndex, readUInt_table tbl i t0 chars h0 ht0,
    readUInt_table tbl (i + 1) t1 chars h1 ht1, GetPathStringBegin_table n tbl chars hlen]

theorem slice_set_append (A M B : List Byte) (k : Nat) (x : Byte)
    (hk : A.length + M.length ≤ k) :
    (((A ++ (M ++ B)).set k x).drop A.length).take M.length = M := by
  have h1 : ¬ k < A.length := by omega
  have h2 : ¬ k - A.length < M.length := by omega
  rw [List.set_append, if_neg h1, List.drop_left, List.set_append, if_neg h2, List.take_left]

theorem flatMap_sep_split (E : List tStringRange) (i : Nat) (hi : i < E.length) :
    E.flatMap (fun e => e ++ [(47 : Byte)]) =
      (E.take i).flatMap (fun e => e ++ [(47 : Byte)]) ++
        (E[i] ++ (47 :: (E.drop (i + 1)).flatMap (fun e => e ++ [(47 : Byte)]))) := by
  have hsplit : E = E.take i ++ E[i] :: E.drop (i + 1) := by
    rw [← List.drop_eq_getElem_cons hi, List.take_append_drop]
  conv_lhs => rw [hsplit]
  rw [List.flatMap_append, List.flatMap_cons, List.append_assoc]
  rfl

theorem visit_of_operatorIndex (p : tPath) (E : List tStringRange)
    (hn : p.element_count = E.length)
    (hE : ∀ i (hi : i < E.length), p.operatorIndex i = some E[i]) :
    ∀ k i, i + k = E.length → p.visit k i = some (E.drop i) := by
  intro k
  induction k with
  | zero =>
      intro i h
      simp only [Nat.add_zero] at h
      subst h
      simp [tPath.visit]
  | succ k ih =>
      intro i h
      have hi : i < E.length := by omega
      have h1 : ¬ i ≥ p.element_count := by omega
      simp only [tPath.visit, tConstIterator.UpdateElement, if_neg h1, hE i hi, ih (i + 1) (by omega)]
      rw [List.drop_eq_getElem_cons hi]

theorem Set_elements_eq (absolute : Bool) (E : List tStringRange) (hE : E ≠ [])
    (h : packedSize absolute E < 4294967296) :
    tPath.Set_elements absolute E =
      some ⟨E.length,
        (tableEntries (if absolute then 1 else 0) E).flatMap uintBytes ++
          (((if absolute then [(47 : Byte)] else []) ++
            E.flatMap (fun e => e ++ [(47 : Byte)])).set
              ((if absolute then 1 else 0) + (E.map (fun e => e.length + 1)).sum - 1) 0)⟩ := by
  unfold packedSize at h
  have hsum := flatMap_sep_length E
  have hcopy : copyLoop E = E.flatMap (fun e => e ++ [(47 : Byte)]) := copyLoop_eq E (by omega)
  have hfin := finalOffset_eq E (if absolute then 1 else 0) h
  have hpos : 1 ≤ (E.map (fun e => e.length + 1)).sum := by
    cases E with
    | nil => exact absurd rfl hE
    | cons e rest => simp only [List.map_cons, List.sum_cons]; omega
  have hpl : ((if absolute then [(47 : Byte)] else []) : List Byte).length
      = (if absolute then 1 else 0) := by cases absolute <;> rfl
  have htl := flatMap_uintBytes_length (tableEntries (if absolute then 1 else 0) E)
  rw [tableEntries_length] at htl
  simp only [tPath.Set_elements, hcopy, hfin, List.length_append, hsum, hpl, if_true]
  have hk : ¬ ((E.length + 1) * 4 + ((if absolute then 1 else 0) +
      (E.map (fun e => e.length + 1)).sum) - 1 <
        ((tableEntries (if absolute then 1 else 0) E).flatMap uintBytes).length) := by
    rw [htl]; omega
  rw [List.set_append, if_neg hk, htl]
  have hidx : (E.length + 1) * 4 + ((if absolute then 1 else 0) +
      (E.map (fun e => e.length + 1)).sum) - 1 - 4 * (E.length + 1) =
      (if absolute then 1 else 0) + (E.map (fun e => e.length + 1)).sum - 1 := by omega
  rw [hidx]

/-- What `operator[]` reads from the memory `Set(bool, begin, end)` builds, below the
`uint` range. -/
theorem Set_elements_operatorIndex (absolute : Bool) (E : List tStringRange)
    (h : packedSize absolute E < 4294967296) (i : Nat) (hi : i < E.length) :
    tPath.operatorIndex ⟨E.length,
      (tableEntries (if absolute then 1 else 0) E).flatMap uintBytes ++
        (((if absolute then [(47 : Byte)] else []) ++
          E.flatMap (fun e => e ++ [(47 : Byte)])).set
            ((if absolute then 1 else 0) + (E.map (fun e => e.length + 1)).sum - 1) 0)⟩ i
      = some E[i] := by
  unfold packedSize at h
  have hpl : ((if absolute then [(47 : Byte)] else []) : List Byte).length
      = (if absolute then 1 else 0) := by cases absolute <;> rfl
  have g0 := tableEntries_getElem? E (if absolute then 1 else 0) i h (by omega)
  have g1 := tableEntries_getElem? E (if absolute then 1 else 0) (i + 1) h (by omega)
  have hlt := tableEntries_lt E (if absolute then 1 else 0) h
  have hsplit := flatMap_sep_split E i hi
  have hs1 := flatMap_sep_length (E.take i)
  have hs2 := flatMap_sep_length E
  have htake : ((E.take (i + 1)).map (fun e => e.length + 1)).sum =
      ((E.take i).map (fun e => e.length + 1)).sum + (E[i].length + 1) := by
    rw [List.take_succ, List.getElem?_eq_getElem hi, List.map_append, List.sum_append]
    simp only [Option.toList, List.map_cons, List.map_nil, List.sum_cons, List.sum_nil,
      Nat.add_zero]
  have hle : ((E.take i).map (fun e => e.length + 1)).sum + (E[i].length + 1) ≤
      (E.map (fun e => e.length + 1)).sum := by
    rw [← hs2, hsplit, List.length_append, hs1]
    simp only [List.length_append, List.length_cons]
    omega
  rw [operatorIndex_table E.length _ _ i _ _ (tableEntries_length E _) g0 g1
    (hlt _ (List.getElem?_mem g0)) (hlt _ (List.getElem?_mem g1))]
  rw [htake]
  have hlen : toUInt ((if absolute then 1 else 0) +
      (((E.take i).map (fun e => e.length + 1)).sum + (E[i].length + 1)) +
      (4294967296 - ((if absolute then 1 else 0) +
        ((E.take i).map (fun e => e.length + 1)).sum)) + 4294967295) = E[i].length := by
    unfold toUInt
    omega
  rw [hlen]
  have hbound : (if absolute then 1 else 0) +
      ((E.take i).map (fun e => e.length + 1)).sum + E[i].length ≤
      (((if absolute then [(47 : Byte)] else []) ++
          E.flatMap (fun e => e ++ [(47 : Byte)])).set
            ((if absolute then 1 else 0) + (E.map (fun e => e.length + 1)).sum - 1)
              0).length := by
    rw [List.length_set, List.length_append, hs2, hpl]
    omega
  rw [if_pos hbound]
  refine congrArg some ?_
  have hA : ((if absolute then [(47 : Byte)] else []) ++
      (E.take i).flatMap (fun e => e ++ [(47 : Byte)])).length =
      (if absolute then 1 else 0) + ((E.take i).map (fun e => e.length + 1)).sum := by
    rw [List.length_append, hs1, hpl]
  have := slice_set_append
    ((if absolute then [(47 : Byte)] else []) ++
      (E.take i).flatMap (fun e => e ++ [(47 : Byte)]))
    E[i] (47 :: (E.drop (i + 1)).flatMap (fun e => e ++ [(47 : Byte)]))
    ((if absolute then 1 else 0) + (E.map (fun e => e.length + 1)).sum - 1) 0
    (by rw [hA]; omega)
  rw [hA, List.append_assoc, ← hsplit] at this
  exact this

/-- C1 (amended): for every flag and every element sequence whose packed size (one byte
for an absolute path, plus the length of each element plus one) is below `2^32`,
`Set(absolute, begin, end)` yields a path with `Size() == |E|` whose `operator[](i)`, and
whose iteration from `Begin()` to `End()`, give the elements of `E` byte for byte, in
order; nothing is normalized. -/
theorem Set_elements_roundtrip (absolute : Bool) (E : List tStringRange)
    (h : packedSize absolute E < 4294967296) :
    ∃ p, tPath.Set_elements absolute E = some p ∧ p.Size = E.length ∧
      (∀ i (hi : i < E.length), p.operatorIndex i = some E[i]) ∧
      p.elements = some E := by
  by_cases hE : E = []
  · subst hE
    cases absolute
    · exact ⟨_, rfl, rfl, fun i hi => absurd hi (by simp), rfl⟩
    · exact ⟨_, rfl, rfl, fun i hi => absurd hi (by simp), rfl⟩
  · refine ⟨_, Set_elements_eq absolute E hE h, rfl,
      Set_elements_operatorIndex absolute E h, ?_⟩
    have := visit_of_operatorIndex _ E rfl (Set_elements_operatorIndex absolute E h)
      E.length 0 (by omega)
    simpa [tPath.elements] using this

/-- C1, witness: the absolute path of the elements `a`, `.` and `..`. -/
theorem Set_elements_roundtrip_witness :
    packedSize true [[97], [46], [46, 46]] < 4294967296 ∧
      ∃ p, tPath.Set_elements true [[97], [46], [46, 46]] = some p ∧
        p.Size = [[(97 : Byte)], [46], [46, 46]].length ∧
        (∀ i (hi : i < [[(97 : Byte)], [46], [46, 46]].length),
          p.operatorIndex i = some [[(97 : Byte)], [46], [46, 46]][i]) ∧
        p.elements = some [[97], [46], [46, 46]] :=
  ⟨by decide, Set_elements_roundtrip true [[97], [46], [46, 46]] (by decide)⟩

theorem Set_elements_huge_element :
    tPath.Set_elements false [List.replicate 4294967296 97] = some ⟨1, [0, 0, 0, 0, 1, 0, 0, 0, 0]⟩ := by
  have h1 : toUInt (0 + ((List.replicate 4294967296 (97 : Byte)).length + 1)) = 1 := by
    rw [List.length_replicate]; rfl
  have h2 : toUInt (List.replicate 4294967296 (97 : Byte)).length = 0 := by
    rw [List.length_replicate]; rfl
  have t : tableEntries 0 [List.replicate 4294967296 (97 : Byte)] = [0, 1] := by
    rw [tableEntries, tableEntries, h1]
  have f : finalOffset 0 [List.replicate 4294967296 (97 : Byte)] = 1 := by
    rw [finalOffset, finalOffset, h1]
  have c : copyLoop [List.replicate 4294967296 (97 : Byte)] = [47] := by
    rw [copyLoop, copyLoop, h2, List.take_zero]; rfl
  unfold tPath.Set_elements
  simp only [Bool.false_eq_true, if_false, t, f, c]
  rfl

/-- C1, counterexample: one element of `2^32` bytes. Its length is stored as the `uint`
0 and `current_offset` wraps to 1, so the path has one element, the empty one. -/
theorem Set_elements_not_verbatim :
    (tPath.Set_elements false [List.replicate 4294967296 97]).bind
        (fun p => p.operatorIndex 0) = some [] ∧
      (tPath.Set_elements false [List.replicate 4294967296 97]).bind
        (fun p => p.operatorIndex 0) ≠ some (List.replicate 4294967296 97) := by
  rw [Set_elements_huge_element]
  have h : tPath.operatorIndex ⟨1, [0, 0, 0, 0, 1, 0, 0, 0, 0]⟩ 0 = some [] := by decide
  simp only [Option.some_bind, h, ne_eq, Option.some.injEq, true_and]
  intro hc
  have := congrArg List.length hc
  rw [List.length_replicate] at this
  simp at this

theorem compareLoop_eq (buffer : List tStringRange) (path : tPath) (offset : Nat) :
    ∀ k i, compareLoop buffer path offset k i = buffer := by
  intro k
  induction k with
  | zero => intro i; rfl
  | succ k ih => intro i; simpa only [compareLoop] using ih (i + 1)

theorem replicate_nil_getD (n i : Nat) :
    (List.replicate n ([] : tStringRange)).getD i [] = [] := by
  rw [List.getD_eq_getElem?_getD, List.getElem?_replicate]
  split <;> rfl

theorem replicate_nil_set (n w : Nat) :
    (List.replicate n ([] : tStringRange)).set w [] = List.replicate n [] := by
  induction n generalizing w with
  | zero => rfl
  | succ n ih =>
      cases w with
      | zero => rfl
      | succ w => simp only [List.replicate_succ, List.set_cons_succ, ih]

theorem NormalizeLoop_replicate (n : Nat) :
    ∀ k i w, NormalizeLoop k i (List.replicate n []) w = (List.replicate n [], w + k) := by
  intro k
  induction k with
  | zero => intro i w; rfl
  | succ k ih =>
      intro i w
      have h1 : ¬ (([] : tStringRange) = [46]) := by decide
      have h2 : ¬ (([] : tStringRange) = [46, 46]) := by decide
      simp only [NormalizeLoop, replicate_nil_getD, if_neg h1, if_neg h2, replicate_nil_set, ih]
      congr 1
      omega

/-- What `Append` computes, for all operands: the elements of neither operand reach the
result, which is built from `Size() + append.Size()` empty ranges. -/
theorem Append_eq (self append : tPath) :
    self.Append append =
      match self.IsAbsolute with
      | some absolute =>
          tPath.Set_elements absolute (List.replicate (self.Size + append.Size) [])
      | none => none := by
  simp only [tPath.Append, compareLoop_eq, Normalize, NormalizeLoop_replicate, Nat.zero_add,
    List.take_replicate, Nat.min_self]

/-- C2: `Path("/a")` joined with the relative path of the one element `"."`. The
documented result is `Path("/a")`, with the one element `a`; the code returns the absolute
path of two empty elements, which `operator==` tells from `Path("/a")`. -/
theorem Append_dot_evaluated :
    tPath.Set_string (bytes "/a") 47 = some ⟨1, [1, 0, 0, 0, 3, 0, 0, 0, 47, 97, 0]⟩ ∧
    tPath.elements ⟨1, [1, 0, 0, 0, 3, 0, 0, 0, 47, 97, 0]⟩ = some [bytes "a"] ∧
    (tPath.Set_string (bytes "/a") 47).bind (fun base =>
        (tPath.Set_elements false [bytes "."]).bind (fun suffix => base.Append suffix))
      = some ⟨2, [1, 0, 0, 0, 2, 0, 0, 0, 3, 0, 0, 0, 47, 47, 0]⟩ ∧
    tPath.elements ⟨2, [1, 0, 0, 0, 2, 0, 0, 0, 3, 0, 0, 0, 47, 47, 0]⟩ = some [[], []] ∧
    tPath.operatorEq ⟨2, [1, 0, 0, 0, 2, 0, 0, 0, 3, 0, 0, 0, 47, 47, 0]⟩
      ⟨1, [1, 0, 0, 0, 3, 0, 0, 0, 47, 97, 0]⟩ = false := by
  decide

/-- C3: `Path("/a")` joined with the relative path of the one element `".."`. The code
returns the absolute path of two empty elements; `Path("/")` is stored with one element
and an empty character region, reads as not absolute, and its element 0 lies outside its
memory; `operator==` tells the two apart. -/
theorem Append_dotdot_evaluated :
    (tPath.Set_string (bytes "/a") 47).bind (fun base =>
        (tPath.Set_elements false [bytes ".."]).bind (fun suffix => base.Append suffix))
      = some ⟨2, [1, 0, 0, 0, 2, 0, 0, 0, 3, 0, 0, 0, 47, 47, 0]⟩ ∧
    tPath.Set_string (bytes "/") 47 = some ⟨1, [1, 0, 0, 0, 1, 0, 0, 0, 0]⟩ ∧
    tPath.IsAbsolute ⟨1, [1, 0, 0, 0, 1, 0, 0, 0, 0]⟩ = some false ∧
    tPath.Size ⟨1, [1, 0, 0, 0, 1, 0, 0, 0, 0]⟩ = 1 ∧
    tPath.operatorIndex ⟨1, [1, 0, 0, 0, 1, 0, 0, 0, 0]⟩ 0 = none ∧
    tPath.operatorEq ⟨2, [1, 0, 0, 0, 2, 0, 0, 0, 3, 0, 0, 0, 47, 47, 0]⟩
      ⟨1, [1, 0, 0, 0, 1, 0, 0, 0, 0]⟩ = false := by
  decide

/-- C4: the relative `Path("a")` joined with `Path("b")`. `base.IsAbsolute()` is false,
`base.Append(suffix).IsAbsolute()` is true: the result is built from two empty elements
and its stored text starts with the `/` that follows the first of them. -/
theorem Append_absoluteness_evaluated :
    (tPath.Set_string (bytes "a") 47).bind (fun base => base.IsAbsolute) = some false ∧
    ((tPath.Set_string (bytes "a") 47).bind (fun base =>
        (tPath.Set_string (bytes "b") 47).bind (fun suffix => base.Append suffix))).bind
          (fun r => r.IsAbsolute) = some true ∧
    (tPath.Set_string (bytes "a") 47).bind (fun base =>
        (tPath.Set_string (bytes "b") 47).bind (fun suffix => base.Append suffix))
      = some ⟨2, [0, 0, 0, 0, 1, 0, 0, 0, 2, 0, 0, 0, 47, 0]⟩ := by
  decide

theorem strchr_zero (s : List Byte) : strchr s 0 = true := by
  induction s with
  | nil => simp [strchr]
  | cons x rest ih =>
      by_cases hx : x = 0
      · simp [strchr, hx]
      · simp [strchr, hx, ih]

set_option maxRecDepth 100000 in
theorem escape_roundtrip : ∀ b : Byte, b ≠ 0 →
    castChar (strtol16
      [cTO_HEX_TABLE.getD (b.val >>> 4) 0, cTO_HEX_TABLE.getD (b.val &&& 15) 0, 0]) = b := by
  decide

theorem Decode_cons_ne (c : Byte) (rest : List Byte) (h : c ≠ 37) :
    tURI.Decode (c :: rest) = (tURI.Decode rest).map (fun out => c :: out) := by
  rcases rest with _ | ⟨h1, _ | ⟨h2, rest2⟩⟩ <;> simp only [tURI.Decode, ne_eq, h,
    not_false_eq_true, if_true]

theorem Decode_escape (h1 h2 : Byte) (rest : List Byte) :
    tURI.Decode (37 :: h1 :: h2 :: rest) =
      if castChar (strtol16 [h1, h2, 0]) = 0 then none
      else (tURI.Decode rest).map (fun out => castChar (strtol16 [h1, h2, 0]) :: out) := by
  simp only [tURI.Decode, ne_eq, not_true_eq_false, if_false]

/-- Decoding what `tURI.Encode` wrote, followed by further encoded text: the bytes come back,
provided `%` itself is not passed through unencoded. -/
theorem Decode_Encode_append (S unencoded_reserved_characters rest : List Byte)
    (h : (37 : Byte) ∉ S ∨ strchr unencoded_reserved_characters 37 = false) :
    tURI.Decode (tURI.Encode S unencoded_reserved_characters ++ rest) =
      (tURI.Decode rest).map (fun out => S ++ out) := by
  induction S with
  | nil => simp [tURI.Encode]
  | cons b tail ih =>
      have htail : (37 : Byte) ∉ tail ∨ strchr unencoded_reserved_characters 37 = false := by
        rcases h with h | h
        · exact Or.inl (fun e => h (List.mem_cons_of_mem _ e))
        · exact Or.inr h
      rw [tURI.Encode]
      split
      · rename_i hc
        have hb : b ≠ 37 := by
          intro e
          subst e
          rcases h with h | h
          · exact h (List.mem_cons_self _ _)
          · rw [h] at hc
            revert hc
            decide
        rw [List.cons_append, Decode_cons_ne _ _ hb, ih htail]
        cases tURI.Decode rest <;> rfl
      · rename_i hc
        have hb0 : b ≠ 0 := by
          intro e
          apply hc
          simp [e, strchr_zero]
        simp only [List.cons_append, Decode_escape, escape_roundtrip b hb0, if_neg hb0,
          ih htail]
        cases tURI.Decode rest <;> rfl

/-- C5: for every byte string `S` without `%` and every set of unencoded reserved
characters, `tURI.Decode` applied to the output of `tURI.Encode` succeeds and yields `S`. -/
theorem Decode_Encode (S unencoded_reserved_characters : List Byte)
    (h : (37 : Byte) ∉ S) :
    tURI.Decode (tURI.Encode S unencoded_reserved_characters) = some S := by
  have := Decode_Encode_append S unencoded_reserved_characters [] (Or.inl h)
  simpa [tURI.Decode] using this

/-- C5, witness: the bytes `a`, `/`, 0, 200 and blank with the reserved set of paths. -/
theorem Decode_Encode_witness :
    (37 : Byte) ∉ [(97 : Byte), 47, 0, 200, 32] ∧
      tURI.Decode (tURI.Encode [97, 47, 0, 200, 32] tURI.cUNENCODED_RESERVED_CHARACTERS_PATH) =
        some [97, 47, 0, 200, 32] :=
  ⟨by decide, Decode_Encode [97, 47, 0, 200, 32] tURI.cUNENCODED_RESERVED_CHARACTERS_PATH
    (by decide)⟩

set_option maxRecDepth 100000 in
theorem hexDigit_facts : ∀ c : Byte, isHexDigit c = true →
    c ≠ 0 ∧ c ≠ 37 ∧ isspace c = false ∧ c ≠ 45 ∧ c ≠ 43 ∧ c ≠ 120 ∧ c ≠ 88 ∧
      digitValue c = some (hexValue c) ∧ hexValue c < 16 := by
  decide

theorem castChar_natCast (n : Nat) : castChar (n : Int) = toByte n := by
  unfold castChar toByte
  apply Fin.ext
  simp only []
  omega

theorem strtol16_hexDigits (h1 h2 : Byte) (v1 : isHexDigit h1 = true)
    (v2 : isHexDigit h2 = true) :
    strtol16 [h1, h2, 0] = ((16 * hexValue h1 + hexValue h2 : Nat) : Int) := by
  obtain ⟨a0, _, a2, a3, a4, _, _, a7, a8⟩ := hexDigit_facts h1 v1
  obtain ⟨b0, _, _, _, _, b5, b6, b7, b8⟩ := hexDigit_facts h2 v2
  have hc : cstr [h1, h2, 0] = [h1, h2] := by
    simp [cstr, List.takeWhile, a0, b0]
  have hd : List.dropWhile isspace [h1, h2] = [h1, h2] := by
    simp [List.dropWhile, a2]
  simp only [strtol16, hc, hd, List.head?_cons, Option.some.injEq, a3, a4, or_self, if_false,
    List.tail_cons, b5, b6, and_false, hexDigits, a7, b7, a8, b8, if_true, decide_False,
    Bool.false_eq_true]
  congr 1
  omega

theorem escapesValid_tail (c : Byte) (rest : List Byte) (h : escapesValid (c :: rest) = true) :
    escapesValid rest = true := by
  unfold escapesValid at h
  exact (Bool.and_eq_true _ _ ▸ h).2

theorem escapesValid_escape (rest : List Byte) (h : escapesValid (37 :: rest) = true) :
    ∃ h1 h2 rest2, rest = h1 :: h2 :: rest2 ∧ isHexDigit h1 = true ∧ isHexDigit h2 = true ∧
      16 * hexValue h1 + hexValue h2 ≠ 0 := by
  rcases rest with _ | ⟨h1, _ | ⟨h2, rest2⟩⟩
  · simp [escapesValid] at h
  · simp [escapesValid] at h
  · refine ⟨h1, h2, rest2, rfl, ?_⟩
    simp only [escapesValid, bne_self_eq_false, Bool.false_or, Bool.and_eq_true,
      bne_iff_ne, ne_eq] at h
    exact ⟨h.1.1.1, h.1.1.2, h.1.2⟩

theorem Decode_valid_aux : ∀ (n : Nat) (S : List Byte), S.length ≤ n →
    escapesValid S = true →
      tURI.Decode S = some (specDecode S) ∧ (specDecode S).length + 2 * S.count 37 = S.length := by
  intro n
  induction n with
  | zero =>
      intro S hn _
      have : S = [] := List.eq_nil_of_length_eq_zero (by omega)
      subst this
      exact ⟨rfl, rfl⟩
  | succ n ih =>
      intro S hn hv
      cases S with
      | nil => exact ⟨rfl, rfl⟩
      | cons c rest =>
          by_cases hc : c = 37
          · subst hc
            obtain ⟨h1, h2, rest2, hr, v1, v2, hnz⟩ := escapesValid_escape rest hv
            subst hr
            have hv2 : escapesValid rest2 = true :=
              escapesValid_tail _ _ (escapesValid_tail _ _ (escapesValid_tail _ _ hv))
            obtain ⟨d, l⟩ := ih rest2 (by simp only [List.length_cons] at hn; omega) hv2
            have f1 := (hexDigit_facts h1 v1).2.1
            have f2 := (hexDigit_facts h2 v2).2.1
            have b1 := (hexDigit_facts h1 v1).2.2.2.2.2.2.2.2
            have b2 := (hexDigit_facts h2 v2).2.2.2.2.2.2.2.2
            have hne : toByte (16 * hexValue h1 + hexValue h2) ≠ 0 := by
              intro e
              have := congrArg Fin.val e
              simp only [toByte, Fin.val_zero] at this
              omega
            have hs : specDecode (37 :: h1 :: h2 :: rest2) =
                toByte (16 * hexValue h1 + hexValue h2) :: specDecode rest2 := by
              simp only [specDecode, if_true]
            refine ⟨?_, ?_⟩
            · rw [Decode_escape, strtol16_hexDigits h1 h2 v1 v2, castChar_natCast, if_neg hne,
                d, hs]
              rfl
            · rw [hs, List.count_cons_self, List.count_cons_of_ne (Ne.symm f1), List.count_cons_of_ne (Ne.symm f2)]
              simp only [List.length_cons]
              omega
          · have hv2 := escapesValid_tail _ _ hv
            obtain ⟨d, l⟩ := ih rest (by simp only [List.length_cons] at hn; omega) hv2
            have hs : specDecode (c :: rest) = c :: specDecode rest := by
              rcases rest with _ | ⟨h1, _ | ⟨h2, rest2⟩⟩ <;> simp only [specDecode, if_neg hc]
            refine ⟨?_, ?_⟩
            · rw [Decode_cons_ne _ _ hc, d, hs]; rfl
            · rw [hs, List.count_cons_of_ne (Ne.symm hc)]
              simp only [List.length_cons]
              omega

/-- C7: for every input in which each `%` is followed by two hexadecimal digits (either
case) of non-zero value, `tURI.Decode` succeeds and writes the input with the bytes other than
`%` verbatim and each escape `%XY` replaced by the byte `0xXY`, in order; the number of
bytes written is the input length minus twice the number of escapes, so it is at most the
input length. -/
theorem Decode_of_escapesValid (S : List Byte) (h : escapesValid S = true) :
    tURI.Decode S = some (specDecode S) ∧
      (specDecode S).length = S.length - 2 * S.count 37 ∧
      2 * S.count 37 ≤ S.length ∧
      (specDecode S).length ≤ S.length := by
  obtain ⟨d, l⟩ := Decode_valid_aux S.length S (Nat.le_refl _) h
  exact ⟨d, by omega, by omega, by omega⟩

/-- C7, witness: `a%41%6a/` decodes to `aAj/`. -/
theorem Decode_of_escapesValid_witness :
    escapesValid (bytes "a%41%6a/") = true ∧
      (tURI.Decode (bytes "a%41%6a/") = some (specDecode (bytes "a%41%6a/")) ∧
        (specDecode (bytes "a%41%6a/")).length =
          (bytes "a%41%6a/").length - 2 * (bytes "a%41%6a/").count 37 ∧
        2 * (bytes "a%41%6a/").count 37 ≤ (bytes "a%41%6a/").length ∧
        (specDecode (bytes "a%41%6a/")).length ≤ (bytes "a%41%6a/").length) :=
  ⟨by decide, Decode_of_escapesValid (bytes "a%41%6a/") (by decide)⟩

/-- The examples of the specification: a truncated escape and `%00` are refused, `%41` is
`A`. -/
theorem Decode_examples :
    tURI.Decode (bytes "%0") = none ∧ tURI.Decode (bytes "%00") = none ∧ tURI.Decode (bytes "%zz") = none ∧
      tURI.Decode (bytes "%41") = some (bytes "A") := by
  decide

/-- C6: `%4G` and `%2%41` hold a `%` that is not followed by two hexadecimal digits, and
`tURI.Decode` does not throw on them: `strtol` stops at the first character that is no digit
and the code never looks at `endptr`, so `%4G` is decoded to the byte 4 and `%2` to the
byte 2. -/
theorem Decode_accepts_invalid_escape :
    escapesValid (bytes "%4G") = false ∧ tURI.Decode (bytes "%4G") = some [4] ∧
      escapesValid (bytes "%2%41") = false ∧
      tURI.Decode (bytes "%2%41") = some [2, 52, 49] := by
  decide

/-- What `tURI.Encode` writes, byte by byte. The zero byte is among the bytes copied unchanged:
`strchr` finds it in every reserved set, at the terminator. -/
theorem Encode_eq_flatMap (decoded unencoded_reserved_characters : List Byte) :
    tURI.Encode decoded unencoded_reserved_characters =
      decoded.flatMap (fun character =>
        if isalnum character || strchr unencoded_reserved_characters character ||
            character = 95 || character = 46 || character = 45 || character = 126 then
          [character]
        else
          [37, cTO_HEX_TABLE.getD (character.val >>> 4) 0,
            cTO_HEX_TABLE.getD (character.val &&& 15) 0]) := by
  induction decoded with
  | nil => rfl
  | cons character rest ih =>
      rw [tURI.Encode, List.flatMap_cons, ← ih]
      split <;> rfl

/-- C8: the zero byte, with any reserved set. The claim has it written as `%00`; `tURI.Encode`
copies it unchanged. -/
theorem Encode_zero_byte (unencoded_reserved_characters : List Byte) :
    tURI.Encode [0] unencoded_reserved_characters = [0] ∧
      tURI.Encode [0] unencoded_reserved_characters ≠ bytes "%00" := by
  have h : tURI.Encode [0] unencoded_reserved_characters = [0] := by
    simp [tURI.Encode, strchr_zero]
  rw [h]
  exact ⟨rfl, by decide⟩

/-- C9: the relative path of the elements `a\0b` and `c`. The URI text is `a`: the zero
byte reaches `buffer` unencoded and `uri = buffer` stops in front of it. -/
theorem ofPath_zero_byte :
    (tPath.Set_elements false [[97, 0, 98], [99]]).bind (fun p => p.elements) =
        some [[97, 0, 98], [99]] ∧
      (tPath.Set_elements false [[97, 0, 98], [99]]).bind (fun p => p.IsAbsolute) =
        some false ∧
      (tPath.Set_elements false [[97, 0, 98], [99]]).bind
          (fun p => tURI.ofPath p tURI.cUNENCODED_RESERVED_CHARACTERS_PATH) =
        some ⟨bytes "a"⟩ ∧
      tURI.Encode [97, 0, 98] tURI.cUNENCODED_RESERVED_CHARACTERS_PATH ++ 47 ::
          tURI.Encode [99] tURI.cUNENCODED_RESERVED_CHARACTERS_PATH = [97, 0, 98, 47, 99] := by
  decide

/-- C10: parsing `scheme://authority/a%2Fb?q=1#frag`. Scheme, authority, query and
fragment are as claimed; the path is `/a/b`, absolute with the two elements `a` and `b`:
the path text is decoded as a whole before it is split at `/`. -/
theorem Parse_encoded_slash :
    tURI.Parse ⟨bytes "scheme://authority/a%2Fb?q=1#frag"⟩ ⟨[], [], tPath.empty, [], []⟩ =
        (tOutcome.returned,
          ⟨bytes "scheme", bytes "authority",
            ⟨2, [1, 0, 0, 0, 3, 0, 0, 0, 5, 0, 0, 0, 47, 97, 47, 98, 0]⟩,
            bytes "q=1", bytes "frag"⟩) ∧
      tPath.Size ⟨2, [1, 0, 0, 0, 3, 0, 0, 0, 5, 0, 0, 0, 47, 97, 47, 98, 0]⟩ = 2 ∧
      tPath.elements ⟨2, [1, 0, 0, 0, 3, 0, 0, 0, 5, 0, 0, 0, 47, 97, 47, 98, 0]⟩ =
        some [bytes "a", bytes "b"] ∧
      tPath.elements ⟨2, [1, 0, 0, 0, 3, 0, 0, 0, 5, 0, 0, 0, 47, 97, 47, 98, 0]⟩ ≠
        some [bytes "a/b"] := by
  decide

theorem takeWhile_append_stop (p : Byte → Bool) (l rest : List Byte)
    (hl : ∀ x ∈ l, p x = true) (hr : ∀ y, rest.head? = some y → p y = false) :
    (l ++ rest).takeWhile p = l ∧ (l ++ rest).dropWhile p = rest := by
  induction l with
  | nil =>
      cases rest with
      | nil => exact ⟨rfl, rfl⟩
      | cons y ys =>
          have := hr y rfl
          simp [List.takeWhile, List.dropWhile, this]
  | cons x xs ih =>
      have hx := hl x (List.mem_cons_self _ _)
      obtain ⟨h1, h2⟩ := ih (fun y hy => hl y (List.mem_cons_of_mem _ hy))
      simp [List.takeWhile, List.dropWhile, hx, h1, h2]

theorem Decode_no_percent (s : List Byte) (h : (37 : Byte) ∉ s) : tURI.Decode s = some s := by
  induction s with
  | nil => rfl
  | cons c rest ih =>
      have hc : c ≠ 37 := fun e => h (by simp [e])
      rw [Decode_cons_ne _ _ hc, ih (fun e => h (List.mem_cons_of_mem _ e))]
      rfl

theorem cstr_no_zero (s : List Byte) (h : (0 : Byte) ∉ s) : cstr s = s := by
  have := (takeWhile_append_stop (fun c => decide (c ≠ 0)) s []
    (fun x hx => by simpa using (fun e : x = 0 => h (e ▸ hx))) (fun y hy => by simp at hy)).1
  simpa [cstr] using this

theorem Set_string_isSome (s : List Byte) (c : Byte) (hs : s ≠ []) :
    ∃ p, tPath.Set_string s c = some p := by
  cases s with
  | nil => exact absurd rfl hs
  | cons first rest => exact ⟨_, rfl⟩

/-- The match of a text that is a path only. -/
theorem regex_match_path_only (u : List Byte) (h1 : u.head? = some 47)
    (h2 : u.tail.head? ≠ some 47) (h3 : (63 : Byte) ∉ u) (h4 : (35 : Byte) ∉ u) :
    regex_match u = some ⟨none, none, u, none, none⟩ := by
  obtain ⟨t, rfl⟩ : ∃ t, u = 47 :: t := by
    cases u with
    | nil => simp at h1
    | cons a t => simp at h1; exact ⟨t, by rw [h1]⟩
  have hp := takeWhile_append_stop (fun c => c ≠ 63 && c ≠ 35) (47 :: t) []
    (fun x hx => by
      have a : x ≠ 63 := fun e => h3 (e ▸ hx)
      have b : x ≠ 35 := fun e => h4 (e ▸ hx)
      simp [a, b]) (fun y hy => by simp at hy)
  rw [List.append_nil] at hp
  have hs := takeWhile_append_stop (fun c => c ≠ 58 && c ≠ 47 && c ≠ 63 && c ≠ 35) []
    (47 :: t) (fun x hx => by simp at hx) (fun y hy => by
      simp only [List.head?_cons, Option.some.injEq] at hy
      subst hy
      decide)
  rw [List.nil_append] at hs
  simp only [List.tail_cons] at h2
  simp only [regex_match, hs.1, hs.2, hp.1, hp.2, ne_eq, not_true_eq_false, decide_False,
    Bool.false_and, Bool.false_eq_true, if_false, List.head?_cons, List.tail_cons, h2,
    decide_True, Bool.and_false, List.head?_nil, reduceCtorEq, List.tail_nil]

/-- The match of `scheme://authority/path?query#fragment`. -/
theorem regex_match_full (s a p q f : List Byte)
    (hs0 : s ≠ []) (hs : ∀ x ∈ s, x ≠ 58 ∧ x ≠ 47 ∧ x ≠ 63 ∧ x ≠ 35)
    (ha : ∀ x ∈ a, x ≠ 47 ∧ x ≠ 63 ∧ x ≠ 35)
    (hp0 : p.head? = some 47) (hp : ∀ x ∈ p, x ≠ 63 ∧ x ≠ 35)
    (hq : ∀ x ∈ q, x ≠ 35) (hf : ∀ x ∈ f, x ≠ 10 ∧ x ≠ 13) :
    regex_match (s ++ 58 :: 47 :: 47 :: (a ++ (p ++ 63 :: (q ++ 35 :: f)))) =
      some ⟨some s, some a, p, some q, some f⟩ := by
  have e1 := takeWhile_append_stop (fun c => c ≠ 58 && c ≠ 47 && c ≠ 63 && c ≠ 35) s
    (58 :: 47 :: 47 :: (a ++ (p ++ 63 :: (q ++ 35 :: f))))
    (fun x hx => by obtain ⟨a1, a2, a3, a4⟩ := hs x hx; simp [a1, a2, a3, a4])
    (fun y hy => by
      simp only [List.head?_cons, Option.some.injEq] at hy
      subst hy
      decide)
  obtain ⟨p1, pt, rfl⟩ : ∃ p1 pt, p = p1 :: pt := by
    cases p with
    | nil => simp at hp0
    | cons b t => exact ⟨b, t, rfl⟩
  simp only [List.head?_cons, Option.some.injEq] at hp0
  have e2 := takeWhile_append_stop (fun c => c ≠ 47 && c ≠ 63 && c ≠ 35) a
    ((p1 :: pt) ++ 63 :: (q ++ 35 :: f))
    (fun x hx => by obtain ⟨a1, a2, a3⟩ := ha x hx; simp [a1, a2, a3])
    (fun y hy => by
      simp only [List.cons_append, List.head?_cons, Option.some.injEq] at hy
      subst hy
      subst hp0
      decide)
  have e3 := takeWhile_append_stop (fun c => c ≠ 63 && c ≠ 35) (p1 :: pt)
    (63 :: (q ++ 35 :: f))
    (fun x hx => by obtain ⟨a1, a2⟩ := hp x hx; simp [a1, a2])
    (fun y hy => by
      simp only [List.head?_cons, Option.some.injEq] at hy
      subst hy
      decide)
  have e4 := takeWhile_append_stop (fun c => c ≠ 35) q (35 :: f)
    (fun x hx => by simp [hq x hx])
    (fun y hy => by
      simp only [List.head?_cons, Option.some.injEq] at hy
      subst hy
      decide)
  have e5 : f.all (fun c => c ≠ 10 && c ≠ 13) = true := by
    rw [List.all_eq_true]
    intro x hx
    obtain ⟨a1, a2⟩ := hf x hx
    simp [a1, a2]
  simp only [regex_match, e1.1, e1.2, e2.1, e2.2, e3.1, e3.2, e4.1, e4.2, e5, ne_eq, hs0,
    not_false_eq_true, decide_True, List.head?_cons, List.tail_cons, Bool.and_self, if_true,
    Bool.not_true, Bool.and_false, Bool.false_eq_true, if_false]

/-- C11 (amended): for every string `u` that begins with `/` but not with `//` and holds
none of `?`, `#`, `%` and no zero byte, `tURI(u).Parse` returns with empty scheme,
authority, query and fragment and with the path `tPath(u, '/')`. -/
theorem Parse_path_only (u : List Byte) (result : tURIElements)
    (h1 : u.head? = some 47) (h2 : u.tail.head? ≠ some 47)
    (h3 : (63 : Byte) ∉ u) (h4 : (35 : Byte) ∉ u) (h5 : (37 : Byte) ∉ u)
    (h0 : (0 : Byte) ∉ u) :
    ∃ p, tPath.Set_string u 47 = some p ∧
      tURI.Parse ⟨u⟩ result = (tOutcome.returned, ⟨[], [], p, [], []⟩) := by
  have hne : u ≠ [] := by
    intro e
    rw [e] at h1
    simp at h1
  obtain ⟨p, hp⟩ := Set_string_isSome u 47 hne
  refine ⟨p, hp, ?_⟩
  unfold tURI.Parse
  rw [regex_match_path_only u h1 h2 h3 h4]
  simp only []
  rw [Decode_no_percent u h5]
  simp only []
  rw [cstr_no_zero u h0, hp]
  rfl

/-- C11, witness: `/x/y`, which parses to the absolute path of the elements `x` and `y`. -/
theorem Parse_path_only_witness :
    ((bytes "/x/y").head? = some 47 ∧ (bytes "/x/y").tail.head? ≠ some 47 ∧
      (63 : Byte) ∉ bytes "/x/y" ∧ (35 : Byte) ∉ bytes "/x/y" ∧ (37 : Byte) ∉ bytes "/x/y" ∧
      (0 : Byte) ∉ bytes "/x/y") ∧
    (∃ p, tPath.Set_string (bytes "/x/y") 47 = some p ∧
      tURI.Parse ⟨bytes "/x/y"⟩ ⟨[], [], tPath.empty, [], []⟩ =
        (tOutcome.returned, ⟨[], [], p, [], []⟩)) ∧
    (tPath.Set_string (bytes "/x/y") 47).bind (fun p => p.IsAbsolute) = some true ∧
    (tPath.Set_string (bytes "/x/y") 47).bind (fun p => p.elements) =
      some [bytes "x", bytes "y"] :=
  ⟨by decide,
    Parse_path_only (bytes "/x/y") ⟨[], [], tPath.empty, [], []⟩ (by decide) (by decide)
      (by decide) (by decide) (by decide) (by decide),
    by decide, by decide⟩

/-- C11, counterexample: `/a`, a zero byte, `b`. The text begins with `/`, not with `//`,
and holds none of `?`, `#`, `%`; `Parse` hands the decoded text to `tPath` as a
null-terminated string, so the path is `tPath("/a")`, with the element `a`, and not
`tPath(u, '/')`, whose element has the three bytes. -/
theorem Parse_path_zero_byte :
    ([47, 97, 0, 98] : List Byte).head? = some 47 ∧
    ([47, 97, 0, 98] : List Byte).tail.head? ≠ some 47 ∧
    (63 : Byte) ∉ ([47, 97, 0, 98] : List Byte) ∧ (35 : Byte) ∉ ([47, 97, 0, 98] : List Byte) ∧
    (37 : Byte) ∉ ([47, 97, 0, 98] : List Byte) ∧
    tURI.Parse ⟨[47, 97, 0, 98]⟩ ⟨[], [], tPath.empty, [], []⟩ =
      (tOutcome.returned, ⟨[], [], ⟨1, [1, 0, 0, 0, 3, 0, 0, 0, 47, 97, 0]⟩, [], []⟩) ∧
    tPath.Set_string [47, 97, 0, 98] 47 =
      some ⟨1, [1, 0, 0, 0, 5, 0, 0, 0, 47, 97, 0, 98, 0]⟩ ∧
    tPath.operatorEq ⟨1, [1, 0, 0, 0, 3, 0, 0, 0, 47, 97, 0]⟩
      ⟨1, [1, 0, 0, 0, 5, 0, 0, 0, 47, 97, 0, 98, 0]⟩ = false ∧
    tPath.elements ⟨1, [1, 0, 0, 0, 3, 0, 0, 0, 47, 97, 0]⟩ = some [[97]] ∧
    tPath.elements ⟨1, [1, 0, 0, 0, 5, 0, 0, 0, 47, 97, 0, 98, 0]⟩ = some [[97, 0, 98]] := by
  decide

/-- C12 (amended): for every scheme `s` (not empty, none of `:`, `/`, `?`, `#`), authority
`a` (none of `/`, `?`, `#`), path `p` (begins with `/`, none of `?`, `#`, `%` and no zero
byte), query `q` (no `#`) and fragment `f` (no line terminator), parsing
`s://a p ? q # f` returns with scheme `s`, authority `a`, query `q` and fragment `f`, each
as written, and with the path `tPath(p, '/')`. -/
theorem Parse_full (s a p q f : List Byte) (result : tURIElements)
    (hs0 : s ≠ []) (hs : ∀ x ∈ s, x ≠ 58 ∧ x ≠ 47 ∧ x ≠ 63 ∧ x ≠ 35)
    (ha : ∀ x ∈ a, x ≠ 47 ∧ x ≠ 63 ∧ x ≠ 35)
    (hp0 : p.head? = some 47) (hp : ∀ x ∈ p, x ≠ 63 ∧ x ≠ 35 ∧ x ≠ 37 ∧ x ≠ 0)
    (hq : ∀ x ∈ q, x ≠ 35) (hf : ∀ x ∈ f, x ≠ 10 ∧ x ≠ 13) :
    ∃ path, tPath.Set_string p 47 = some path ∧
      tURI.Parse ⟨s ++ 58 :: 47 :: 47 :: (a ++ (p ++ 63 :: (q ++ 35 :: f)))⟩ result =
        (tOutcome.returned, ⟨s, a, path, q, f⟩) := by
  have hne : p ≠ [] := by
    intro e
    rw [e] at hp0
    simp at hp0
  obtain ⟨path, hpath⟩ := Set_string_isSome p 47 hne
  refine ⟨path, hpath, ?_⟩
  have h37 : (37 : Byte) ∉ p := fun e => (hp _ e).2.2.1 rfl
  have h0 : (0 : Byte) ∉ p := fun e => (hp _ e).2.2.2 rfl
  unfold tURI.Parse
  rw [regex_match_full s a p q f hs0 hs ha hp0 (fun x hx => ⟨(hp x hx).1, (hp x hx).2.1⟩)
    hq hf]
  simp only []
  rw [Decode_no_percent p h37]
  simp only []
  rw [cstr_no_zero p h0, hpath]
  rfl

set_option maxRecDepth 100000 in
/-- C12, witness: `http://host:80/a/b?x=1&y=%41#top%20`. -/
theorem Parse_full_witness :
    (bytes "http" ≠ [] ∧ (∀ x ∈ bytes "http", x ≠ 58 ∧ x ≠ 47 ∧ x ≠ 63 ∧ x ≠ 35) ∧
      (∀ x ∈ bytes "host:80", x ≠ 47 ∧ x ≠ 63 ∧ x ≠ 35) ∧
      (bytes "/a/b").head? = some 47 ∧
      (∀ x ∈ bytes "/a/b", x ≠ 63 ∧ x ≠ 35 ∧ x ≠ 37 ∧ x ≠ 0) ∧
      (∀ x ∈ bytes "x=1&y=%41", x ≠ 35) ∧ (∀ x ∈ bytes "top%20", x ≠ 10 ∧ x ≠ 13)) ∧
    ∃ path, tPath.Set_string (bytes "/a/b") 47 = some path ∧
      tURI.Parse ⟨bytes "http" ++ 58 :: 47 :: 47 ::
          (bytes "host:80" ++ (bytes "/a/b" ++ 63 :: (bytes "x=1&y=%41" ++ 35 ::
            bytes "top%20")))⟩ ⟨[], [], tPath.empty, [], []⟩ =
        (tOutcome.returned, ⟨bytes "http", bytes "host:80", path, bytes "x=1&y=%41",
          bytes "top%20"⟩) :=
  ⟨by decide,
    Parse_full (bytes "http") (bytes "host:80") (bytes "/a/b") (bytes "x=1&y=%41")
      (bytes "top%20") ⟨[], [], tPath.empty, [], []⟩ (by decide) (by decide) (by decide)
      (by decide) (by decide) (by decide) (by decide)⟩

set_option maxRecDepth 100000 in
/-- C12, counterexample: scheme `s`, authority `h`, the path `/a`, zero byte, `b`, query
`q`, fragment `f`. The parts meet the conditions of the claim; the parsed path is
`tPath("/a")`, not `tPath(p, '/')`. -/
theorem Parse_full_zero_byte :
    tURI.Parse ⟨bytes "s" ++ 58 :: 47 :: 47 ::
        (bytes "h" ++ ([47, 97, 0, 98] ++ 63 :: (bytes "q" ++ 35 :: bytes "f")))⟩
        ⟨[], [], tPath.empty, [], []⟩ =
      (tOutcome.returned,
        ⟨bytes "s", bytes "h", ⟨1, [1, 0, 0, 0, 3, 0, 0, 0, 47, 97, 0]⟩, bytes "q",
          bytes "f"⟩) ∧
    tPath.Set_string [47, 97, 0, 98] 47 =
      some ⟨1, [1, 0, 0, 0, 5, 0, 0, 0, 47, 97, 0, 98, 0]⟩ ∧
    tPath.operatorEq ⟨1, [1, 0, 0, 0, 3, 0, 0, 0, 47, 97, 0]⟩
      ⟨1, [1, 0, 0, 0, 5, 0, 0, 0, 47, 97, 0, 98, 0]⟩ = false ∧
    ([47, 97, 0, 98] : List Byte).head? = some 47 ∧
    (∀ x ∈ ([47, 97, 0, 98] : List Byte), x ≠ 63 ∧ x ≠ 35 ∧ x ≠ 37) := by
  decide

theorem Set_string_Size_pos (s : List Byte) (c : Byte) (p : tPath)
    (h : tPath.Set_string s c = some p) : 1 ≤ p.Size := by
  cases s with
  | nil => simp [tPath.Set_string] at h
  | cons first rest =>
      simp only [tPath.Set_string, Option.some.injEq] at h
      rw [← h]
      simp only [tPath.Size]
      omega

/-- A call of `Parse` that returns never leaves an empty path in `result`: the path comes
from `tPath(decoded_buffer)`, and `Set` counts at least one element. -/
theorem Parse_path_Size_pos (self : tURI) (result : tURIElements)
    (h : (self.Parse result).1 = tOutcome.returned) : 1 ≤ (self.Parse result).2.path.Size := by
  revert h
  unfold tURI.Parse
  cases regex_match self.uri with
  | none => intro h; simp at h
  | some m =>
      simp only []
      cases tURI.Decode m.group5 with
      | none => intro h; simp at h
      | some decoded =>
          simp only []
          cases hp : tPath.Set_string (cstr decoded) 47 with
          | none => intro h; simp at h
          | some path => intro _; exact Set_string_Size_pos _ _ _ hp

set_option maxRecDepth 100000 in
/-- C13: parsing `scheme://authority`, `scheme://authority?q=1` and the empty string. Group
5 of the expression takes part in the match with the empty text, so `Parse` builds
`tPath(decoded_buffer)` from an empty string, and `Set` reads the byte in front of it: the
call has no defined result, and `result.path` is not set to the empty path. -/
theorem Parse_without_path :
    regex_match (bytes "scheme://authority") =
      some ⟨some (bytes "scheme"), some (bytes "authority"), [], none, none⟩ ∧
    tPath.Set_string (cstr []) 47 = none ∧
    (tURI.Parse ⟨bytes "scheme://authority"⟩ ⟨[], [], tPath.empty, [], []⟩).1 =
      tOutcome.undefined ∧
    (tURI.Parse ⟨bytes "scheme://authority?q=1"⟩ ⟨[], [], tPath.empty, [], []⟩).1 =
      tOutcome.undefined ∧
    (tURI.Parse ⟨[]⟩ ⟨[], [], tPath.empty, [], []⟩).1 = tOutcome.undefined := by
  decide

set_option maxRecDepth 100000 in
/-- C14: the relative path of the one element `a/b`. Its URI text is `a%2Fb`; parsing
that text gives a path of two elements, `a` and `b`. The relative path of the one element
`a:b` has the URI text `a:b`, which parses to the scheme `a` and the path `b`. -/
theorem text_roundtrip_evaluated :
    tPath.Set_elements false [bytes "a/b"] = some ⟨1, [0, 0, 0, 0, 4, 0, 0, 0, 97, 47, 98, 0]⟩ ∧
    tPath.elements ⟨1, [0, 0, 0, 0, 4, 0, 0, 0, 97, 47, 98, 0]⟩ = some [bytes "a/b"] ∧
    tURI.ofPath ⟨1, [0, 0, 0, 0, 4, 0, 0, 0, 97, 47, 98, 0]⟩
      tURI.cUNENCODED_RESERVED_CHARACTERS_PATH = some ⟨bytes "a%2Fb"⟩ ∧
    tURI.Parse ⟨bytes "a%2Fb"⟩ ⟨[], [], tPath.empty, [], []⟩ =
      (tOutcome.returned,
        ⟨[], [], ⟨2, [0, 0, 0, 0, 2, 0, 0, 0, 4, 0, 0, 0, 97, 47, 98, 0]⟩, [], []⟩) ∧
    tPath.elements ⟨2, [0, 0, 0, 0, 2, 0, 0, 0, 4, 0, 0, 0, 97, 47, 98, 0]⟩ =
      some [bytes "a", bytes "b"] ∧
    (tPath.Set_elements false [bytes "a:b"]).bind
      (fun p => tURI.ofPath p tURI.cUNENCODED_RESERVED_CHARACTERS_PATH) = some ⟨bytes "a:b"⟩ ∧
    tURI.Parse ⟨bytes "a:b"⟩ ⟨[], [], tPath.empty, [], []⟩ =
      (tOutcome.returned,
        ⟨bytes "a", [], ⟨1, [0, 0, 0, 0, 2, 0, 0, 0, 98, 0]⟩, [], []⟩) := by
  decide

theorem foldl_set_getElem? (x : Byte) (idxs : List Nat) :
    ∀ (C : List Byte) (j : Nat),
      (idxs.foldl (fun m i => m.set i x) C)[j]? =
        if j ∈ idxs then (C[j]?).map (fun _ => x) else C[j]? := by
  induction idxs with
  | nil => intro C j; simp
  | cons i rest ih =>
      intro C j
      rw [List.foldl_cons, ih, List.getElem?_set']
      by_cases hij : i = j
      · subst hij
        by_cases hr : i ∈ rest
        · simp [hr]; rfl
        · simp [hr]; rfl
      · have hji : ¬ j = i := fun e => hij e.symm
        by_cases hr : j ∈ rest
        · simp [hr, hij]
        · simp [hr, hij, hji]

theorem rewriteSeparators_append (tbl : List Byte) (idxs : List Nat)
    (h : ∀ i ∈ idxs, i + 1 < 4294967296) :
    ∀ C : List Byte,
      rewriteSeparators tbl.length (idxs.map (fun i => toUInt (i + 1))) (tbl ++ C) =
        tbl ++ idxs.foldl (fun m i => m.set i 47) C := by
  induction idxs with
  | nil => intro C; rfl
  | cons i rest ih =>
      intro C
      have hi : toUInt (i + 1) = i + 1 := toUInt_of_lt (h i (List.mem_cons_self _ _))
      have hidx : tbl.length + (i + 1) - 1 = tbl.length + i := by omega
      rw [List.map_cons, rewriteSeparators, hi, hidx,
        List.set_append_right _ _ (Nat.le_add_right _ _), Nat.add_sub_cancel_left,
        ih (fun k hk => h k (List.mem_cons_of_mem _ hk)), List.foldl_cons]

theorem take_append_zero_getElem? (s : List Byte) (n j : Nat) (hn : n ≤ s.length) :
    (s.take n ++ [(0 : Byte)])[j]? =
      if j < n then s[j]? else if j = n then some 0 else none := by
  have hl : (s.take n).length = n := by simp [hn]
  rw [List.getElem?_append, hl]
  by_cases h : j < n
  · rw [if_pos h, if_pos h, List.getElem?_take_of_lt h]
  · rw [if_neg h, if_neg h]
    by_cases h2 : j = n
    · subst h2; simp
    · rw [if_neg h2]
      have : j - n = (j - n - 1) + 1 := by omega
      rw [this]
      rfl

theorem rewritten_chars (s : List Byte) (c : Byte) (n : Nat) (hn : n ≤ s.length) :
    (((List.range n).filter
        (fun i => decide (1 ≤ i) && decide (s[i]? = some c))).foldl
          (fun (m : List Byte) i => m.set i 47)
          (if s.head? = some c then (s.take n ++ [0]).set 0 47 else s.take n ++ [0])).set n 0 =
      (s.take n).map (fun b => if b = c then 47 else b) ++ [0] := by
  apply List.ext_getElem?
  intro j
  have hl : ((s.take n).map (fun b => if b = c then (47 : Byte) else b)).length = n := by
    simp [hn]
  rw [List.getElem?_set', foldl_set_getElem?]
  have hmem : j ∈ (List.range n).filter
      (fun i => decide (1 ≤ i) && decide (s[i]? = some c)) ↔
      j < n ∧ 1 ≤ j ∧ s[j]? = some c := by
    simp [List.mem_filter, List.mem_range]
  have hC : ∀ k, (if s.head? = some c then (s.take n ++ [(0 : Byte)]).set 0 47
      else s.take n ++ [0])[k]? =
      if s.head? = some c ∧ k = 0 then
        ((s.take n ++ [(0 : Byte)])[k]?).map (fun _ => (47 : Byte))
      else (s.take n ++ [(0 : Byte)])[k]? := by
    intro k
    by_cases hh : s.head? = some c
    · rw [if_pos hh, List.getElem?_set']
      by_cases hk : k = 0
      · subst hk; simp [hh]
      · have hk2 : ¬ 0 = k := fun e => hk e.symm
        simp [hh, hk, hk2]
    · simp [hh]
  by_cases hjn : n = j
  · subst hjn
    have hnot : ¬ (n ∈ (List.range n).filter
        (fun i => decide (1 ≤ i) && decide (s[i]? = some c))) := by
      rw [hmem]; omega
    rw [if_pos rfl, if_neg hnot, hC, take_append_zero_getElem? s n n hn,
      List.getElem?_append_right (by omega), hl]
    simp
    split <;> exact ⟨_, rfl⟩
  · rw [if_neg hjn, hC, take_append_zero_getElem? s n j hn]
    by_cases hlt : j < n
    · have hjs : j < s.length := by omega
      rw [List.getElem?_append_left (by omega), List.getElem?_map,
        List.getElem?_take_of_lt hlt, if_pos hlt, List.getElem?_eq_getElem hjs]
      by_cases hb : s[j] = c
      · by_cases hj0 : j = 0
        · subst hj0
          have hh : s.head? = some c := by
            cases s with
            | nil => simp at hjs
            | cons a t => simpa using hb
          have hnot : ¬ (0 ∈ (List.range n).filter
              (fun i => decide (1 ≤ i) && decide (s[i]? = some c))) := by
            rw [hmem]; omega
          simp [hnot, hh, hb]
        · have hin : j ∈ (List.range n).filter
              (fun i => decide (1 ≤ i) && decide (s[i]? = some c)) := by
            rw [hmem]
            exact ⟨hlt, by omega, by rw [List.getElem?_eq_getElem hjs, hb]⟩
          simp [hin, hj0, hb]
      · have hnot : ¬ (j ∈ (List.range n).filter
            (fun i => decide (1 ≤ i) && decide (s[i]? = some c))) := by
          rw [hmem]
          intro hc
          apply hb
          have := hc.2.2
          rw [List.getElem?_eq_getElem hjs] at this
          exact Option.some.inj this
        have hh : ¬ (s.head? = some c ∧ j = 0) := by
          intro hc
          apply hb
          obtain ⟨h1, h2⟩ := hc
          subst h2
          cases s with
          | nil => simp at hjs
          | cons a t => simpa using h1
        simp [hnot, hh, hb]
    · have hgt : n < j := by omega
      have hnot : ¬ (j ∈ (List.range n).filter
          (fun i => decide (1 ≤ i) && decide (s[i]? = some c))) := by
        rw [hmem]; omega
      have hj2 : ¬ j = n := by omega
      rw [if_neg hnot, if_neg hlt, if_neg hj2, List.getElem?_append_right (by omega), hl]
      have : j - n = (j - n - 1) + 1 := by omega
      rw [this]
      simp

theorem endIndex_le (s : List Byte) (c : Byte) : endIndex s c ≤ s.length := by
  unfold endIndex
  omega

theorem separatorEntries_bound (s : List Byte) (c : Byte) (n : Nat) :
    ∀ i ∈ (List.range n).filter (fun i => decide (1 ≤ i) && decide (s[i]? = some c)),
      i < n := by
  intro i hi
  exact List.mem_range.mp (List.mem_filter.mp hi).1

/-- The memory `Set(path_string, separator)` builds for a string below the `uint` range:
the table, the characters up to `end_index` with every separator turned into `/`, and the
terminator. -/
theorem Set_string_eq (s : List Byte) (c : Byte) (hs : s ≠ [])
    (hlen : s.length + 1 < 4294967296) :
    tPath.Set_string s c =
      some ⟨1 + (separatorEntries s c (endIndex s c)).length,
        ((if s.head? = some c then 1 else 0) :: separatorEntries s c (endIndex s c) ++
            [endIndex s c + 1]).flatMap uintBytes ++
          ((s.take (endIndex s c)).map (fun b => if b = c then 47 else b) ++ [0])⟩ := by
  obtain ⟨first, rest, rfl⟩ : ∃ first rest, s = first :: rest := by
    cases s with
    | nil => exact absurd rfl hs
    | cons a t => exact ⟨a, t, rfl⟩
  have hE := endIndex_le (first :: rest) c
  have hu : toUInt (endIndex (first :: rest) c + 1) = endIndex (first :: rest) c + 1 :=
    toUInt_of_lt (by omega)
  have hstart : (if (first == c) = true then 1 else 0) =
      (if (first :: rest).head? = some c then 1 else 0) := by
    by_cases h : first = c
    · simp [h]
    · simp [h]
  have hT := flatMap_uintBytes_length
    ((if (first :: rest).head? = some c then 1 else 0) ::
      separatorEntries (first :: rest) c (endIndex (first :: rest) c) ++
        [endIndex (first :: rest) c + 1])
  have hT2 : (1 + (separatorEntries (first :: rest) c (endIndex (first :: rest) c)).length + 1)
      * 4 = (((if (first :: rest).head? = some c then 1 else 0) ::
      separatorEntries (first :: rest) c (endIndex (first :: rest) c) ++
        [endIndex (first :: rest) c + 1]).flatMap uintBytes).length := by
    rw [hT]
    simp only [List.length_cons, List.length_append, List.length_singleton, List.length_nil]
    omega
  have hlast : ∀ (X : List Byte), X.length = endIndex (first :: rest) c →
      (X ++ [(0 : Byte)]).set (endIndex (first :: rest) c) 0 = X ++ [0] := by
    intro X hX
    rw [List.set_append_right _ _ (by omega), hX, Nat.sub_self]
    rfl
  have hidx : ∀ (A : Nat), A + endIndex (first :: rest) c + 1 - 1 - A =
      endIndex (first :: rest) c := by
    intro A; omega
  show (some _ : Option tPath) = _
  refine congrArg some ?_
  refine congrArg₂ tPath.mk rfl ?_
  show List.set _ _ _ = _
  have hEdef : (first :: rest).length - (if (first :: rest).getLast? = some c then 1 else 0) =
      endIndex (first :: rest) c := rfl
  have htake : ((first :: rest).take (endIndex (first :: rest) c)).length =
      endIndex (first :: rest) c := by
    rw [List.length_take]; omega
  rw [hEdef, hu, hstart, hT2]
  generalize htb : ((if (first :: rest).head? = some c then 1 else 0) ::
      separatorEntries (first :: rest) c (endIndex (first :: rest) c) ++
        [endIndex (first :: rest) c + 1]).flatMap uintBytes = tblB
  by_cases hc : c = 47
  · subst hc
    rw [if_neg (by simp), List.append_assoc, List.set_append_right _ _ (by omega), hidx,
      hlast _ htake]
    have hid : (fun b : Byte => if b = 47 then 47 else b) = id := by
      funext b
      by_cases hb : b = 47
      · simp [hb]
      · simp [hb]
    rw [hid, List.map_id]
  · rw [if_pos hc]
    have hM1 : (if (first == c) = true then
          (tblB ++ (first :: rest).take (endIndex (first :: rest) c) ++ [0]).set tblB.length 47
        else tblB ++ (first :: rest).take (endIndex (first :: rest) c) ++ [0]) =
        tblB ++ (if (first :: rest).head? = some c then
          ((first :: rest).take (endIndex (first :: rest) c) ++ [0]).set 0 47
          else (first :: rest).take (endIndex (first :: rest) c) ++ [0]) := by
      by_cases h : first = c
      · subst h
        simp only [beq_self_eq_true, if_true, List.head?_cons]
        rw [List.append_assoc, List.set_append_right _ _ (Nat.le_refl _), Nat.sub_self]
      · have hb : ¬ ((first == c) = true) := by simpa using h
        have hh : ¬ ((first :: rest).head? = some c) := by simpa using h
        rw [if_neg hb, if_neg hh, List.append_assoc]
    rw [hM1]
    unfold separatorEntries
    rw [rewriteSeparators_append tblB _ (fun i hi => by
        have := separatorEntries_bound (first :: rest) c _ i hi
        omega),
      List.set_append_right _ _ (by omega), hidx, rewritten_chars _ _ _ hE]

theorem endIndex_pos (s : List Byte) (c : Byte) (hs : s ≠ []) (hsep : s ≠ [c]) :
    1 ≤ endIndex s c := by
  unfold endIndex
  rcases s with _ | ⟨first, _ | ⟨second, rest⟩⟩
  · exact absurd rfl hs
  · have h : first ≠ c := fun e => hsep (by rw [e])
    simp [h]
  · simp only [List.length_cons]
    split <;> omega

/-- `IsAbsolute()` of the path `Set(path_string, separator)` builds, for a string below the
`uint` range that is not the separator alone: the first character is the separator or `/`. -/
theorem Set_string_IsAbsolute_eq (s : List Byte) (c : Byte) (hs : s ≠ []) (hsep : s ≠ [c])
    (hlen : s.length + 1 < 4294967296) :
    ∃ p, tPath.Set_string s c = some p ∧
      p.IsAbsolute = some (decide (s.head? = some c ∨ s.head? = some 47)) := by
  refine ⟨_, Set_string_eq s c hs hlen, ?_⟩
  have hpos := endIndex_pos s c hs hsep
  unfold tPath.IsAbsolute
  rw [GetPathStringBegin_table _ _ _ (by simp; omega)]
  obtain ⟨first, rest, rfl⟩ : ∃ first rest, s = first :: rest := by
    cases s with
    | nil => exact absurd rfl hs
    | cons a t => exact ⟨a, t, rfl⟩
  obtain ⟨k, hk⟩ : ∃ k, endIndex (first :: rest) c = k + 1 := ⟨endIndex (first :: rest) c - 1, by omega⟩
  rw [hk, List.take_succ_cons, List.map_cons, List.cons_append]
  simp only [List.head?_cons, Option.some.injEq]
  by_cases h1 : first = c
  · simp [h1]
  · by_cases h2 : first = 47
    · simp [h1, h2]
    · simp [h1, h2]

/-- C16 (amended): for every string `s` of fewer than `2^32 - 1` characters that is not
empty and not the separator alone, and every separator `c` such that `c` is `/` or `s`
does not begin with `/`, `tPath(s, c).IsAbsolute()` is true if and only if the first
character of `s` equals `c`. -/
theorem Set_string_IsAbsolute (s : List Byte) (c : Byte) (hs : s ≠ []) (hsep : s ≠ [c])
    (hlen : s.length + 1 < 4294967296) (hslash : c = 47 ∨ s.head? ≠ some 47) :
    ∃ p, tPath.Set_string s c = some p ∧ (p.IsAbsolute = some true ↔ s.head? = some c) ∧
      (p.IsAbsolute = some false ↔ s.head? ≠ some c) := by
  obtain ⟨p, hp, habs⟩ := Set_string_IsAbsolute_eq s c hs hsep hlen
  refine ⟨p, hp, ?_⟩
  rw [habs]
  have hiff : (s.head? = some c ∨ s.head? = some 47) ↔ s.head? = some c := by
    constructor
    · intro h
      rcases h with h | h
      · exact h
      · rcases hslash with hc | hc
        · rw [hc]; exact h
        · exact absurd h hc
    · exact Or.inl
  by_cases h : s.head? = some c
  · simp [h]
  · have h2 : ¬ (s.head? = some c ∨ s.head? = some 47) := fun e => h (hiff.mp e)
    have h3 : ¬ s.head? = some 47 := fun e => h2 (Or.inr e)
    simp [h, h3]

/-- C16, witness: `/a/b` with the separator `/`. -/
theorem Set_string_IsAbsolute_witness :
    (bytes "/a/b" ≠ [] ∧ bytes "/a/b" ≠ [47] ∧ (bytes "/a/b").length + 1 < 4294967296 ∧
      ((47 : Byte) = 47 ∨ (bytes "/a/b").head? ≠ some 47)) ∧
    ∃ p, tPath.Set_string (bytes "/a/b") 47 = some p ∧
      (p.IsAbsolute = some true ↔ (bytes "/a/b").head? = some 47) ∧
      (p.IsAbsolute = some false ↔ (bytes "/a/b").head? ≠ some 47) :=
  ⟨by decide,
    Set_string_IsAbsolute (bytes "/a/b") 47 (by decide) (by decide) (by decide) (by decide)⟩

/-- C16, counterexample: the string `/a` with the separator `:`. Its first character is
not the separator, and `IsAbsolute()` is true: the stored text begins with the `/` of the
element. -/
theorem Set_string_IsAbsolute_other_separator :
    (bytes "/a").head? ≠ some 58 ∧
    tPath.Set_string (bytes "/a") 58 = some ⟨1, [0, 0, 0, 0, 3, 0, 0, 0, 47, 97, 0]⟩ ∧
    tPath.IsAbsolute ⟨1, [0, 0, 0, 0, 3, 0, 0, 0, 47, 97, 0]⟩ = some true ∧
    tPath.elements ⟨1, [0, 0, 0, 0, 3, 0, 0, 0, 47, 97, 0]⟩ = some [bytes "/a"] := by
  decide

/-- `IsAbsolute()` of a path built from a non-empty element sequence below the `uint`
range: the flag, when the stored text of a relative path does not begin with `/`. -/
theorem Set_elements_IsAbsolute_eq (absolute : Bool) (E : List tStringRange) (hE : E ≠ [])
    (h : packedSize absolute E < 4294967296)
    (hfirst : absolute = true ∨ (∃ b t, E.head? = some (b :: t) ∧ b ≠ 47) ∨ E = [[]]) :
    ∃ p, tPath.Set_elements absolute E = some p ∧ p.IsAbsolute = some absolute := by
  refine ⟨_, Set_elements_eq absolute E hE h, ?_⟩
  unfold tPath.IsAbsolute
  rw [GetPathStringBegin_table _ _ _ (tableEntries_length E _)]
  obtain ⟨e, rest, rfl⟩ : ∃ e rest, E = e :: rest := by
    cases E with
    | nil => exact absurd rfl hE
    | cons e rest => exact ⟨e, rest, rfl⟩
  simp only [List.map_cons, List.sum_cons, List.flatMap_cons]
  cases absolute with
  | true =>
      simp only [if_true, List.cons_append, List.nil_append]
      have : 1 + (e.length + 1 + (rest.map (fun e => e.length + 1)).sum) - 1 =
          (e.length + (rest.map (fun e => e.length + 1)).sum) + 1 := by omega
      rw [this, List.set_cons_succ]
      rfl
  | false =>
      rcases hfirst with hf | hf | hf
      · exact absurd hf (by decide)
      · obtain ⟨b, t, hbt, hb⟩ := hf
        simp only [List.head?_cons, Option.some.injEq] at hbt
        subst hbt
        simp only [Bool.false_eq_true, if_false, List.nil_append, List.cons_append,
          List.length_cons]
        have : 0 + (t.length + 1 + 1 + (rest.map (fun e => e.length + 1)).sum) - 1 =
            (t.length + (rest.map (fun e => e.length + 1)).sum) + 1 := by omega
        rw [this, List.set_cons_succ]
        simp [hb]
      · simp only [List.cons.injEq] at hf
        obtain ⟨h1, h2⟩ := hf
        subst h1 h2
        rfl

/-- C19 (amended): for every flag `a` and every non-empty element sequence `E` of packed
size below `2^32` such that, when `a` is false, the first element begins with a character
other than `/` or `E` is the one empty element, the path built by `tPath(a, begin, end)`
reports `IsAbsolute() == a`. -/
theorem Set_elements_IsAbsolute (absolute : Bool) (E : List tStringRange) (hE : E ≠ [])
    (h : packedSize absolute E < 4294967296)
    (hfirst : absolute = true ∨ (∃ b t, E.head? = some (b :: t) ∧ b ≠ 47) ∨ E = [[]]) :
    ∃ p, tPath.Set_elements absolute E = some p ∧ p.IsAbsolute = some absolute :=
  Set_elements_IsAbsolute_eq absolute E hE h hfirst

/-- C19, witness: the relative path of the elements `a` and `b`. -/
theorem Set_elements_IsAbsolute_witness :
    ([bytes "a", bytes "b"] ≠ [] ∧ packedSize false [bytes "a", bytes "b"] < 4294967296 ∧
      (false = true ∨ (∃ b t, [bytes "a", bytes "b"].head? = some (b :: t) ∧ b ≠ 47) ∨
        [bytes "a", bytes "b"] = [[]])) ∧
    ∃ p, tPath.Set_elements false [bytes "a", bytes "b"] = some p ∧
      p.IsAbsolute = some false :=
  ⟨⟨by decide, by decide, Or.inr (Or.inl ⟨97, [], by decide, by decide⟩)⟩,
    Set_elements_IsAbsolute false [bytes "a", bytes "b"] (by decide) (by decide)
      (Or.inr (Or.inl ⟨97, [], by decide, by decide⟩))⟩

/-- C19, counterexample: the relative path of the elements `""` and `a`. The stored text
is `/a`, beginning with the `/` that follows the empty first element, and `IsAbsolute()`
is true. -/
theorem Set_elements_empty_first_element :
    tPath.Set_elements false [[], bytes "a"] =
      some ⟨2, [0, 0, 0, 0, 1, 0, 0, 0, 3, 0, 0, 0, 47, 97, 0]⟩ ∧
    tPath.IsAbsolute ⟨2, [0, 0, 0, 0, 1, 0, 0, 0, 3, 0, 0, 0, 47, 97, 0]⟩ = some true ∧
    tPath.elements ⟨2, [0, 0, 0, 0, 1, 0, 0, 0, 3, 0, 0, 0, 47, 97, 0]⟩ =
      some [[], bytes "a"] := by
  decide

/-- The empty element sequence: built as absolute it reads as not absolute (the
terminator is written over the leading `/`); built as relative, `IsAbsolute()` reads the
byte behind the four bytes of `memory`. -/
theorem Set_elements_empty_sequence :
    tPath.Set_elements true [] = some ⟨0, [1, 0, 0, 0, 0]⟩ ∧
    tPath.IsAbsolute ⟨0, [1, 0, 0, 0, 0]⟩ = some false ∧
    tPath.Set_elements false [] = some ⟨0, [0, 0, 0, 0]⟩ ∧
    tPath.IsAbsolute ⟨0, [0, 0, 0, 0]⟩ = none := by
  decide

theorem replaced_getElem? (s : List Byte) (c : Byte) (h47 : (47 : Byte) ∉ s) (i : Nat) :
    (s.map (fun b => if b = c then 47 else b))[i]? = some 47 ↔ s[i]? = some c := by
  rw [List.getElem?_map]
  cases hi : s[i]? with
  | none => simp
  | some b =>
      have hb : b ∈ s := List.getElem?_mem hi
      have hne : b ≠ 47 := fun e => h47 (e ▸ hb)
      by_cases hc : b = c
      · simp [hc]
      · simp [hc, hne]

theorem replaced_head? (s : List Byte) (c : Byte) (h47 : (47 : Byte) ∉ s) :
    (s.map (fun b => if b = c then 47 else b)).head? = some 47 ↔ s.head? = some c := by
  have := replaced_getElem? s c h47 0
  simpa [List.head?_eq_getElem?] using this

theorem replaced_getLast? (s : List Byte) (c : Byte) (h47 : (47 : Byte) ∉ s) :
    (s.map (fun b => if b = c then 47 else b)).getLast? = some 47 ↔ s.getLast? = some c := by
  have := replaced_getElem? s c h47 (s.length - 1)
  rw [List.getLast?_eq_getElem?, List.getLast?_eq_getElem?, List.length_map]
  exact this

/-- The stored form does not depend on the separator, below the `uint` range. -/
theorem Set_string_replaced (s : List Byte) (c : Byte) (hs : s ≠ []) (h47 : (47 : Byte) ∉ s)
    (hlen : s.length + 1 < 4294967296) :
    tPath.Set_string s c = tPath.Set_string (s.map (fun b => if b = c then 47 else b)) 47 := by
  have hs2 : s.map (fun b => if b = c then (47 : Byte) else b) ≠ [] := by
    simpa using hs
  rw [Set_string_eq s c hs hlen, Set_string_eq _ 47 hs2 (by rw [List.length_map]; exact hlen)]
  have hend : endIndex (s.map (fun b => if b = c then (47 : Byte) else b)) 47 = endIndex s c := by
    unfold endIndex
    rw [List.length_map]
    by_cases h : s.getLast? = some c
    · rw [if_pos h, if_pos ((replaced_getLast? s c h47).mpr h)]
    · rw [if_neg h, if_neg (fun e => h ((replaced_getLast? s c h47).mp e))]
  have hstart : (if (s.map (fun b => if b = c then (47 : Byte) else b)).head? = some 47
      then 1 else 0) = (if s.head? = some c then 1 else 0) := by
    by_cases h : s.head? = some c
    · rw [if_pos h, if_pos ((replaced_head? s c h47).mpr h)]
    · rw [if_neg h, if_neg (fun e => h ((replaced_head? s c h47).mp e))]
  have hfound : separatorEntries (s.map (fun b => if b = c then (47 : Byte) else b)) 47
      (endIndex s c) = separatorEntries s c (endIndex s c) := by
    unfold separatorEntries
    congr 1
    apply List.filter_congr
    intro i _
    congr 1
    exact decide_eq_decide.mpr (replaced_getElem? s c h47 i)
  have hchars : ((s.map (fun b => if b = c then (47 : Byte) else b)).take (endIndex s c)).map
      (fun b => if b = 47 then 47 else b) =
      (s.take (endIndex s c)).map (fun b => if b = c then 47 else b) := by
    have hid : (fun b : Byte => if b = 47 then 47 else b) = id := by
      funext b
      by_cases hb : b = 47
      · simp [hb]
      · simp [hb]
    rw [hid, List.map_id, List.map_take]
  rw [hend, hstart, hfound, hchars]

/-- C18 (amended): for every non-empty string `s` of fewer than `2^32 - 1` characters that
holds no `/` and every separator `c` other than `/`, `tPath(s, c) == tPath(s', '/')`, where
`s'` is `s` with every `c` replaced by `/`. -/
theorem Set_string_canonical (s : List Byte) (c : Byte) (hs : s ≠ []) (h47 : (47 : Byte) ∉ s)
    (_hc : c ≠ 47) (hlen : s.length + 1 < 4294967296) :
    ∃ p q, tPath.Set_string s c = some p ∧
      tPath.Set_string (s.map (fun b => if b = c then 47 else b)) 47 = some q ∧
      p.operatorEq q = true := by
  obtain ⟨p, hp⟩ := Set_string_isSome s c hs
  refine ⟨p, p, hp, ?_, ?_⟩
  · rw [← Set_string_replaced s c hs h47 hlen, hp]
  · simp [tPath.operatorEq]

/-- C18, witness: `:usr:local:` with the separator `:`. -/
theorem Set_string_canonical_witness :
    (bytes ":usr:local:" ≠ [] ∧ (47 : Byte) ∉ bytes ":usr:local:" ∧ (58 : Byte) ≠ 47 ∧
      (bytes ":usr:local:").length + 1 < 4294967296) ∧
    ∃ p q, tPath.Set_string (bytes ":usr:local:") 58 = some p ∧
      tPath.Set_string ((bytes ":usr:local:").map (fun b => if b = 58 then 47 else b)) 47 =
        some q ∧
      p.operatorEq q = true :=
  ⟨by decide,
    Set_string_canonical (bytes ":usr:local:") 58 (by decide) (by decide) (by decide)
      (by decide)⟩

theorem range_filter_positions (c : Byte) (l : List Byte) :
    ∀ off, ((List.range l.length).filter (fun i => decide (l[i]? = some c))).map
      (fun i => i + off) = positions c off l := by
  induction l with
  | nil => intro off; rfl
  | cons b rest ih =>
      intro off
      rw [List.length_cons, List.range_succ_eq_map, List.filter_cons]
      have hcomp : ((fun i => decide ((b :: rest)[i]? = some c)) ∘ Nat.succ) =
          (fun i => decide (rest[i]? = some c)) := by
        funext i
        simp
      have hshift : ∀ X : List Nat,
          (X.map Nat.succ).map (fun i => i + off) = X.map (fun i => i + (off + 1)) := by
        intro X
        rw [List.map_map]
        apply List.map_congr_left
        intro i _
        simp only [Function.comp, Nat.succ_eq_add_one]
        omega
      rw [List.filter_map, hcomp]
      by_cases hb : b = c
      · have h0 : decide ((b :: rest)[0]? = some c) = true := by simp [hb]
        rw [h0, if_pos rfl, List.map_cons, hshift, ih, positions, if_pos hb]
        simp
      · have h0 : ¬ (decide ((b :: rest)[0]? = some c) = true) := by simp [hb]
        rw [if_neg h0, hshift, ih, positions, if_neg hb]

theorem separatorEntries_positions (s : List Byte) (c : Byte) (n : Nat) (hn : n ≤ s.length) :
    separatorEntries s c n =
      ((positions c 0 (s.take n)).filter (fun i => decide (1 ≤ i))).map
        (fun i => toUInt (i + 1)) := by
  unfold separatorEntries
  congr 1
  have h := range_filter_positions c (s.take n) 0
  simp only [Nat.add_zero, List.map_id'] at h
  rw [← h, List.filter_filter, List.length_take, Nat.min_eq_left hn]
  apply List.filter_congr
  intro i hi
  rw [List.getElem?_take_of_lt (List.mem_range.mp hi)]

theorem positions_append (c : Byte) (l1 l2 : List Byte) :
    ∀ off, positions c off (l1 ++ l2) =
      positions c off l1 ++ positions c (off + l1.length) l2 := by
  induction l1 with
  | nil => intro off; rfl
  | cons b rest ih =>
      intro off
      have e : off + (b :: rest).length = off + 1 + rest.length := by
        simp only [List.length_cons]; omega
      by_cases hb : b = c
      · rw [List.cons_append, positions, if_pos hb, positions, if_pos hb, ih, e]
        rfl
      · rw [List.cons_append, positions, if_neg hb, positions, if_neg hb, ih, e]

theorem positions_of_not_mem (c : Byte) (l : List Byte) (h : c ∉ l) :
    ∀ off, positions c off l = [] := by
  induction l with
  | nil => intro off; rfl
  | cons b rest ih =>
      intro off
      have hb : b ≠ c := fun e => h (by simp [e])
      rw [positions, if_neg hb, ih (fun e => h (List.mem_cons_of_mem _ e))]

theorem positions_ge (c : Byte) (l : List Byte) :
    ∀ off, ∀ i ∈ positions c off l, off ≤ i := by
  induction l with
  | nil => intro off i hi; simp [positions] at hi
  | cons b rest ih =>
      intro off i hi
      by_cases hb : b = c
      · rw [positions, if_pos hb, List.mem_cons] at hi
        rcases hi with hi | hi
        · omega
        · have := ih _ i hi; omega
      · rw [positions, if_neg hb] at hi
        have := ih _ i hi; omega

/-- `Set(path_string, separator)` for a non-empty string, written with `endIndex`. -/
theorem Set_string_unfold (s : List Byte) (c : Byte) (hs : s ≠ []) :
    tPath.Set_string s c =
      some ⟨1 + (separatorEntries s c (endIndex s c)).length,
        (if c ≠ 47 then
          rewriteSeparators ((1 + (separatorEntries s c (endIndex s c)).length + 1) * 4)
            (separatorEntries s c (endIndex s c))
            (if s.head? = some c then
              (((if s.head? = some c then 1 else 0) :: separatorEntries s c (endIndex s c) ++
                [toUInt (endIndex s c + 1)]).flatMap uintBytes ++ s.take (endIndex s c) ++
                  [0]).set ((1 + (separatorEntries s c (endIndex s c)).length + 1) * 4) 47
            else
              ((if s.head? = some c then 1 else 0) :: separatorEntries s c (endIndex s c) ++
                [toUInt (endIndex s c + 1)]).flatMap uintBytes ++ s.take (endIndex s c) ++ [0])
        else
          ((if s.head? = some c then 1 else 0) :: separatorEntries s c (endIndex s c) ++
            [toUInt (endIndex s c + 1)]).flatMap uintBytes ++ s.take (endIndex s c) ++ [0]).set
          ((1 + (separatorEntries s c (endIndex s c)).length + 1) * 4 + endIndex s c + 1 - 1)
          0⟩ := by
  obtain ⟨first, rest, rfl⟩ : ∃ first rest, s = first :: rest := by
    cases s with
    | nil => exact absurd rfl hs
    | cons a t => exact ⟨a, t, rfl⟩
  by_cases h : first = c
  · subst h
    simp only [tPath.Set_string, endIndex, beq_self_eq_true, if_true, List.head?_cons]
  · have hb : (first == c) = false := by simpa using h
    have hh : ¬ ((first :: rest).head? = some c) := by simpa using h
    simp only [tPath.Set_string, endIndex, hb, Bool.false_eq_true, if_false, if_neg hh]

theorem getLast?_append_pair (l : List Byte) (a b : Byte) :
    (l ++ [a, b]).getLast? = some b := by
  rw [List.getLast?_eq_getElem?, List.getElem?_append_right (by simp)]
  simp

set_option maxRecDepth 10000 in
/-- A separator at an index `n` with `n + 1` equal to 1 modulo `2^32`: its table entry is
1, and the rewriting of separators writes `/` over the first stored character. -/
theorem Set_string_wrapped_entry (n : Nat) (hn : 1 ≤ n) (hw : toUInt (n + 1) = 1) :
    (tPath.Set_string (List.replicate n 97 ++ [58, 98]) 58).bind (fun p => p.IsAbsolute) =
        some true ∧
      (tPath.Set_string (List.replicate n 97 ++ [47, 98]) 47).bind (fun p => p.IsAbsolute) =
        some false := by
  obtain ⟨m, rfl⟩ : ∃ m, n = m + 1 := ⟨n - 1, by omega⟩
  have hpos : ∀ c : Byte, c ≠ 97 → c ≠ 98 →
      separatorEntries (List.replicate (m + 1) 97 ++ [c, 98]) c (m + 1 + 2) = [1] := by
    intro c h1 h2
    rw [separatorEntries_positions _ _ _ (by simp), List.take_of_length_le (by simp),
      positions_append, positions_of_not_mem c _ (by
        intro hmem
        exact h1 (List.eq_of_mem_replicate hmem))]
    have h98 : ¬ ((98 : Byte) = c) := fun e => h2 e.symm
    simp only [List.nil_append, List.length_replicate, Nat.zero_add, positions, if_true,
      if_neg h98]
    rw [List.filter_cons, if_pos (by simp), List.filter_nil, List.map_cons, List.map_nil, hw]
  have hend : ∀ c : Byte, c ≠ 98 →
      endIndex (List.replicate (m + 1) 97 ++ [c, 98]) c = m + 1 + 2 := by
    intro c h2
    have h98 : ¬ ((98 : Byte) = c) := fun e => h2 e.symm
    unfold endIndex
    rw [getLast?_append_pair]
    simp [h98]
  have hhead : ∀ c : Byte, c ≠ 97 →
      ¬ ((List.replicate (m + 1) 97 ++ [c, 98]).head? = some c) := by
    intro c h1
    have h97 : ¬ ((97 : Byte) = c) := fun e => h1 e.symm
    simp [List.replicate_succ, h97]
  have hT := flatMap_uintBytes_length
  constructor
  · rw [Set_string_unfold _ _ (by simp), hend 58 (by decide), hpos 58 (by decide) (by decide),
      if_pos (by decide)]
    simp only [if_neg (hhead 58 (by decide))]
    generalize htb : ([0, 1, toUInt (m + 1 + 2 + 1)].flatMap uintBytes) = tblB
    have hl : tblB.length = 12 := by rw [← htb, hT]; rfl
    have hM : ((rewriteSeparators ((1 + [1].length + 1) * 4) [1]
        (tblB ++ List.take (m + 1 + 2) (List.replicate (m + 1) (97 : Byte) ++ [58, 98]) ++ [0])).set
        ((1 + [1].length + 1) * 4 + (m + 1 + 2) + 1 - 1) 0) =
        tblB ++ (47 : Byte) :: ((List.replicate m (97 : Byte) ++ [58, 98] ++ [0]).set (m + 2) 0) := by
      rw [List.take_of_length_le (by simp), List.replicate_succ]
      simp only [rewriteSeparators, List.length_singleton, List.cons_append, List.append_assoc]
      rw [show (1 + 1 + 1) * 4 + 1 - 1 = tblB.length by rw [hl],
        List.set_append_right _ _ (Nat.le_refl _), Nat.sub_self, List.set_cons_zero,
        List.set_append_right _ _ (by rw [hl]; omega), hl,
        show (1 + 1 + 1) * 4 + (m + 1 + 2) + 1 - 1 - 12 = (m + 2) + 1 by omega,
        List.set_cons_succ]
    have hcons : (((0 :: [1]) ++ [toUInt (m + 1 + 2 + 1)] : List Nat)) =
        [0, 1, toUInt (m + 1 + 2 + 1)] := rfl
    simp only [hcons, htb] at hM ⊢
    rw [hM]
    simp only [Option.some_bind, tPath.IsAbsolute]
    rw [← htb, GetPathStringBegin_table (1 + ([1] : List Nat).length)
      [0, 1, toUInt (m + 1 + 2 + 1)] _ rfl]
    rfl
  · rw [Set_string_unfold _ _ (by simp), hend 47 (by decide), hpos 47 (by decide) (by decide),
      if_neg (by simp)]
    simp only [if_neg (hhead 47 (by decide))]
    generalize htb : ([0, 1, toUInt (m + 1 + 2 + 1)].flatMap uintBytes) = tblB
    have hl : tblB.length = 12 := by rw [← htb, hT]; rfl
    have hM : ((tblB ++ List.take (m + 1 + 2) (List.replicate (m + 1) (97 : Byte) ++ [47, 98]) ++ [0]).set
        ((1 + [1].length + 1) * 4 + (m + 1 + 2) + 1 - 1) 0) =
        tblB ++ (97 : Byte) :: ((List.replicate m (97 : Byte) ++ [47, 98] ++ [0]).set (m + 2) 0) := by
      rw [List.take_of_length_le (by simp), List.replicate_succ]
      simp only [List.length_singleton, List.cons_append, List.append_assoc]
      rw [List.set_append_right _ _ (by rw [hl]; omega), hl,
        show (1 + 1 + 1) * 4 + (m + 1 + 2) + 1 - 1 - 12 = (m + 2) + 1 by omega,
        List.set_cons_succ]
    have hcons : (((0 :: [1]) ++ [toUInt (m + 1 + 2 + 1)] : List Nat)) =
        [0, 1, toUInt (m + 1 + 2 + 1)] := rfl
    simp only [hcons, htb] at hM ⊢
    rw [hM]
    simp only [Option.some_bind, tPath.IsAbsolute]
    rw [← htb, GetPathStringBegin_table (1 + ([1] : List Nat).length)
      [0, 1, toUInt (m + 1 + 2 + 1)] _ rfl]
    rfl

/-- C18, counterexample: `s` is `2^32` characters `a`, then `:` and `b`, with the separator
`:`; it holds no `/`. The `:` stands at index `2^32`, its table entry `2^32 + 1` is stored
as the `uint` 1, and the rewriting of separators writes `/` at the offset `1 - 1` of the
stored text: `tPath(s, ':')` begins with `/` and reads as absolute, `tPath(s', '/')` begins
with `a` and does not, so the two paths differ. -/
theorem Set_string_not_canonical :
    (47 : Byte) ∉ List.replicate 4294967296 (97 : Byte) ++ [58, 98] ∧
    (tPath.Set_string (List.replicate 4294967296 97 ++ [58, 98]) 58).bind
        (fun p => p.IsAbsolute) = some true ∧
      (tPath.Set_string
        ((List.replicate 4294967296 (97 : Byte) ++ [58, 98]).map
          (fun b => if b = 58 then 47 else b)) 47).bind (fun p => p.IsAbsolute) = some false := by
  have h97 : (if (97 : Byte) = 58 then (47 : Byte) else 97) = 97 := by decide
  have hmap : (List.replicate 4294967296 (97 : Byte) ++ [58, 98]).map
      (fun b => if b = 58 then 47 else b) = List.replicate 4294967296 97 ++ [47, 98] := by
    rw [List.map_append, List.map_replicate, h97]
    rfl
  rw [hmap]
  refine ⟨fun hmem => ?_, Set_string_wrapped_entry 4294967296 (by decide) (by decide)⟩
  rcases List.mem_append.mp hmem with h | h
  · exact absurd (List.eq_of_mem_replicate h) (by decide)
  · exact absurd h (by decide)

theorem writeElements_of_operatorIndex (p : tPath) (E : List tStringRange)
    (hE : ∀ i (hi : i < E.length), p.operatorIndex i = some E[i]) :
    ∀ k i, i + k = E.length →
      writeElements p k i = some ((E.drop i).flatMap (fun e => e ++ [0])) := by
  intro k
  induction k with
  | zero =>
      intro i h
      simp only [Nat.add_zero] at h
      subst h
      simp [writeElements]
  | succ k ih =>
      intro i h
      have hi : i < E.length := by omega
      simp only [writeElements, hE i hi, ih (i + 1) (by omega)]
      rw [List.drop_eq_getElem_cons hi, List.flatMap_cons]
      simp

theorem ReadInt_WriteInt (t : Nat) (ht : t < 2147483648) (rest : List Byte) :
    ReadInt (WriteInt t ++ rest) = some ((t : Int), rest) := by
  simp only [ReadInt, WriteInt, uintBytes, toByte, List.cons_append, List.nil_append]
  have hv : t % 256 + 256 * (t / 256 % 256) + 65536 * (t / 65536 % 256) +
      16777216 * (t / 16777216 % 256) = t := by omega
  rw [hv, if_pos ht]

theorem length_le_sum (E : List tStringRange) :
    E.length ≤ (E.map (fun e => e.length + 1)).sum := by
  induction E with
  | nil => simp
  | cons e rest ih => simp only [List.length_cons, List.map_cons, List.sum_cons]; omega

theorem flatMap_replaced (E : List tStringRange) (h : ∀ e ∈ E, (0 : Byte) ∉ e) :
    (E.flatMap (fun e => e ++ [(0 : Byte)])).map (fun b => if b = 0 then 47 else b) =
      E.flatMap (fun e => e ++ [(47 : Byte)]) := by
  induction E with
  | nil => rfl
  | cons e rest ih =>
      have he : e.map (fun b => if b = (0 : Byte) then (47 : Byte) else b) = e := by
        conv_rhs => rw [← List.map_id e]
        apply List.map_congr_left
        intro b hb
        have : b ≠ 0 := fun eq => h e (List.mem_cons_self _ _) (eq ▸ hb)
        simp [this]
      rw [List.flatMap_cons, List.map_append, List.map_append, he,
        ih (fun x hx => h x (List.mem_cons_of_mem _ hx)), List.flatMap_cons]
      rfl

theorem set_last (W : List Byte) (x : Byte) (hW : W ≠ []) :
    W.set (W.length - 1) x = W.take (W.length - 1) ++ [x] := by
  have hl : 0 < W.length := List.length_pos.mpr hW
  rw [List.set_eq_take_append_cons_drop, if_pos (by omega),
    List.drop_of_length_le (by omega)]

theorem tableEntries_cons_tail (E : List tStringRange) (off : Nat) :
    tableEntries off E = off :: (tableEntries off E).tail := by
  cases E <;> rfl

theorem positions_lt (c : Byte) (l : List Byte) :
    ∀ off, ∀ i ∈ positions c off l, i < off + l.length := by
  induction l with
  | nil => intro off i hi; simp [positions] at hi
  | cons b rest ih =>
      intro off i hi
      simp only [List.length_cons]
      by_cases hb : b = c
      · rw [positions, if_pos hb, List.mem_cons] at hi
        rcases hi with hi | hi
        · omega
        · have := ih _ i hi; omega
      · rw [positions, if_neg hb] at hi
        have := ih _ i hi; omega

/-- The zero bytes of the written elements stand one in front of the offsets of the table. -/
theorem positions_flatMap (c : Byte) (E : List tStringRange) (h : ∀ e ∈ E, c ∉ e) :
    ∀ off, off + (E.map (fun e => e.length + 1)).sum < 4294967296 →
      (positions c off (E.flatMap (fun e => e ++ [c]))).map (fun i => i + 1) =
        (tableEntries off E).tail := by
  induction E with
  | nil => intro off _; rfl
  | cons e rest ih =>
      intro off hb
      simp only [List.map_cons, List.sum_cons] at hb
      have hu : toUInt (off + (e.length + 1)) = off + (e.length + 1) := toUInt_of_lt (by omega)
      rw [List.flatMap_cons, positions_append, positions_append,
        positions_of_not_mem c e (h e (List.mem_cons_self _ _))]
      simp only [List.nil_append, positions, if_true, List.length_append, List.length_singleton,
        List.cons_append, List.map_cons]
      rw [show off + (e.length + 1) = off + e.length + 1 by omega] at hu
      rw [show off + (e.length + 1) = off + e.length + 1 by omega,
        ih (fun x hx => h x (List.mem_cons_of_mem _ hx)) _ (by omega)]
      simp only [tableEntries, List.tail_cons]
      rw [show off + (e.length + 1) = off + e.length + 1 by omega, hu]
      exact (tableEntries_cons_tail rest _).symm

theorem flatMap_sep_last (c : Byte) (E : List tStringRange) (hE : E ≠ []) :
    ∃ Y, E.flatMap (fun e => e ++ [c]) = Y ++ [c] := by
  induction E with
  | nil => exact absurd rfl hE
  | cons e rest ih =>
      by_cases hr : rest = []
      · subst hr
        exact ⟨e, by simp [List.flatMap_cons]⟩
      · obtain ⟨Y, hY⟩ := ih hr
        exact ⟨e ++ [c] ++ Y, by simp [List.flatMap_cons, hY]⟩

/-- What the binary reader builds from the bytes the writer emits for an element sequence
is the path built from that sequence. -/
theorem Set_string_written (a : Bool) (E : List tStringRange) (hE : E ≠ [])
    (hel : ∀ e ∈ E, e ≠ [] ∧ (0 : Byte) ∉ e) (h : packedSize a E + 1 < 4294967296) :
    tPath.Set_string ((if a then [(0 : Byte)] else []) ++ E.flatMap (fun e => e ++ [0])) 0 =
      tPath.Set_elements a E := by
  have h0 : ∀ e ∈ E, (0 : Byte) ∉ e := fun e he => (hel e he).2
  obtain ⟨e0, rest, rfl⟩ : ∃ e0 rest, E = e0 :: rest := by
    cases E with
    | nil => exact absurd rfl hE
    | cons e rest => exact ⟨e, rest, rfl⟩
  obtain ⟨b0, t0, rfl⟩ : ∃ b0 t0, e0 = b0 :: t0 := by
    have := (hel e0 (List.mem_cons_self _ _)).1
    cases e0 with
    | nil => exact absurd rfl this
    | cons b t => exact ⟨b, t, rfl⟩
  have hb0 : b0 ≠ 0 := fun e =>
    (hel (b0 :: t0) (List.mem_cons_self _ _)).2 (by rw [e]; exact List.mem_cons_self _ _)
  generalize hEq : (b0 :: t0) :: rest = E at *
  have hps : packedSize a E = (if a then 1 else 0) + (E.map (fun e => e.length + 1)).sum := rfl
  have hpl : ((if a then [(0 : Byte)] else []) : List Byte).length = (if a then 1 else 0) := by
    cases a <;> rfl
  have hFl : (E.flatMap (fun e => e ++ [(0 : Byte)])).length =
      (E.map (fun e => e.length + 1)).sum := by
    have := congrArg List.length (flatMap_replaced E h0)
    rw [List.length_map, flatMap_sep_length] at this
    exact this
  obtain ⟨Y0, hY0⟩ := flatMap_sep_last 0 E hE
  have hbody : (if a then [(0 : Byte)] else []) ++ E.flatMap (fun e => e ++ [0]) =
      ((if a then [(0 : Byte)] else []) ++ Y0) ++ [0] := by
    rw [hY0, List.append_assoc]
  generalize hYdef : (if a then [(0 : Byte)] else []) ++ Y0 = Y at hbody
  have hYlen : Y.length + 1 = packedSize a E := by
    have := congrArg List.length hbody
    rw [List.length_append, List.length_append, hpl, hFl, List.length_singleton] at this
    rw [hps]; omega
  have hYpos : 1 ≤ Y.length := by
    have : 2 ≤ (E.map (fun e => e.length + 1)).sum := by
      rw [← hEq]
      simp only [List.map_cons, List.sum_cons, List.length_cons]
      omega
    rw [hps] at hYlen
    omega
  have hend : endIndex (Y ++ [0]) 0 = Y.length := by
    unfold endIndex
    simp
  have hhead : ((Y ++ [(0 : Byte)]).head? = some 0) ↔ a = true := by
    rw [← hbody, ← hEq]
    cases a with
    | true => simp
    | false => simp [List.flatMap_cons, hb0]
  have hstart : (if (Y ++ [(0 : Byte)]).head? = some 0 then 1 else 0) =
      (if a = true then 1 else 0) := by
    by_cases ha : a = true
    · rw [if_pos ha, if_pos (hhead.mpr ha)]
    · rw [if_neg ha, if_neg (fun e => ha (hhead.mp e))]
  -- the zero bytes of the body and the table
  have hbound : (if a = true then 1 else 0) + (E.map (fun e => e.length + 1)).sum + 1 <
      4294967296 := by
    rw [← hps]; exact h
  have hP := positions_flatMap 0 E h0 (if a then 1 else 0) (Nat.lt_of_succ_lt hbound)
  have hfilter : (positions 0 0 (Y ++ [0])).filter (fun i => decide (1 ≤ i)) =
      positions 0 (if a then 1 else 0) (E.flatMap (fun e => e ++ [0])) := by
    rw [← hbody]
    cases a with
    | true =>
        simp only [if_true, List.cons_append, List.nil_append, positions, Nat.zero_add]
        rw [List.filter_cons, if_neg (by simp)]
        apply List.filter_eq_self.mpr
        intro i hi
        have := positions_ge 0 _ 1 i hi
        simpa using this
    | false =>
        simp only [Bool.false_eq_true, if_false, List.nil_append]
        rw [← hEq, List.flatMap_cons]
        simp only [List.cons_append, positions, if_neg hb0, Nat.zero_add]
        apply List.filter_eq_self.mpr
        intro i hi
        have := positions_ge 0 _ 1 i hi
        simpa using this
  have hsplit : (positions 0 0 Y).filter (fun i => decide (1 ≤ i)) ++ [Y.length] =
      positions 0 (if a then 1 else 0) (E.flatMap (fun e => e ++ [0])) := by
    rw [← hfilter, positions_append, List.filter_append]
    simp only [positions, if_true, Nat.zero_add]
    rw [List.filter_cons, if_pos (by simpa using hYpos), List.filter_nil]
  have hfound : separatorEntries (Y ++ [0]) 0 Y.length =
      ((positions 0 0 Y).filter (fun i => decide (1 ≤ i))).map (fun i => i + 1) := by
    rw [separatorEntries_positions _ _ _ (by simp), List.take_left]
    apply List.map_congr_left
    intro i hi
    have := positions_lt 0 Y 0 i (List.mem_filter.mp hi).1
    exact toUInt_of_lt (by omega)
  have htable : (if a = true then 1 else 0) :: separatorEntries (Y ++ [0]) 0 Y.length ++
      [Y.length + 1] = tableEntries (if a = true then 1 else 0) E := by
    rw [tableEntries_cons_tail E, ← hP, ← hsplit, hfound, List.map_append]
    rfl
  have hcount : 1 + (separatorEntries (Y ++ [0]) 0 Y.length).length = E.length := by
    have := congrArg List.length htable
    rw [tableEntries_length] at this
    simp only [List.length_cons, List.length_append, List.length_singleton,
      List.length_nil] at this
    omega
  have hchars : (Y.map (fun b => if b = (0 : Byte) then (47 : Byte) else b) ++ [0]) =
      ((if a = true then [(47 : Byte)] else []) ++ E.flatMap (fun e => e ++ [(47 : Byte)])).set
        ((if a = true then 1 else 0) + (E.map (fun e => e.length + 1)).sum - 1) 0 := by
    have hW : ((if a = true then [(47 : Byte)] else []) ++
        E.flatMap (fun e => e ++ [(47 : Byte)])) =
        Y.map (fun b => if b = (0 : Byte) then (47 : Byte) else b) ++ [47] := by
      have := congrArg (List.map (fun b => if b = (0 : Byte) then (47 : Byte) else b)) hbody
      rw [List.map_append, List.map_append, flatMap_replaced E h0] at this
      have h47 : List.map (fun b => if b = (0 : Byte) then (47 : Byte) else b) [0] = [47] := rfl
      rw [h47] at this
      rw [← this]
      cases a <;> rfl
    have hWl : ((if a = true then [(47 : Byte)] else []) ++
        E.flatMap (fun e => e ++ [(47 : Byte)])).length =
        (if a = true then 1 else 0) + (E.map (fun e => e.length + 1)).sum := by
      rw [List.length_append, flatMap_sep_length]
      cases a <;> rfl
    rw [← hWl, set_last _ _ (by rw [hW]; simp), hW]
    simp
  rw [hbody, Set_string_eq _ 0 (by simp) (by
        rw [List.length_append, List.length_singleton]; omega),
    Set_elements_eq a E hE (by omega), hend, List.take_left, hstart, htable, hcount, hchars]

theorem flatMap_zero_length (E : List tStringRange) :
    (E.flatMap (fun e => e ++ [(0 : Byte)])).length = (E.map (fun e => e.length + 1)).sum := by
  induction E with
  | nil => rfl
  | cons e rest ih =>
      rw [List.flatMap_cons, List.length_append, ih]
      simp

/-- C15 (amended): for every path `p` built, with either absoluteness, from a non-empty
sequence of non-empty elements that hold neither a zero byte nor `/` and whose packed size
is below `2^31`, the binary writer emits the integer `TotalCharacters()` followed by
exactly that many bytes (a zero byte if absolute, then each element followed by a zero
byte), and the binary reader applied to this output rebuilds `p`. -/
theorem binary_roundtrip (a : Bool) (E : List tStringRange) (hE : E ≠ [])
    (hel : ∀ e ∈ E, e ≠ [] ∧ (0 : Byte) ∉ e ∧ (47 : Byte) ∉ e)
    (h : packedSize a E < 2147483648) :
    ∃ p, tPath.Set_elements a E = some p ∧
      p.TotalCharacters =
        ((if a then [(0 : Byte)] else []) ++ E.flatMap (fun e => e ++ [0])).length ∧
      p.writeBinary = some (WriteInt p.TotalCharacters ++
        ((if a then [(0 : Byte)] else []) ++ E.flatMap (fun e => e ++ [0]))) ∧
      (p.writeBinary).bind tPath.readBinary = some p ∧
      ((p.writeBinary).bind tPath.readBinary).map (fun q => q.operatorEq p) = some true := by
  have hfirst : a = true ∨ (∃ b t, E.head? = some (b :: t) ∧ b ≠ 47) ∨ E = [[]] := by
    right; left
    cases E with
    | nil => exact absurd rfl hE
    | cons e rest =>
        obtain ⟨h1, _, h3⟩ := hel e (List.mem_cons_self _ _)
        cases e with
        | nil => exact absurd rfl h1
        | cons b t => exact ⟨b, t, rfl, fun e => h3 (by rw [e]; exact List.mem_cons_self _ _)⟩
  obtain ⟨p, hp, habs⟩ := Set_elements_IsAbsolute_eq a E hE (by omega) hfirst
  have hp2 := Set_elements_eq a E hE (by omega)
  have hps : packedSize a E = (if a then 1 else 0) + (E.map (fun e => e.length + 1)).sum := rfl
  have hbl : ((if a then [(0 : Byte)] else []) ++ E.flatMap (fun e => e ++ [0])).length =
      packedSize a E := by
    rw [List.length_append, flatMap_zero_length, hps]
    cases a <;> rfl
  have hn := length_le_sum E
  have htc : p.TotalCharacters = packedSize a E := by
    rw [hp] at hp2
    have hpe := Option.some.inj hp2
    have hml : p.memory.length = 4 * (E.length + 1) + packedSize a E := by
      rw [hpe]
      simp only [List.length_append, flatMap_uintBytes_length, tableEntries_length,
        List.length_set, flatMap_sep_length, hps]
      cases a <;> simp
    have hec : p.element_count = E.length := by rw [hpe]
    unfold tPath.TotalCharacters
    rw [hml, hec]
    rw [hps] at h ⊢
    omega
  have hidx : ∀ i (hi : i < E.length), p.operatorIndex i = some E[i] := by
    rw [hp] at hp2
    have hpe := Option.some.inj hp2
    rw [hpe]
    exact Set_elements_operatorIndex a E (by omega)
  have hsize : p.Size = E.length := by
    rw [hp] at hp2
    rw [Option.some.inj hp2]
    rfl
  have hw : p.writeBinary = some (WriteInt p.TotalCharacters ++
      ((if a then [(0 : Byte)] else []) ++ E.flatMap (fun e => e ++ [0]))) := by
    have := writeElements_of_operatorIndex p E hidx E.length 0 (by omega)
    simp only [tPath.writeBinary, habs, hsize, this, List.drop_zero]
  have hr : tPath.readBinary (WriteInt p.TotalCharacters ++
      ((if a then [(0 : Byte)] else []) ++ E.flatMap (fun e => e ++ [0]))) = some p := by
    unfold tPath.readBinary
    rw [htc, ReadInt_WriteInt _ h]
    have hsz : (((packedSize a E : Nat) : Int) % 18446744073709551616).toNat =
        packedSize a E := by omega
    simp only [hsz, hbl, Nat.le_refl, if_true]
    rw [← hbl, List.take_length,
      Set_string_written a E hE (fun e he => ⟨(hel e he).1, (hel e he).2.1⟩) (by omega), hp]
  refine ⟨p, hp, by rw [htc, hbl], hw, ?_, ?_⟩
  · rw [hw, Option.some_bind, hr]
  · rw [hw, Option.some_bind, hr]
    simp [tPath.operatorEq]

/-- C15, witness: the absolute path of the elements `usr` and `lib`. -/
theorem binary_roundtrip_witness :
    ([bytes "usr", bytes "lib"] ≠ [] ∧
      (∀ e ∈ [bytes "usr", bytes "lib"], e ≠ [] ∧ (0 : Byte) ∉ e ∧ (47 : Byte) ∉ e) ∧
      packedSize true [bytes "usr", bytes "lib"] < 2147483648) ∧
    ∃ p, tPath.Set_elements true [bytes "usr", bytes "lib"] = some p ∧
      p.TotalCharacters =
        ((if true then [(0 : Byte)] else []) ++
          [bytes "usr", bytes "lib"].flatMap (fun e => e ++ [0])).length ∧
      p.writeBinary = some (WriteInt p.TotalCharacters ++
        ((if true then [(0 : Byte)] else []) ++
          [bytes "usr", bytes "lib"].flatMap (fun e => e ++ [0]))) ∧
      (p.writeBinary).bind tPath.readBinary = some p ∧
      ((p.writeBinary).bind tPath.readBinary).map (fun q => q.operatorEq p) = some true :=
  ⟨by decide,
    binary_roundtrip true [bytes "usr", bytes "lib"] (by decide) (by decide) (by decide)⟩

/-- C15, counterexample: the relative path built from one element of `2^32` bytes `a`.
The element is not empty and holds neither a zero byte nor `/`. The path stores it as an
empty element (its `uint` length is 0); the writer emits the integer 1 and one zero byte,
and the reader takes that zero byte for the marker of an absolute path: the path read
differs from the path written. -/
theorem binary_roundtrip_huge_element :
    (∀ e ∈ [List.replicate 4294967296 (97 : Byte)],
      e ≠ [] ∧ (0 : Byte) ∉ e ∧ (47 : Byte) ∉ e) ∧
    tPath.Set_elements false [List.replicate 4294967296 97] =
      some ⟨1, [0, 0, 0, 0, 1, 0, 0, 0, 0]⟩ ∧
    tPath.writeBinary ⟨1, [0, 0, 0, 0, 1, 0, 0, 0, 0]⟩ = some [1, 0, 0, 0, 0] ∧
    tPath.readBinary [1, 0, 0, 0, 0] = some ⟨1, [1, 0, 0, 0, 1, 0, 0, 0, 0]⟩ ∧
    tPath.operatorEq ⟨1, [1, 0, 0, 0, 1, 0, 0, 0, 0]⟩ ⟨1, [0, 0, 0, 0, 1, 0, 0, 0, 0]⟩ =
      false :=
  ⟨fun e he => by
      rw [List.mem_singleton] at he
      subst he
      refine ⟨?_, ?_, ?_⟩
      · intro hc
        have := congrArg List.length hc
        rw [List.length_replicate] at this
        exact absurd this (by decide)
      · intro hc
        exact absurd (List.eq_of_mem_replicate hc) (by decide)
      · intro hc
        exact absurd (List.eq_of_mem_replicate hc) (by decide),
    Set_elements_huge_element, by decide, by decide, by decide⟩

theorem charValue_inj (a b : Byte) (h : charValue a = charValue b) : a = b := by
  unfold charValue at h
  apply Fin.ext
  have ha := a.isLt
  have hb := b.isLt
  split at h <;> split at h <;> omega

theorem vectorLess_irrefl (l : List Byte) : vectorLess l l = false := by
  induction l with
  | nil => rfl
  | cons a as ih => simp [vectorLess, ih]

theorem vectorLess_asymm (l m : List Byte) :
    vectorLess l m = true → vectorLess m l = false := by
  induction l generalizing m with
  | nil => intro _; cases m <;> rfl
  | cons a as ih =>
      intro h
      cases m with
      | nil => simp [vectorLess] at h
      | cons b bs =>
          simp only [vectorLess] at h ⊢
          by_cases h1 : charValue a < charValue b
          · have h2 : ¬ charValue b < charValue a := by omega
            simp [h1, h2]
          · by_cases h2 : charValue b < charValue a
            · simp [h1, h2] at h
            · simp only [h1, h2, if_false] at h ⊢
              exact ih bs h

theorem vectorLess_total (l m : List Byte) :
    vectorLess l m = true ∨ l = m ∨ vectorLess m l = true := by
  induction l generalizing m with
  | nil => cases m with
      | nil => exact Or.inr (Or.inl rfl)
      | cons b bs => exact Or.inl rfl
  | cons a as ih =>
      cases m with
      | nil => exact Or.inr (Or.inr rfl)
      | cons b bs =>
          simp only [vectorLess]
          by_cases h1 : charValue a < charValue b
          · simp [h1]
          · by_cases h2 : charValue b < charValue a
            · simp [h1, h2]
            · have hab : a = b := charValue_inj a b (by omega)
              subst hab
              simp only [h1, if_false, List.cons.injEq, true_and]
              exact ih bs

theorem vectorLess_trans (l m n : List Byte) :
    vectorLess l m = true → vectorLess m n = true → vectorLess l n = true := by
  induction l generalizing m n with
  | nil =>
      intro h1 h2
      cases m with
      | nil => simp [vectorLess] at h1
      | cons b bs =>
          cases n with
          | nil => simp [vectorLess] at h2
          | cons c cs => rfl
  | cons a as ih =>
      intro h1 h2
      cases m with
      | nil => simp [vectorLess] at h1
      | cons b bs =>
          cases n with
          | nil => simp [vectorLess] at h2
          | cons c cs =>
              simp only [vectorLess] at h1 h2 ⊢
              by_cases hab : charValue a < charValue b
              · by_cases hbc : charValue b < charValue c
                · have : charValue a < charValue c := by omega
                  simp [this]
                · by_cases hcb : charValue c < charValue b
                  · simp [hbc, hcb] at h2
                  · have : charValue a < charValue c := by omega
                    simp [this]
              · by_cases hba : charValue b < charValue a
                · simp [hab, hba] at h1
                · simp only [hab, hba, if_false] at h1
                  by_cases hbc : charValue b < charValue c
                  · have : charValue a < charValue c := by omega
                    simp [this]
                  · by_cases hcb : charValue c < charValue b
                    · simp [hbc, hcb] at h2
                    · simp only [hbc, hcb, if_false] at h2
                      have h3 : ¬ charValue a < charValue c := by omega
                      have h4 : ¬ charValue c < charValue a := by omega
                      simp only [h3, h4, if_false]
                      exact ih bs cs h1 h2

theorem operatorEq_iff (a b : tPath) : a.operatorEq b = true ↔ a = b := by
  cases a
  cases b
  simp [tPath.operatorEq]

theorem operatorLess_iff (a b : tPath) :
    a.operatorLess b = true ↔
      a.element_count < b.element_count ∨
        (a.element_count = b.element_count ∧ vectorLess a.memory b.memory = true) := by
  simp only [tPath.operatorLess, Bool.or_eq_true, Bool.and_eq_true, decide_eq_true_eq,
    Bool.not_eq_true', decide_eq_false_iff_not]
  constructor
  · intro h
    rcases h with h | ⟨h1, h2⟩
    · exact Or.inl h
    · by_cases h3 : a.element_count < b.element_count
      · exact Or.inl h3
      · exact Or.inr ⟨by omega, h2⟩
  · intro h
    rcases h with h | ⟨h1, h2⟩
    · exact Or.inl h
    · exact Or.inr ⟨by omega, h2⟩

/-- C20: on paths, `operator==` is reflexive, symmetric and transitive, and `operator<` is
a strict total order consistent with it: it is transitive, and of `a < b`, `a == b`,
`b < a` exactly one holds. -/
theorem path_order :
    (∀ a : tPath, a.operatorEq a = true) ∧
    (∀ a b : tPath, a.operatorEq b = true → b.operatorEq a = true) ∧
    (∀ a b c : tPath, a.operatorEq b = true → b.operatorEq c = true →
      a.operatorEq c = true) ∧
    (∀ a b c : tPath, a.operatorLess b = true → b.operatorLess c = true →
      a.operatorLess c = true) ∧
    (∀ a b : tPath,
      (a.operatorLess b = true ∧ a.operatorEq b = false ∧ b.operatorLess a = false) ∨
      (a.operatorLess b = false ∧ a.operatorEq b = true ∧ b.operatorLess a = false) ∨
      (a.operatorLess b = false ∧ a.operatorEq b = false ∧ b.operatorLess a = true)) := by
  refine ⟨?_, ?_, ?_, ?_, ?_⟩
  · intro a
    exact (operatorEq_iff a a).mpr rfl
  · intro a b h
    exact (operatorEq_iff b a).mpr ((operatorEq_iff a b).mp h).symm
  · intro a b c h1 h2
    exact (operatorEq_iff a c).mpr
      (((operatorEq_iff a b).mp h1).trans ((operatorEq_iff b c).mp h2))
  · intro a b c h1 h2
    rw [operatorLess_iff] at h1 h2 ⊢
    rcases h1 with h1 | ⟨h1, m1⟩
    · rcases h2 with h2 | ⟨h2, _⟩
      · exact Or.inl (by omega)
      · exact Or.inl (by omega)
    · rcases h2 with h2 | ⟨h2, m2⟩
      · exact Or.inl (by omega)
      · exact Or.inr ⟨by omega, vectorLess_trans _ _ _ m1 m2⟩
  · intro a b
    have hne : ∀ x y : tPath, x.operatorEq y = false ↔ x ≠ y := by
      intro x y
      rw [← Bool.not_eq_true, operatorEq_iff]
    have hnl : ∀ x y : tPath, x.operatorLess y = false ↔
        ¬ (x.element_count < y.element_count ∨
          (x.element_count = y.element_count ∧ vectorLess x.memory y.memory = true)) := by
      intro x y
      rw [← Bool.not_eq_true, operatorLess_iff]
    rw [hne, hnl, hnl, operatorLess_iff, operatorLess_iff, operatorEq_iff]
    obtain ⟨ca, ma⟩ := a
    obtain ⟨cb, mb⟩ := b
    simp only [tPath.mk.injEq, ne_eq]
    by_cases hlt : ca < cb
    · left
      exact ⟨Or.inl hlt, fun h => by omega, fun h => by
        rcases h with h | ⟨h, _⟩ <;> omega⟩
    · by_cases hgt : cb < ca
      · right; right
        exact ⟨fun h => by rcases h with h | ⟨h, _⟩ <;> omega, fun h => by omega,
          Or.inl hgt⟩
      · have hc : ca = cb := by omega
        subst hc
        rcases vectorLess_total ma mb with h | h | h
        · left
          have h2 := vectorLess_asymm ma mb h
          refine ⟨Or.inr ⟨rfl, h⟩, fun e => ?_, fun e => ?_⟩
          · rw [e.2, vectorLess_irrefl] at h
            exact absurd h (by decide)
          · rcases e with e | ⟨_, e⟩
            · omega
            · rw [h2] at e
              exact absurd e (by decide)
        · right; left
          subst h
          refine ⟨fun e => ?_, ⟨rfl, rfl⟩, fun e => ?_⟩
          · rcases e with e | ⟨_, e⟩
            · omega
            · rw [vectorLess_irrefl] at e
              exact absurd e (by decide)
          · rcases e with e | ⟨_, e⟩
            · omega
            · rw [vectorLess_irrefl] at e
              exact absurd e (by decide)
        · right; right
          have h2 := vectorLess_asymm mb ma h
          refine ⟨fun e => ?_, fun e => ?_, Or.inr ⟨rfl, h⟩⟩
          · rcases e with e | ⟨_, e⟩
            · omega
            · rw [h2] at e
              exact absurd e (by decide)
          · rw [e.2, vectorLess_irrefl] at h
            exact absurd h (by decide)

theorem pieces_ne_nil (c : Byte) (l : List Byte) : pieces c l ≠ [] := by
  cases l with
  | nil => simp [pieces]
  | cons b rest =>
      by_cases hb : b = c
      · simp [pieces, hb]
      · rw [pieces, if_neg hb]
        cases pieces c rest <;> simp

theorem pieces_not_mem (c : Byte) (l : List Byte) : ∀ e ∈ pieces c l, c ∉ e := by
  induction l with
  | nil => intro e he; simp [pieces] at he; simp [he]
  | cons b rest ih =>
      intro e he
      by_cases hb : b = c
      · rw [pieces, if_pos hb, List.mem_cons] at he
        rcases he with he | he
        · simp [he]
        · exact ih e he
      · rw [pieces, if_neg hb] at he
        revert he ih
        cases pieces c rest with
        | nil =>
            intro ih he
            simp only [List.mem_singleton] at he
            subst he
            simpa using Ne.symm hb
        | cons p ps =>
            intro ih he
            rw [List.mem_cons] at he
            rcases he with he | he
            · subst he
              intro hm
              rw [List.mem_cons] at hm
              rcases hm with hm | hm
              · exact hb hm.symm
              · exact ih p (List.mem_cons_self _ _) hm
            · exact ih e (List.mem_cons_of_mem _ he)

theorem pieces_flatMap (c : Byte) (l : List Byte) :
    (pieces c l).flatMap (fun e => e ++ [c]) = l ++ [c] := by
  induction l with
  | nil => rfl
  | cons b rest ih =>
      by_cases hb : b = c
      · rw [pieces, if_pos hb, List.flatMap_cons, ih, hb]
        rfl
      · rw [pieces, if_neg hb]
        revert ih
        cases hp : pieces c rest with
        | nil => exact absurd hp (pieces_ne_nil c rest)
        | cons p ps =>
            intro ih
            rw [List.flatMap_cons] at ih
            simp only [List.flatMap_cons, List.cons_append]
            rw [ih]

theorem pieces_length (c : Byte) (l : List Byte) : (pieces c l).length = 1 + l.count c := by
  induction l with
  | nil => rfl
  | cons b rest ih =>
      by_cases hb : b = c
      · rw [pieces, if_pos hb, List.length_cons, ih, hb, List.count_cons_self]
        omega
      · rw [pieces, if_neg hb, List.count_cons_of_ne (Ne.symm hb)]
        revert ih
        cases hp : pieces c rest with
        | nil => exact absurd hp (pieces_ne_nil c rest)
        | cons p ps => intro ih; simpa using ih

theorem pieces_length_le (c : Byte) (l : List Byte) :
    ∀ e ∈ pieces c l, e.length ≤ l.length := by
  induction l with
  | nil => intro e he; simp [pieces] at he; simp [he]
  | cons b rest ih =>
      intro e he
      by_cases hb : b = c
      · rw [pieces, if_pos hb, List.mem_cons] at he
        rcases he with he | he
        · simp [he]
        · have := ih e he
          simp only [List.length_cons]
          omega
      · rw [pieces, if_neg hb] at he
        revert he ih
        cases pieces c rest with
        | nil =>
            intro ih he
            simp only [List.mem_singleton] at he
            subst he
            simp
        | cons p ps =>
            intro ih he
            rw [List.mem_cons] at he
            rcases he with he | he
            · subst he
              have := ih p (List.mem_cons_self _ _)
              simp only [List.length_cons]
              omega
            · have := ih e (List.mem_cons_of_mem _ he)
              simp only [List.length_cons]
              omega

theorem pieces_of_not_mem (c : Byte) (l : List Byte) (h : c ∉ l) : pieces c l = [l] := by
  induction l with
  | nil => rfl
  | cons b rest ih =>
      have hb : b ≠ c := fun e => h (by rw [e]; exact List.mem_cons_self _ _)
      rw [pieces, if_neg hb, ih (fun hm => h (List.mem_cons_of_mem _ hm))]

/-- The function `pieces` is the splitting of the library. -/
theorem pieces_eq_splitOn (c : Byte) (l : List Byte) : pieces c l = l.splitOn c := by
  have h := List.splitOn_intercalate (pieces c l) c (pieces_not_mem c l) (pieces_ne_nil c l)
  rw [← h]
  congr 1
  have hj : ∀ E : List (List Byte), E ≠ [] →
      List.intercalate [c] E ++ [c] = E.flatMap (fun e => e ++ [c]) := by
    intro E
    induction E with
    | nil => intro hE; exact absurd rfl hE
    | cons e rest ih =>
        intro _
        cases rest with
        | nil => simp [List.intercalate]
        | cons e2 rest2 =>
            have := ih (by simp)
            simp only [List.intercalate, List.intersperse, List.flatten_cons,
              List.flatMap_cons, List.append_assoc] at this ⊢
            rw [← this]
  have := hj (pieces c l) (pieces_ne_nil c l)
  rw [pieces_flatMap] at this
  exact List.append_cancel_right this

theorem flatMap_terminated_length (c : Byte) (E : List tStringRange) :
    (E.flatMap (fun e => e ++ [c])).length = (E.map (fun e => e.length + 1)).sum := by
  induction E with
  | nil => rfl
  | cons e rest ih =>
      rw [List.flatMap_cons, List.length_append, ih]
      simp

theorem flatMap_replaced_separator (c : Byte) (E : List tStringRange) (h : ∀ e ∈ E, c ∉ e) :
    (E.flatMap (fun e => e ++ [c])).map (fun b => if b = c then 47 else b) =
      E.flatMap (fun e => e ++ [(47 : Byte)]) := by
  induction E with
  | nil => rfl
  | cons e rest ih =>
      have he : e.map (fun b => if b = c then (47 : Byte) else b) = e := by
        conv_rhs => rw [← List.map_id e]
        apply List.map_congr_left
        intro b hb
        have : b ≠ c := fun eq => h e (List.mem_cons_self _ _) (eq ▸ hb)
        simp [this]
      rw [List.flatMap_cons, List.map_append, List.map_append, he,
        ih (fun x hx => h x (List.mem_cons_of_mem _ hx)), List.flatMap_cons]
      simp

/-- The stored part of a string that is not the separator alone: the leading separator, if
there is one, and the remainder. -/
theorem take_endIndex (s : List Byte) (c : Byte) (hs : s ≠ []) (hsep : s ≠ [c]) :
    s.take (endIndex s c) = (if s.head? = some c then [c] else []) ++ remainder s c := by
  have hpos := endIndex_pos s c hs hsep
  have hrem : remainder s c =
      (s.take (endIndex s c)).drop (if s.head? = some c then 1 else 0) := by
    unfold remainder endIndex
    by_cases hl : s.getLast? = some c
    · simp only [if_pos hl, List.dropLast_eq_take]
    · simp only [if_neg hl, Nat.sub_zero, List.take_length]
  rw [hrem]
  obtain ⟨k, hk⟩ : ∃ k, endIndex s c = k + 1 := ⟨endIndex s c - 1, by omega⟩
  rw [hk]
  cases s with
  | nil => exact absurd rfl hs
  | cons first rest =>
      by_cases hf : first = c
      · subst hf
        simp
      · have hh : ¬ ((first :: rest).head? = some c) := by simpa using hf
        simp [hf]

/-- A string whose stored part is the elements of `E` joined by the separator is stored as
`E`. -/
theorem Set_string_joined (s : List Byte) (c : Byte) (a : Bool) (E : List tStringRange)
    (R : List Byte) (hs : s ≠ []) (hsep : s ≠ [c]) (hlen : s.length + 1 < 4294967296)
    (hE : E ≠ []) (hc : ∀ e ∈ E, c ∉ e) (ha : s.head? = some c ↔ a = true)
    (hT : s.take (endIndex s c) = (if a then [c] else []) ++ R)
    (hR : E.flatMap (fun e => e ++ [c]) = R ++ [c]) :
    tPath.Set_string s c = tPath.Set_elements a E := by
  have hpos := endIndex_pos s c hs hsep
  have hle := endIndex_le s c
  generalize hYdef : s.take (endIndex s c) = Y at hT
  have hYl : Y.length = endIndex s c := by
    rw [← hYdef, List.length_take]
    omega
  have hps : packedSize a E = (if a then 1 else 0) + (E.map (fun e => e.length + 1)).sum := rfl
  have hpl : ((if a then [c] else []) : List Byte).length = (if a then 1 else 0) := by
    cases a <;> rfl
  have hsum : (if a then 1 else 0) + (E.map (fun e => e.length + 1)).sum = Y.length + 1 := by
    have h1 := congrArg List.length hT
    have h2 := congrArg List.length hR
    rw [List.length_append, hpl] at h1
    rw [flatMap_terminated_length, List.length_append, List.length_singleton] at h2
    omega
  have hbody : Y ++ [c] = (if a then [c] else []) ++ E.flatMap (fun e => e ++ [c]) := by
    rw [hT, hR, List.append_assoc]
  have hstart : (if s.head? = some c then 1 else 0) = (if a = true then 1 else 0) := by
    by_cases hat : a = true
    · rw [if_pos hat, if_pos (ha.mpr hat)]
    · rw [if_neg hat, if_neg (fun e => hat (ha.mp e))]
  obtain ⟨first, Y1, hY1, hfirst⟩ : ∃ first Y1, Y = first :: Y1 ∧ s.head? = some first := by
    obtain ⟨k, hk⟩ : ∃ k, endIndex s c = k + 1 := ⟨endIndex s c - 1, by omega⟩
    cases s with
    | nil => exact absurd rfl hs
    | cons first rest =>
        refine ⟨first, rest.take k, ?_, rfl⟩
        rw [← hYdef, hk, List.take_succ_cons]
  have hP := positions_flatMap c E hc (if a then 1 else 0) (by omega)
  have hfilter : (positions c 0 (Y ++ [c])).filter (fun i => decide (1 ≤ i)) =
      positions c (if a then 1 else 0) (E.flatMap (fun e => e ++ [c])) := by
    cases a with
    | true =>
        rw [hbody]
        simp only [if_true, List.cons_append, List.nil_append, positions, Nat.zero_add]
        rw [List.filter_cons, if_neg (by simp)]
        apply List.filter_eq_self.mpr
        intro i hi
        have := positions_ge c _ 1 i hi
        simpa using this
    | false =>
        have hne : first ≠ c := by
          intro e
          have := ha.mp (by rw [hfirst, e])
          exact absurd this (by decide)
        have hb2 := hbody
        simp only [Bool.false_eq_true, if_false, List.nil_append] at hb2 ⊢
        rw [← hb2, hY1]
        simp only [List.cons_append, positions, if_neg hne, Nat.zero_add]
        apply List.filter_eq_self.mpr
        intro i hi
        have := positions_ge c _ 1 i hi
        simpa using this
  have hsplit : (positions c 0 Y).filter (fun i => decide (1 ≤ i)) ++ [Y.length] =
      positions c (if a then 1 else 0) (E.flatMap (fun e => e ++ [c])) := by
    rw [← hfilter, positions_append, List.filter_append]
    simp only [positions, if_true, Nat.zero_add]
    rw [List.filter_cons, if_pos (by simpa using (by omega : 1 ≤ Y.length)), List.filter_nil]
  have hfound : separatorEntries s c (endIndex s c) =
      ((positions c 0 Y).filter (fun i => decide (1 ≤ i))).map (fun i => i + 1) := by
    rw [separatorEntries_positions _ _ _ hle, hYdef]
    apply List.map_congr_left
    intro i hi
    have := positions_lt c Y 0 i (List.mem_filter.mp hi).1
    exact toUInt_of_lt (by omega)
  have htable : (if a = true then 1 else 0) :: separatorEntries s c (endIndex s c) ++
      [endIndex s c + 1] = tableEntries (if a = true then 1 else 0) E := by
    rw [tableEntries_cons_tail E, ← hP, ← hsplit, hfound, List.map_append, hYl]
    rfl
  have hcount : 1 + (separatorEntries s c (endIndex s c)).length = E.length := by
    have := congrArg List.length htable
    rw [tableEntries_length] at this
    simp only [List.length_cons, List.length_append, List.length_singleton,
      List.length_nil] at this
    omega
  have hchars : (Y.map (fun b => if b = c then (47 : Byte) else b) ++ [0]) =
      ((if a = true then [(47 : Byte)] else []) ++ E.flatMap (fun e => e ++ [(47 : Byte)])).set
        ((if a = true then 1 else 0) + (E.map (fun e => e.length + 1)).sum - 1) 0 := by
    have hW : ((if a = true then [(47 : Byte)] else []) ++
        E.flatMap (fun e => e ++ [(47 : Byte)])) =
        Y.map (fun b => if b = c then (47 : Byte) else b) ++ [47] := by
      have := congrArg (List.map (fun b => if b = c then (47 : Byte) else b)) hbody
      rw [List.map_append, List.map_append, flatMap_replaced_separator c E hc] at this
      have h47 : List.map (fun b => if b = c then (47 : Byte) else b) [c] = [47] := by simp
      rw [h47] at this
      rw [this]
      cases a <;> simp
    have hWl : ((if a = true then [(47 : Byte)] else []) ++
        E.flatMap (fun e => e ++ [(47 : Byte)])).length =
        (if a = true then 1 else 0) + (E.map (fun e => e.length + 1)).sum := by
      rw [List.length_append, flatMap_sep_length]
      cases a <;> rfl
    rw [← hWl, set_last _ _ (by rw [hW]; simp), hW]
    simp
  rw [Set_string_eq s c hs hlen, Set_elements_eq a E hE (by rw [hps]; omega), hYdef, hstart,
    htable, hcount, hchars]

/-- C17 (amended): for every non-empty string `s` shorter than `2^32 - 1` and every
separator `c`, where `s` is not `c` alone, the elements of `tPath(s, c)` - by `operator[]`
and by iteration - are exactly the pieces obtained by removing one leading `c` (if `s`
starts with `c`) and one trailing `c` (if `s` ends with `c`) from `s` and splitting the
remainder at every occurrence of `c`, empty pieces included; `Size()` is one plus the
number of separators in the remainder, and no element is longer than `s`. -/
theorem Set_string_elements (s : List Byte) (c : Byte) (hs : s ≠ []) (hsep : s ≠ [c])
    (hlen : s.length + 1 < 4294967296) :
    ∃ p, tPath.Set_string s c = some p ∧
      p.Size = 1 + (remainder s c).count c ∧
      p.elements = some (pieces c (remainder s c)) ∧
      (∀ i, i < p.Size → p.operatorIndex i = (pieces c (remainder s c))[i]?) ∧
      (∀ e ∈ pieces c (remainder s c), e.length ≤ s.length) := by
  have hT := take_endIndex s c hs hsep
  have hE := pieces_ne_nil c (remainder s c)
  have hjoin := Set_string_joined s c (decide (s.head? = some c)) (pieces c (remainder s c))
    (remainder s c) hs hsep hlen hE (pieces_not_mem c _) (by simp)
    (by rw [hT]; simp) (pieces_flatMap c _)
  have hb : packedSize (decide (s.head? = some c)) (pieces c (remainder s c)) <
      4294967296 := by
    have h1 := flatMap_terminated_length c (pieces c (remainder s c))
    rw [pieces_flatMap, List.length_append, List.length_singleton] at h1
    have h2 := congrArg List.length hT
    have h3 := endIndex_le s c
    rw [List.length_take, List.length_append] at h2
    unfold packedSize
    rw [← h1]
    by_cases hh : s.head? = some c
    · simp only [hh, if_true, List.length_singleton, decide_True] at h2 ⊢
      omega
    · simp only [hh, if_false, List.length_nil, decide_False] at h2 ⊢
      simp only [Bool.false_eq_true, if_false]
      omega
  have hrl : (remainder s c).length ≤ s.length := by
    have h2 := congrArg List.length hT
    have h3 := endIndex_le s c
    rw [List.length_take, List.length_append] at h2
    omega
  rw [Set_elements_eq _ _ hE hb] at hjoin
  have hidx := Set_elements_operatorIndex (decide (s.head? = some c))
    (pieces c (remainder s c)) hb
  refine ⟨_, hjoin, ?_, ?_, ?_, ?_⟩
  · exact pieces_length c _
  · have := visit_of_operatorIndex _ (pieces c (remainder s c)) rfl hidx
      (pieces c (remainder s c)).length 0 (by omega)
    rw [List.drop_zero] at this
    exact this
  · intro i hi
    have hi2 : i < (pieces c (remainder s c)).length := hi
    rw [hidx i hi2, List.getElem?_eq_getElem hi2]
  · intro e he
    have := pieces_length_le c _ e he
    omega

/-- C17, witness: `/usr//local/` split at `/` gives the elements `usr`, the empty element
and `local`. -/
theorem Set_string_elements_witness :
    (bytes "/usr//local/" ≠ [] ∧ bytes "/usr//local/" ≠ [47] ∧
      (bytes "/usr//local/").length + 1 < 4294967296 ∧
      pieces 47 (remainder (bytes "/usr//local/") 47) = [bytes "usr", [], bytes "local"]) ∧
    ∃ p, tPath.Set_string (bytes "/usr//local/") 47 = some p ∧
      p.Size = 1 + (remainder (bytes "/usr//local/") 47).count 47 ∧
      p.elements = some (pieces 47 (remainder (bytes "/usr//local/") 47)) ∧
      (∀ i, i < p.Size →
        p.operatorIndex i = (pieces 47 (remainder (bytes "/usr//local/") 47))[i]?) ∧
      (∀ e ∈ pieces 47 (remainder (bytes "/usr//local/") 47),
        e.length ≤ (bytes "/usr//local/").length) :=
  ⟨by decide, Set_string_elements (bytes "/usr//local/") 47 (by decide) (by decide) (by decide)⟩

/-- The table of a string of `n` characters `a`, where `n + 1` is 1 modulo `2^32`: the
end offset `n + 1` is stored as the `uint` 1 and the one element has the length 0. -/
theorem Set_string_wrapped_length (n : Nat) (hn : 1 ≤ n) (hw : toUInt (n + 1) = 1) :
    (tPath.Set_string (List.replicate n 97) 47).map (fun p => p.Size) = some 1 ∧
      (tPath.Set_string (List.replicate n 97) 47).bind (fun p => p.operatorIndex 0) =
        some [] ∧
      pieces 47 (remainder (List.replicate n 97) 47) = [List.replicate n 97] := by
  obtain ⟨m, rfl⟩ : ∃ m, n = m + 1 := ⟨n - 1, by omega⟩
  have hnm : (47 : Byte) ∉ List.replicate (m + 1) (97 : Byte) := by
    intro hmem
    exact absurd (List.eq_of_mem_replicate hmem) (by decide)
  have hlast : ¬ ((List.replicate (m + 1) (97 : Byte)).getLast? = some 47) := by
    intro h
    exact hnm (List.mem_of_getLast?_eq_some h)
  have hhead : ¬ ((List.replicate (m + 1) (97 : Byte)).head? = some 47) := by
    simp [List.replicate_succ]
  have hend : endIndex (List.replicate (m + 1) 97) 47 = m + 1 := by
    unfold endIndex
    rw [if_neg hlast, List.length_replicate]
    rfl
  have hpos : separatorEntries (List.replicate (m + 1) 97) 47 (m + 1) = [] := by
    rw [separatorEntries_positions _ _ _ (by simp), List.take_of_length_le (by simp),
      positions_of_not_mem 47 _ hnm]
    rfl
  have hrem : remainder (List.replicate (m + 1) 97) 47 = List.replicate (m + 1) 97 := by
    unfold remainder
    rw [if_neg hlast, if_neg hhead]
    rfl
  have hset : tPath.Set_string (List.replicate (m + 1) 97) 47 =
      some ⟨1, [0, 1].flatMap uintBytes ++ (List.replicate (m + 1) 97 ++ [0])⟩ := by
    rw [Set_string_unfold _ _ (by simp), hend, hpos, if_neg (by simp), if_neg hhead, hw,
      List.take_of_length_le (by simp)]
    refine congrArg some ?_
    refine congrArg (tPath.mk 1) ?_
    generalize htb : ([0, 1].flatMap uintBytes) = tblB
    have hl : tblB.length = 8 := by rw [← htb]; rfl
    have hcons : (((0 :: ([] : List Nat)) ++ [1] : List Nat)) = [0, 1] := rfl
    simp only [hcons, htb, List.length_nil, List.append_assoc]
    rw [List.set_append_right _ _ (by rw [hl]; omega), hl,
      List.set_append_right _ _ (by rw [List.length_replicate]; omega),
      List.length_replicate,
      show (1 + 0 + 1) * 4 + (m + 1) + 1 - 1 - 8 - (m + 1) = 0 by omega]
    rfl
  refine ⟨by rw [hset]; rfl, ?_, by rw [hrem, pieces_of_not_mem 47 _ hnm]⟩
  rw [hset, Option.some_bind,
    operatorIndex_table 1 [0, 1] _ 0 0 1 rfl rfl rfl (by decide) (by decide)]
  rfl

/-- C17, counterexample: `s` is `2^32` characters `a`, the separator is `/`. The string
holds no separator, so its one piece is `s` itself; the path has one element, whose end
offset `2^32 + 1` is stored as the `uint` 1: element 0 is empty. -/
theorem Set_string_huge_string :
    (tPath.Set_string (List.replicate 4294967296 97) 47).map (fun p => p.Size) = some 1 ∧
      (tPath.Set_string (List.replicate 4294967296 97) 47).bind
        (fun p => p.operatorIndex 0) = some [] ∧
      pieces 47 (remainder (List.replicate 4294967296 97) 47) =
        [List.replicate 4294967296 97] :=
  Set_string_wrapped_length 4294967296 (by decide) (by decide)

/-- The separator alone: `end_index` is 0, below `start_index`; the path has one element,
whose `uint` length `1 - 1 - 1` lies outside the stored text. -/
theorem Set_string_separator_alone :
    tPath.Set_string (bytes "/") 47 = some ⟨1, [1, 0, 0, 0, 1, 0, 0, 0, 0]⟩ ∧
      pieces 47 (remainder (bytes "/") 47) = [[]] ∧
      tPath.operatorIndex ⟨1, [1, 0, 0, 0, 1, 0, 0, 0, 0]⟩ 0 = none := by
  decide

/-- The loop of `CountCommonElements` on two paths whose elements up to `max` can be
read: it returns the smallest index from `i` on at which the elements differ, or `max`. -/
theorem countLoop_spec (a b : tPath) (max : Nat)
    (ha : ∀ i, i < max → (a.operatorIndex i).isSome)
    (hb : ∀ i, i < max → (b.operatorIndex i).isSome) :
    ∀ k i, i + k = max →
      ∃ n, countLoop a b max k i = some n ∧ i ≤ n ∧ n ≤ max ∧
        (∀ j, i ≤ j → j < n → a.operatorIndex j = b.operatorIndex j) ∧
        (n < max → a.operatorIndex n ≠ b.operatorIndex n) := by
  intro k
  induction k with
  | zero =>
      intro i hi
      refine ⟨max, rfl, by omega, Nat.le_refl _, ?_, fun h => absurd h (Nat.lt_irrefl _)⟩
      intro j h1 h2
      omega
  | succ k ih =>
      intro i hi
      have hlt : i < max := by omega
      obtain ⟨x, hx⟩ := Option.isSome_iff_exists.mp (ha i hlt)
      obtain ⟨y, hy⟩ := Option.isSome_iff_exists.mp (hb i hlt)
      by_cases hxy : x = y
      · obtain ⟨n, hn, h1, h2, h3, h4⟩ := ih (i + 1) (by omega)
        refine ⟨n, ?_, by omega, h2, ?_, h4⟩
        · simp only [countLoop, hx, hy]
          rw [if_neg (by simpa using hxy)]
          exact hn
        · intro j hj1 hj2
          by_cases hji : j = i
          · rw [hji, hx, hy, hxy]
          · exact h3 j (by omega) hj2
      · refine ⟨i, ?_, Nat.le_refl _, by omega, ?_, ?_⟩
        · simp only [countLoop, hx, hy]
          rw [if_pos hxy]
        · intro j h1 h2
          omega
        · intro _
          rw [hx, hy]
          intro e
          exact hxy (Option.some.inj e)

/-- Two paths with the same number of elements, each of which lies inside the bytes of its
path: `a.CountCommonElements(b)` returns the smallest index `i` with `a[i] != b[i]`, or
`Size()` when all elements are pairwise equal. -/
theorem CountCommonElements_same_size (a b : tPath) (hsize : a.Size = b.Size)
    (ha : ∀ i, i < a.Size → (a.operatorIndex i).isSome)
    (hb : ∀ i, i < b.Size → (b.operatorIndex i).isSome) :
    ∃ n, a.CountCommonElements b = some n ∧ n ≤ a.Size ∧
      (∀ i, i < n → a.operatorIndex i = b.operatorIndex i) ∧
      (n < a.Size → a.operatorIndex n ≠ b.operatorIndex n) := by
  have hmax : Nat.max b.Size a.Size = a.Size := by
    rw [hsize]
    exact Nat.max_self _
  obtain ⟨n, hn, _, h2, h3, h4⟩ := countLoop_spec a b a.Size ha (by rw [hsize]; exact hb)
    a.Size 0 (by omega)
  refine ⟨n, ?_, h2, fun i hi => h3 i (Nat.zero_le _) hi, h4⟩
  unfold tPath.CountCommonElements
  simp only [hmax]
  exact hn

/-- The paths `Path("/a/b/c")` and `Path("/a/b/d")`: their elements lie inside their
bytes, and the count is 2. -/
theorem CountCommonElements_same_size_example :
    (tPath.Set_string (bytes "/a/b/c") 47 =
        some ⟨3, [1, 0, 0, 0, 3, 0, 0, 0, 5, 0, 0, 0, 7, 0, 0, 0, 47, 97, 47, 98, 47, 99, 0]⟩ ∧
      tPath.Set_string (bytes "/a/b/d") 47 =
        some ⟨3, [1, 0, 0, 0, 3, 0, 0, 0, 5, 0, 0, 0, 7, 0, 0, 0, 47, 97, 47, 98, 47, 100, 0]⟩ ∧
      tPath.CountCommonElements
        ⟨3, [1, 0, 0, 0, 3, 0, 0, 0, 5, 0, 0, 0, 7, 0, 0, 0, 47, 97, 47, 98, 47, 99, 0]⟩
        ⟨3, [1, 0, 0, 0, 3, 0, 0, 0, 5, 0, 0, 0, 7, 0, 0, 0, 47, 97, 47, 98, 47, 100, 0]⟩ =
          some 2) ∧
    ∃ n, tPath.CountCommonElements
        ⟨3, [1, 0, 0, 0, 3, 0, 0, 0, 5, 0, 0, 0, 7, 0, 0, 0, 47, 97, 47, 98, 47, 99, 0]⟩
        ⟨3, [1, 0, 0, 0, 3, 0, 0, 0, 5, 0, 0, 0, 7, 0, 0, 0, 47, 97, 47, 98, 47, 100, 0]⟩ =
          some n ∧
      n ≤ tPath.Size
        ⟨3, [1, 0, 0, 0, 3, 0, 0, 0, 5, 0, 0, 0, 7, 0, 0, 0, 47, 97, 47, 98, 47, 99, 0]⟩ ∧
      (∀ i, i < n →
        tPath.operatorIndex
          ⟨3, [1, 0, 0, 0, 3, 0, 0, 0, 5, 0, 0, 0, 7, 0, 0, 0, 47, 97, 47, 98, 47, 99, 0]⟩ i =
        tPath.operatorIndex
          ⟨3, [1, 0, 0, 0, 3, 0, 0, 0, 5, 0, 0, 0, 7, 0, 0, 0, 47, 97, 47, 98, 47, 100, 0]⟩ i) ∧
      (n < tPath.Size
          ⟨3, [1, 0, 0, 0, 3, 0, 0, 0, 5, 0, 0, 0, 7, 0, 0, 0, 47, 97, 47, 98, 47, 99, 0]⟩ →
        tPath.operatorIndex
          ⟨3, [1, 0, 0, 0, 3, 0, 0, 0, 5, 0, 0, 0, 7, 0, 0, 0, 47, 97, 47, 98, 47, 99, 0]⟩ n ≠
        tPath.operatorIndex
          ⟨3, [1, 0, 0, 0, 3, 0, 0, 0, 5, 0, 0, 0, 7, 0, 0, 0, 47, 97, 47, 98, 47, 100, 0]⟩ n) :=
  ⟨by decide,
    CountCommonElements_same_size
      ⟨3, [1, 0, 0, 0, 3, 0, 0, 0, 5, 0, 0, 0, 7, 0, 0, 0, 47, 97, 47, 98, 47, 99, 0]⟩
      ⟨3, [1, 0, 0, 0, 3, 0, 0, 0, 5, 0, 0, 0, 7, 0, 0, 0, 47, 97, 47, 98, 47, 100, 0]⟩
      (by decide) (by decide) (by decide)⟩

/-- C21: `Path("/")` against itself, two paths with the same number of elements. `Set`
leaves one element with the table entries 1 and 1: a range at offset 1 of the `uint`
length `1 - 1 - 1`, 4294967295, where the character region has one byte.
`CountCommonElements` compares this range with itself (the lengths are equal, so `memcmp`
reads the bytes) and reads behind `memory`: the call has no defined result, where the
claim gives `Size()`, 1. The same path is what `Parse` returns for the URI `/`. For
`Path("/a/b/c")` and `Path("/a/b/d")` the count is 2, as the claim says. -/
theorem CountCommonElements_root :
    tPath.Set_string (bytes "/") 47 = some ⟨1, [1, 0, 0, 0, 1, 0, 0, 0, 0]⟩ ∧
    tPath.Size ⟨1, [1, 0, 0, 0, 1, 0, 0, 0, 0]⟩ = 1 ∧
    readUInt [1, 0, 0, 0, 1, 0, 0, 0, 0] 0 = some 1 ∧
    readUInt [1, 0, 0, 0, 1, 0, 0, 0, 0] 1 = some 1 ∧
    toUInt (1 + (4294967296 - 1) + 4294967295) = 4294967295 ∧
    tPath.GetPathStringBegin ⟨1, [1, 0, 0, 0, 1, 0, 0, 0, 0]⟩ = [0] ∧
    tPath.operatorIndex ⟨1, [1, 0, 0, 0, 1, 0, 0, 0, 0]⟩ 0 = none ∧
    tPath.CountCommonElements ⟨1, [1, 0, 0, 0, 1, 0, 0, 0, 0]⟩
      ⟨1, [1, 0, 0, 0, 1, 0, 0, 0, 0]⟩ = none ∧
    tURI.Parse ⟨bytes "/"⟩ ⟨[], [], tPath.empty, [], []⟩ =
      (tOutcome.returned, ⟨[], [], ⟨1, [1, 0, 0, 0, 1, 0, 0, 0, 0]⟩, [], []⟩) ∧
    tPath.CountCommonElements
      ⟨3, [1, 0, 0, 0, 3, 0, 0, 0, 5, 0, 0, 0, 7, 0, 0, 0, 47, 97, 47, 98, 47, 99, 0]⟩
      ⟨3, [1, 0, 0, 0, 3, 0, 0, 0, 5, 0, 0, 0, 7, 0, 0, 0, 47, 97, 47, 98, 47, 100, 0]⟩ =
        some 2 := by
  decide

/-- C22: paths of different sizes. The loop runs to the larger of the two sizes and
indexes the shorter path behind its last element. For `Path("/a")` and `Path("/a/b")`
entry 2 of the table of `Path("/a")` is read, whose last byte lies behind `memory`. For
the relative path of the one element `05 00 00` and the relative path of that element
and an empty one, entry 2 is read from the characters `05 00 00 00`, element 1 of the
shorter path reads as empty, and the count is 2, above the smaller size 1. -/
theorem CountCommonElements_different_sizes :
    tPath.Set_string (bytes "/a") 47 = some ⟨1, [1, 0, 0, 0, 3, 0, 0, 0, 47, 97, 0]⟩ ∧
    tPath.Set_string (bytes "/a/b") 47 =
      some ⟨2, [1, 0, 0, 0, 3, 0, 0, 0, 5, 0, 0, 0, 47, 97, 47, 98, 0]⟩ ∧
    readUInt [1, 0, 0, 0, 3, 0, 0, 0, 47, 97, 0] 2 = none ∧
    tPath.CountCommonElements ⟨1, [1, 0, 0, 0, 3, 0, 0, 0, 47, 97, 0]⟩
      ⟨2, [1, 0, 0, 0, 3, 0, 0, 0, 5, 0, 0, 0, 47, 97, 47, 98, 0]⟩ = none ∧
    tPath.Set_elements false [[5, 0, 0]] = some ⟨1, [0, 0, 0, 0, 4, 0, 0, 0, 5, 0, 0, 0]⟩ ∧
    tPath.Set_elements false [[5, 0, 0], []] =
      some ⟨2, [0, 0, 0, 0, 4, 0, 0, 0, 5, 0, 0, 0, 5, 0, 0, 47, 0]⟩ ∧
    tPath.elements ⟨1, [0, 0, 0, 0, 4, 0, 0, 0, 5, 0, 0, 0]⟩ = some [[5, 0, 0]] ∧
    tPath.elements ⟨2, [0, 0, 0, 0, 4, 0, 0, 0, 5, 0, 0, 0, 5, 0, 0, 47, 0]⟩ =
      some [[5, 0, 0], []] ∧
    tPath.operatorIndex ⟨1, [0, 0, 0, 0, 4, 0, 0, 0, 5, 0, 0, 0]⟩ 1 = some [] ∧
    tPath.CountCommonElements ⟨1, [0, 0, 0, 0, 4, 0, 0, 0, 5, 0, 0, 0]⟩
      ⟨2, [0, 0, 0, 0, 4, 0, 0, 0, 5, 0, 0, 0, 5, 0, 0, 47, 0]⟩ = some 2 := by
  decide

/-- The invariant of the loop of `Normalize`: with the write index `w` not above the read
index `i`, the entries in front of `w` are the stack, the entries from `i` on are still
unread, and the entries behind the part to be read stay as they are. -/
theorem NormalizeLoop_spec : ∀ (R T B : List tStringRange) (i w : Nat), w ≤ i →
    i ≤ B.length → B.drop i = R ++ T →
    (NormalizeLoop R.length i B w).1.length = B.length ∧
      (NormalizeLoop R.length i B w).1.take (NormalizeLoop R.length i B w).2 =
        R.foldl stackStep (B.take w) ∧
      (NormalizeLoop R.length i B w).2 = (R.foldl stackStep (B.take w)).length ∧
      (NormalizeLoop R.length i B w).1.drop (i + R.length) = T := by
  intro R
  induction R with
  | nil =>
      intro T B i w hw hi h
      refine ⟨rfl, rfl, ?_, ?_⟩
      · simp only [NormalizeLoop, List.foldl_nil, List.length_take]
        omega
      · simpa using h
  | cons e R ih =>
      intro T B i w hw hi h
      have hlt : i < B.length := by
        rcases Nat.lt_or_ge i B.length with h1 | h1
        · exact h1
        · rw [List.drop_of_length_le h1] at h
          exact absurd h (by simp)
      rw [List.drop_eq_getElem_cons hlt] at h
      have he : B[i] = e := (List.cons.inj h).1
      have hrest : B.drop (i + 1) = R ++ T := (List.cons.inj h).2
      have hget : B.getD i [] = e := by
        rw [List.getD_eq_getElem _ _ hlt, he]
      have hidx : i + (e :: R).length = i + 1 + R.length := by
        simp only [List.length_cons]
        omega
      rw [hidx]
      by_cases h1 : e = [46]
      · have hstep : stackStep (B.take w) e = B.take w := by simp [stackStep, h1]
        have hloop : NormalizeLoop (e :: R).length i B w = NormalizeLoop R.length (i + 1) B w := by
          simp only [List.length_cons, NormalizeLoop, hget, if_pos h1]
        rw [hloop, List.foldl_cons, hstep]
        exact ih T B (i + 1) w (by omega) (by omega) hrest
      · by_cases h2 : e = [46, 46]
        · have hloop : NormalizeLoop (e :: R).length i B w =
              NormalizeLoop R.length (i + 1) B (if w > 0 then w - 1 else w) := by
            simp only [List.length_cons, NormalizeLoop, hget, if_neg h1, if_pos h2]
          have hstep : stackStep (B.take w) e = B.take (if w > 0 then w - 1 else w) := by
            simp only [stackStep, if_neg h1, if_pos h2]
            by_cases hw0 : w > 0
            · have hne : B.take w ≠ [] := by
                intro hnil
                have := congrArg List.length hnil
                rw [List.length_take] at this
                simp only [List.length_nil] at this
                omega
              rw [if_pos hne, if_pos hw0, List.dropLast_take (by omega)]
            · have hw1 : w = 0 := by omega
              subst hw1
              simp
          rw [hloop, List.foldl_cons, hstep]
          exact ih T B (i + 1) (if w > 0 then w - 1 else w) (by split <;> omega) (by omega)
            hrest
        · have hloop : NormalizeLoop (e :: R).length i B w =
              NormalizeLoop R.length (i + 1) (B.set w e) (w + 1) := by
            simp only [List.length_cons, NormalizeLoop, hget, if_neg h1, if_neg h2]
          have hstep : stackStep (B.take w) e = (B.set w e).take (w + 1) := by
            simp only [stackStep, if_neg h1, if_neg h2]
            have hwB : w < B.length := by omega
            rw [List.set_eq_take_append_cons_drop, if_pos hwB, List.take_append_eq_append_take,
              List.take_take, List.length_take, Nat.min_eq_left (by omega : w ≤ B.length)]
            simp
          have hl := List.length_set B w e
          have := ih T (B.set w e) (i + 1) (w + 1) (by omega) (by rw [hl]; omega)
            (by rw [List.drop_set_of_lt _ _ (by omega)]; exact hrest)
          rw [hloop, List.foldl_cons, hstep]
          rw [hl] at this
          exact this

theorem stackStep_length_le (S : List tStringRange) (e : tStringRange) :
    (stackStep S e).length ≤ S.length + 1 := by
  unfold stackStep
  split
  · omega
  · split
    · split
      · rw [List.length_dropLast]
        omega
      · omega
    · simp

theorem foldl_stackStep_length_le (R : List tStringRange) :
    ∀ S : List tStringRange, (R.foldl stackStep S).length ≤ S.length + R.length := by
  induction R with
  | nil => intro S; simp
  | cons e R ih =>
      intro S
      have h1 := ih (stackStep S e)
      have h2 := stackStep_length_le S e
      simp only [List.foldl_cons, List.length_cons]
      omega

theorem stackStep_no_dots (S : List tStringRange) (e : tStringRange)
    (h : ([46] : tStringRange) ∉ S ∧ ([46, 46] : tStringRange) ∉ S) :
    ([46] : tStringRange) ∉ stackStep S e ∧ ([46, 46] : tStringRange) ∉ stackStep S e := by
  unfold stackStep
  by_cases h1 : e = [46]
  · rw [if_pos h1]
    exact h
  · rw [if_neg h1]
    by_cases h2 : e = [46, 46]
    · rw [if_pos h2]
      split
      · exact ⟨fun hm => h.1 (List.mem_of_mem_dropLast hm),
          fun hm => h.2 (List.mem_of_mem_dropLast hm)⟩
      · exact h
    · rw [if_neg h2]
      constructor
      · intro hm
        rcases List.mem_append.mp hm with hm | hm
        · exact h.1 hm
        · exact h1 (List.mem_singleton.mp hm).symm
      · intro hm
        rcases List.mem_append.mp hm with hm | hm
        · exact h.2 hm
        · exact h2 (List.mem_singleton.mp hm).symm

theorem foldl_stackStep_no_dots (R : List tStringRange) :
    ∀ S : List tStringRange, ([46] : tStringRange) ∉ S ∧ ([46, 46] : tStringRange) ∉ S →
      ([46] : tStringRange) ∉ R.foldl stackStep S ∧
        ([46, 46] : tStringRange) ∉ R.foldl stackStep S := by
  induction R with
  | nil => intro S h; exact h
  | cons e R ih =>
      intro S h
      rw [List.foldl_cons]
      exact ih _ (stackStep_no_dots S e h)

/-- Folding a sequence that holds neither `.` nor `..` pushes every element. -/
theorem foldl_stackStep_of_no_dots (Q : List tStringRange) :
    ∀ S : List tStringRange, ([46] : tStringRange) ∉ Q → ([46, 46] : tStringRange) ∉ Q →
      Q.foldl stackStep S = S ++ Q := by
  induction Q with
  | nil => intro S _ _; simp
  | cons e Q ih =>
      intro S h1 h2
      have he1 : e ≠ [46] := fun e1 => h1 (by rw [e1]; exact List.mem_cons_self _ _)
      have he2 : e ≠ [46, 46] := fun e2 => h2 (by rw [e2]; exact List.mem_cons_self _ _)
      rw [List.foldl_cons, ih _ (fun hm => h1 (List.mem_cons_of_mem _ hm))
        (fun hm => h2 (List.mem_cons_of_mem _ hm))]
      simp [stackStep, he1, he2]

/-- `Normalize` on a whole buffer: the count is the height of the stack and the entries in
front of it are the stack. -/
theorem Normalize_stack (P : List tStringRange) :
    (Normalize P P.length).1.length = P.length ∧
      (Normalize P P.length).1.take (Normalize P P.length).2 = stackNormalize P ∧
      (Normalize P P.length).2 = (stackNormalize P).length := by
  have h := NormalizeLoop_spec P [] P 0 0 (Nat.le_refl _) (Nat.zero_le _) (by simp)
  exact ⟨h.1, h.2.1, h.2.2.1⟩

/-- `Normalize` on the first `n` entries of a buffer that hold neither `.` nor `..`
returns `n` and leaves the buffer as it is. -/
theorem Normalize_of_no_dots (B : List tStringRange) (n : Nat) (hn : n ≤ B.length)
    (h1 : ([46] : tStringRange) ∉ B.take n) (h2 : ([46, 46] : tStringRange) ∉ B.take n) :
    Normalize B n = (B, n) := by
  have hl : (B.take n).length = n := by
    rw [List.length_take]
    omega
  have h := NormalizeLoop_spec (B.take n) (B.drop n) B 0 0 (Nat.le_refl _) (Nat.zero_le _)
    (by simp)
  rw [hl] at h
  obtain ⟨_, h3, h4, h5⟩ := h
  rw [List.take_zero, foldl_stackStep_of_no_dots _ _ h1 h2, List.nil_append] at h3 h4
  rw [hl] at h4
  rw [h4] at h3
  rw [Nat.zero_add] at h5
  have hB : (Normalize B n).1 = B := by
    have := List.take_append_drop n (NormalizeLoop n 0 B 0).1
    rw [h3, h5, List.take_append_drop] at this
    exact this.symm
  exact Prod.ext hB h4

/-- C24: the in-place pass of `Normalize` computes the stack definition: for every
element sequence `P` the returned count `n` and the first `n` buffer entries are the stack
obtained by folding `P` from the empty stack. So `n` is at most the length of `P`, the
result holds neither `.` nor `..`, and its first element is not `..`. -/
theorem Normalize_refines_stack (P : List tStringRange) :
    (Normalize P P.length).2 = (stackNormalize P).length ∧
      (Normalize P P.length).1.take (Normalize P P.length).2 = stackNormalize P ∧
      (Normalize P P.length).2 ≤ P.length ∧
      ([46] : tStringRange) ∉ (Normalize P P.length).1.take (Normalize P P.length).2 ∧
      ([46, 46] : tStringRange) ∉ (Normalize P P.length).1.take (Normalize P P.length).2 ∧
      ((Normalize P P.length).1.take (Normalize P P.length).2).head? ≠ some [46, 46] := by
  obtain ⟨_, h2, h3⟩ := Normalize_stack P
  have hnd := foldl_stackStep_no_dots P [] ⟨by simp, by simp⟩
  have hle := foldl_stackStep_length_le P []
  refine ⟨h3, h2, ?_, ?_, ?_, ?_⟩
  · rw [h3]
    simpa using hle
  · rw [h2]
    exact hnd.1
  · rw [h2]
    exact hnd.2
  · rw [h2]
    intro hh
    exact hnd.2 (List.mem_of_mem_head? hh)

/-- C23: `Normalize` is idempotent: for every element sequence `P`, a second run on the
first `Normalize(P)` elements left by the first run returns the same count and leaves
the same elements, on a copy of these elements and in place in the buffer of the first
run. -/
theorem Normalize_idempotent (P : List tStringRange) :
    Normalize ((Normalize P P.length).1.take (Normalize P P.length).2)
        (Normalize P P.length).2 =
      ((Normalize P P.length).1.take (Normalize P P.length).2, (Normalize P P.length).2) ∧
    Normalize (Normalize P P.length).1 (Normalize P P.length).2 = Normalize P P.length := by
  obtain ⟨h1, h2, h3⟩ := Normalize_stack P
  have hnd := foldl_stackStep_no_dots P [] ⟨by simp, by simp⟩
  have hle := foldl_stackStep_length_le P []
  have hn : (Normalize P P.length).2 ≤ (Normalize P P.length).1.length := by
    rw [h1, h3]
    simpa using hle
  constructor
  · apply Normalize_of_no_dots
    · rw [List.length_take]
      omega
    · rw [List.take_take, Nat.min_self, h2]
      exact hnd.1
    · rw [List.take_take, Nat.min_self, h2]
      exact hnd.2
  · apply Normalize_of_no_dots _ _ hn
    · rw [h2]
      exact hnd.1
    · rw [h2]
      exact hnd.2

/-- The sequence `a`, `.`, `b`, `..`, `..`, `..`, `c`: `Normalize` returns 1 and leaves
`c` in front. -/
theorem Normalize_example :
    Normalize [bytes "a", bytes ".", bytes "b", bytes "..", bytes "..", bytes "..", bytes "c"]
        7 =
      ([bytes "c", bytes "b", bytes "b", bytes "..", bytes "..", bytes "..", bytes "c"], 1) ∧
    stackNormalize
        [bytes "a", bytes ".", bytes "b", bytes "..", bytes "..", bytes "..", bytes "c"] =
      [bytes "c"] := by
  decide

theorem intercalate_terminated (c : Byte) (E : List tStringRange) (hE : E ≠ []) :
    List.intercalate [c] E ++ [c] = E.flatMap (fun e => e ++ [c]) := by
  induction E with
  | nil => exact absurd rfl hE
  | cons e rest ih =>
      cases rest with
      | nil => simp [List.intercalate]
      | cons e2 rest2 =>
          have := ih (by simp)
          simp only [List.intercalate, List.intersperse, List.flatten_cons,
            List.flatMap_cons, List.append_assoc] at this ⊢
          rw [← this]

theorem canonicalString_length (a : Bool) (E : List tStringRange) (hE : E ≠ []) :
    (canonicalString a E).length + 1 = packedSize a E := by
  have h := congrArg List.length (intercalate_terminated 47 E hE)
  rw [flatMap_terminated_length, List.length_append, List.length_singleton] at h
  unfold canonicalString packedSize
  rw [List.length_append]
  cases a
  · simp only [Bool.false_eq_true, if_false, List.length_nil]
    omega
  · simp only [if_true, List.length_singleton]
    omega

theorem canonicalString_single (e : tStringRange) : canonicalString false [e] = e := by
  simp [canonicalString, List.intercalate]

/-- The path built from an element sequence below the `uint` range: its element count,
the first entry of its table and its elements. -/
theorem Set_elements_shape (a : Bool) (E : List tStringRange)
    (h : packedSize a E < 4294967296) :
    ∃ p, tPath.Set_elements a E = some p ∧ p.element_count = E.length ∧
      readUInt p.memory 0 = some (if a then 1 else 0) ∧
      ∀ i (hi : i < E.length), p.operatorIndex i = some E[i] := by
  by_cases hE : E = []
  · subst hE
    cases a
    · exact ⟨⟨0, [0, 0, 0, 0]⟩, by decide, rfl, by decide,
        fun i hi => absurd hi (Nat.not_lt_zero _)⟩
    · exact ⟨⟨0, [1, 0, 0, 0, 0]⟩, by decide, rfl, by decide,
        fun i hi => absurd hi (Nat.not_lt_zero _)⟩
  · refine ⟨_, Set_elements_eq a E hE h, rfl, ?_, Set_elements_operatorIndex a E h⟩
    have hps : packedSize a E = (if a then 1 else 0) + (E.map (fun e => e.length + 1)).sum :=
      rfl
    refine readUInt_table _ 0 _ _ ?_ ?_
    · rw [tableEntries_cons_tail]
      exact List.getElem?_cons_zero
    · cases a <;> decide

/-- The buffer of a path built from a non-empty element sequence below the `uint` range:
it ends with a zero byte and holds the table, the canonical path string and the
terminator. -/
theorem Set_elements_buffer (a : Bool) (E : List tStringRange) (hE : E ≠ [])
    (h : packedSize a E < 4294967296) :
    ∃ q, tPath.Set_elements a E = some q ∧ q.memory.getLast? = some 0 ∧
      q.elements = some E ∧
      q.memory.length = (q.Size + 1) * 4 + (canonicalString a E).length + 1 := by
  have hps : packedSize a E = (if a then 1 else 0) + (E.map (fun e => e.length + 1)).sum := rfl
  have hn := length_le_sum E
  have hpos : 0 < E.length := List.length_pos.mpr hE
  have hW : ((if a then [(47 : Byte)] else []) ++ E.flatMap (fun e => e ++ [(47 : Byte)])) ≠
      [] := by
    intro hnil
    have := congrArg List.length hnil
    rw [List.length_append, flatMap_sep_length] at this
    simp only [List.length_nil] at this
    omega
  have hWl : ((if a then [(47 : Byte)] else []) ++
      E.flatMap (fun e => e ++ [(47 : Byte)])).length = packedSize a E := by
    rw [List.length_append, flatMap_sep_length, hps]
    cases a <;> rfl
  refine ⟨_, Set_elements_eq a E hE h, ?_, ?_, ?_⟩
  · simp only []
    rw [← hps, ← hWl, set_last _ _ hW, ← List.append_assoc, List.getLast?_concat]
  · have := visit_of_operatorIndex _ E rfl (Set_elements_operatorIndex a E h) E.length 0
      (by omega)
    rw [List.drop_zero] at this
    exact this
  · have hc := canonicalString_length a E hE
    simp only [tPath.Size, List.length_append, flatMap_uintBytes_length, tableEntries_length,
      List.length_set]
    rw [← List.length_append, hWl]
    omega

/-- The path built from a string is the path built from the pieces of the string. -/
theorem Set_string_pieces (s : List Byte) (c : Byte) (hs : s ≠ []) (hsep : s ≠ [c])
    (hlen : s.length + 1 < 4294967296) :
    tPath.Set_string s c =
        tPath.Set_elements (decide (s.head? = some c)) (pieces c (remainder s c)) ∧
      packedSize (decide (s.head? = some c)) (pieces c (remainder s c)) < 4294967296 := by
  have hT := take_endIndex s c hs hsep
  have hE := pieces_ne_nil c (remainder s c)
  have hjoin := Set_string_joined s c (decide (s.head? = some c)) (pieces c (remainder s c))
    (remainder s c) hs hsep hlen hE (pieces_not_mem c _) (by simp)
    (by rw [hT]; simp) (pieces_flatMap c _)
  refine ⟨hjoin, ?_⟩
  have h1 := flatMap_terminated_length c (pieces c (remainder s c))
  rw [pieces_flatMap, List.length_append, List.length_singleton] at h1
  have h2 := congrArg List.length hT
  have h3 := endIndex_le s c
  rw [List.length_take, List.length_append] at h2
  unfold packedSize
  rw [← h1]
  by_cases hh : s.head? = some c
  · simp only [hh, if_true, List.length_singleton, decide_True] at h2 ⊢
    omega
  · simp only [hh, if_false, List.length_nil, decide_False] at h2 ⊢
    simp only [Bool.false_eq_true, if_false]
    omega

/-- C25 (amended): the path produced by `tPath(s, c)` for a non-empty string `s` of fewer
than `2^32 - 1` characters that is not `c` alone, and the path produced by
`tPath(a, begin, end)` for a non-empty element sequence of packed size below `2^32`, have
a buffer whose last byte is 0 and whose size is the size of the offset table
(`Size() + 1` entries of four bytes) plus the number of characters of the canonical path
string - a leading `/` if `s` begins with `c`, respectively if `a` is true, then the
elements with one `/` between consecutive elements - plus one for the terminator. -/
theorem buffer_invariant (s : List Byte) (c : Byte) (a : Bool) (E : List tStringRange)
    (hs : s ≠ []) (hsep : s ≠ [c]) (hlen : s.length + 1 < 4294967296) (hE : E ≠ [])
    (h : packedSize a E < 4294967296) :
    (∃ p, tPath.Set_string s c = some p ∧ p.memory.getLast? = some 0 ∧
      p.elements = some (pieces c (remainder s c)) ∧
      p.memory.length = (p.Size + 1) * 4 +
        (canonicalString (decide (s.head? = some c)) (pieces c (remainder s c))).length + 1) ∧
    (∃ q, tPath.Set_elements a E = some q ∧ q.memory.getLast? = some 0 ∧
      q.elements = some E ∧
      q.memory.length = (q.Size + 1) * 4 + (canonicalString a E).length + 1) := by
  obtain ⟨h1, h2⟩ := Set_string_pieces s c hs hsep hlen
  refine ⟨?_, Set_elements_buffer a E hE h⟩
  rw [h1]
  exact Set_elements_buffer _ _ (pieces_ne_nil c _) h2

/-- C25, witness: the string `/usr//lib/` with the separator `/` and the relative path of
the elements `usr`, the empty element and `lib`. -/
theorem buffer_invariant_witness :
    (bytes "/usr//lib/" ≠ [] ∧ bytes "/usr//lib/" ≠ [47] ∧
      (bytes "/usr//lib/").length + 1 < 4294967296 ∧
      [bytes "usr", [], bytes "lib"] ≠ [] ∧
      packedSize false [bytes "usr", [], bytes "lib"] < 4294967296 ∧
      canonicalString false [bytes "usr", [], bytes "lib"] = bytes "usr//lib") ∧
    (∃ p, tPath.Set_string (bytes "/usr//lib/") 47 = some p ∧ p.memory.getLast? = some 0 ∧
      p.elements = some (pieces 47 (remainder (bytes "/usr//lib/") 47)) ∧
      p.memory.length = (p.Size + 1) * 4 +
        (canonicalString (decide ((bytes "/usr//lib/").head? = some 47))
          (pieces 47 (remainder (bytes "/usr//lib/") 47))).length + 1) ∧
    (∃ q, tPath.Set_elements false [bytes "usr", [], bytes "lib"] = some q ∧
      q.memory.getLast? = some 0 ∧
      q.elements = some [bytes "usr", [], bytes "lib"] ∧
      q.memory.length = (q.Size + 1) * 4 +
        (canonicalString false [bytes "usr", [], bytes "lib"]).length + 1) :=
  ⟨by decide,
    buffer_invariant (bytes "/usr//lib/") 47 false [bytes "usr", [], bytes "lib"] (by decide)
      (by decide) (by decide) (by decide) (by decide)⟩

/-- C25, counterexample: the relative path built from one element of `2^32` bytes `a`.
Its canonical path string has `2^32` characters; the buffer has 9 bytes, the table of two
entries and the terminator. And the relative path built from the empty element sequence:
its buffer has 4 bytes, the one table entry, where the table, the empty canonical path
string and a terminator make 5. -/
theorem buffer_invariant_huge_element :
    tPath.Set_elements false [List.replicate 4294967296 97] =
      some ⟨1, [0, 0, 0, 0, 1, 0, 0, 0, 0]⟩ ∧
    ([0, 0, 0, 0, 1, 0, 0, 0, 0] : List Byte).length = 9 ∧
    (tPath.Size ⟨1, [0, 0, 0, 0, 1, 0, 0, 0, 0]⟩ + 1) * 4 +
      (canonicalString false [List.replicate 4294967296 97]).length + 1 = 4294967305 ∧
    tPath.Set_elements false [] = some ⟨0, [0, 0, 0, 0]⟩ ∧
    ([0, 0, 0, 0] : List Byte).length = 4 ∧
    (tPath.Size ⟨0, [0, 0, 0, 0]⟩ + 1) * 4 + (canonicalString false []).length + 1 = 5 := by
  refine ⟨Set_elements_huge_element, rfl, ?_, by decide, rfl, by decide⟩
  rw [canonicalString_single, List.length_replicate]
  rfl

/-- C26 (amended): for all flags `a1`, `a2` and element sequences `E1`, `E2` of packed
size below `2^32`, `tPath(a1, E1) == tPath(a2, E2)` if and only if `a1 == a2` and
`E1 == E2`. -/
theorem Set_elements_injective (a1 a2 : Bool) (E1 E2 : List tStringRange)
    (h1 : packedSize a1 E1 < 4294967296) (h2 : packedSize a2 E2 < 4294967296) :
    ∃ p q, tPath.Set_elements a1 E1 = some p ∧ tPath.Set_elements a2 E2 = some q ∧
      (p.operatorEq q = true ↔ a1 = a2 ∧ E1 = E2) := by
  obtain ⟨p, hp, hpc, hpt, hpe⟩ := Set_elements_shape a1 E1 h1
  obtain ⟨q, hq, hqc, hqt, hqe⟩ := Set_elements_shape a2 E2 h2
  refine ⟨p, q, hp, hq, ?_⟩
  rw [operatorEq_iff]
  constructor
  · intro hpq
    subst hpq
    have hl : E1.length = E2.length := by rw [← hpc, hqc]
    constructor
    · rw [hpt] at hqt
      have := Option.some.inj hqt
      cases a1 <;> cases a2 <;> simp at this ⊢
    · apply List.ext_getElem hl
      intro i hi1 hi2
      have e1 := hpe i hi1
      rw [hqe i hi2] at e1
      exact (Option.some.inj e1).symm
  · intro hab
    obtain ⟨ha, hE⟩ := hab
    subst ha
    subst hE
    rw [hp] at hq
    exact Option.some.inj hq

/-- C26, witness: the absolute and the relative path of the elements `a` and `b`. -/
theorem Set_elements_injective_witness :
    (packedSize true [bytes "a", bytes "b"] < 4294967296 ∧
      packedSize false [bytes "a", bytes "b"] < 4294967296) ∧
    ∃ p q, tPath.Set_elements true [bytes "a", bytes "b"] = some p ∧
      tPath.Set_elements false [bytes "a", bytes "b"] = some q ∧
      (p.operatorEq q = true ↔ true = false ∧ [bytes "a", bytes "b"] = [bytes "a", bytes "b"]) :=
  ⟨by decide,
    Set_elements_injective true false [bytes "a", bytes "b"] [bytes "a", bytes "b"]
      (by decide) (by decide)⟩

/-- C26, counterexample: the relative path of one element of `2^32` bytes `a` and the
relative path of one empty element are equal; the element sequences differ. -/
theorem Set_elements_not_injective :
    tPath.Set_elements false [List.replicate 4294967296 97] =
      some ⟨1, [0, 0, 0, 0, 1, 0, 0, 0, 0]⟩ ∧
    tPath.Set_elements false [[]] = some ⟨1, [0, 0, 0, 0, 1, 0, 0, 0, 0]⟩ ∧
    tPath.operatorEq ⟨1, [0, 0, 0, 0, 1, 0, 0, 0, 0]⟩ ⟨1, [0, 0, 0, 0, 1, 0, 0, 0, 0]⟩ = true ∧
    [List.replicate 4294967296 (97 : Byte)] ≠ [[]] := by
  refine ⟨Set_elements_huge_element, by decide, by decide, ?_⟩
  intro h
  have := congrArg (fun l => (l.map List.length)) h
  simp only [List.map_cons, List.map_nil, List.length_replicate, List.length_nil] at this
  exact absurd this (by decide)

theorem flatMap_terminated_last (c : Byte) (E : List tStringRange) (hE : E ≠ []) :
    ∃ Y last, last ∈ E ∧ E.flatMap (fun e => e ++ [c]) = Y ++ last ++ [c] := by
  induction E with
  | nil => exact absurd rfl hE
  | cons e rest ih =>
      by_cases hr : rest = []
      · subst hr
        exact ⟨[], e, List.mem_cons_self _ _, by simp [List.flatMap_cons]⟩
      · obtain ⟨Y, last, hmem, hY⟩ := ih hr
        exact ⟨e ++ [c] ++ Y, last, List.mem_cons_of_mem _ hmem, by
          simp [List.flatMap_cons, hY]⟩

/-- The canonical path string of a non-empty sequence of non-empty elements without `/`:
it begins with `/` exactly if absolute, is not `/` alone and does not end with `/`. -/
theorem canonicalString_ends (a : Bool) (E : List tStringRange) (hE : E ≠ [])
    (hel : ∀ e ∈ E, e ≠ [] ∧ (47 : Byte) ∉ e) :
    canonicalString a E ≠ [] ∧ canonicalString a E ≠ [47] ∧
      ((canonicalString a E).head? = some 47 ↔ a = true) ∧
      (canonicalString a E).getLast? ≠ some 47 := by
  have hJ := intercalate_terminated 47 E hE
  obtain ⟨Y, last, hmem, hY⟩ := flatMap_terminated_last 47 E hE
  obtain ⟨hlast0, hlast47⟩ := hel last hmem
  rw [hY] at hJ
  have hJ2 : List.intercalate [47] E = Y ++ last := List.append_cancel_right hJ
  obtain ⟨e0, rest, rfl⟩ : ∃ e0 rest, E = e0 :: rest := by
    cases E with
    | nil => exact absurd rfl hE
    | cons e rest => exact ⟨e, rest, rfl⟩
  obtain ⟨b0, t0, rfl⟩ : ∃ b0 t0, e0 = b0 :: t0 := by
    have := (hel e0 (List.mem_cons_self _ _)).1
    cases e0 with
    | nil => exact absurd rfl this
    | cons b t => exact ⟨b, t, rfl⟩
  have hb0 : b0 ≠ 47 := fun e =>
    (hel (b0 :: t0) (List.mem_cons_self _ _)).2 (by rw [e]; exact List.mem_cons_self _ _)
  have hlastJ : (List.intercalate [47] ((b0 :: t0) :: rest)).getLast? ≠ some 47 := by
    rw [hJ2]
    intro hl
    have hm : (47 : Byte) ∈ last := by
      rw [List.getLast?_append] at hl
      cases hx : last.getLast? with
      | none => exact absurd (List.getLast?_eq_none_iff.mp hx) hlast0
      | some x =>
          rw [hx] at hl
          have hor : (some x).or Y.getLast? = some x := rfl
          rw [hor] at hl
          rw [Option.some.inj hl] at hx
          exact List.mem_of_getLast?_eq_some hx
    exact hlast47 hm
  obtain ⟨J1, hJ1⟩ : ∃ J1, List.intercalate [47] ((b0 :: t0) :: rest) = b0 :: J1 := by
    have hfl := intercalate_terminated 47 ((b0 :: t0) :: rest) hE
    rw [List.flatMap_cons] at hfl
    cases hj : List.intercalate [47] ((b0 :: t0) :: rest) with
    | nil =>
        rw [hj] at hJ2
        have := congrArg List.length hJ2
        simp only [List.length_nil, List.length_append] at this
        have hl := List.length_pos.mpr hlast0
        omega
    | cons j0 J1 =>
        rw [hj] at hfl
        simp only [List.cons_append] at hfl
        rw [(List.cons.inj hfl).1]
        exact ⟨J1, rfl⟩
  unfold canonicalString
  rw [hJ1] at hlastJ ⊢
  cases a
  · simp only [Bool.false_eq_true, if_false, List.nil_append]
    refine ⟨by simp, ?_, ?_, hlastJ⟩
    · intro h
      exact hb0 (List.cons.inj h).1
    · simp [hb0]
  · simp only [if_true, List.cons_append, List.nil_append]
    refine ⟨by simp, by simp, by simp, ?_⟩
    rw [List.getLast?_cons_cons]
    exact hlastJ

/-- C27 (amended): for every non-empty sequence `E` of non-empty elements without `/`
whose packed size is below `2^32 - 1`, the path built from the canonical path string -
`/` in front of the elements joined by `/` for the absolute path, the joined elements for
the relative one - equals the path built from the flag and `E`, and so does the path
built from that string with one `/` behind it. -/
theorem constructors_agree (a : Bool) (E : List tStringRange) (hE : E ≠ [])
    (hel : ∀ e ∈ E, e ≠ [] ∧ (47 : Byte) ∉ e) (h : packedSize a E + 1 < 4294967296) :
    ∃ p q r, tPath.Set_string (canonicalString a E) 47 = some p ∧
      tPath.Set_string (canonicalString a E ++ [47]) 47 = some r ∧
      tPath.Set_elements a E = some q ∧
      p.operatorEq q = true ∧ r.operatorEq q = true := by
  obtain ⟨hne, hsep, hhead, hlast⟩ := canonicalString_ends a E hE hel
  have hlen := canonicalString_length a E hE
  have h47 : ∀ e ∈ E, (47 : Byte) ∉ e := fun e he => (hel e he).2
  have hR := (intercalate_terminated 47 E hE).symm
  have hq := Set_elements_eq a E hE (by omega)
  have hp : tPath.Set_string (canonicalString a E) 47 = tPath.Set_elements a E := by
    refine Set_string_joined _ 47 a E (List.intercalate [47] E) hne hsep (by omega) hE h47
      hhead ?_ hR
    unfold endIndex
    rw [if_neg hlast, Nat.sub_zero, List.take_length]
    rfl
  have hr : tPath.Set_string (canonicalString a E ++ [47]) 47 = tPath.Set_elements a E := by
    refine Set_string_joined _ 47 a E (List.intercalate [47] E) (by simp) ?_
      (by rw [List.length_append, List.length_singleton]; omega) hE h47 ?_ ?_ hR
    · intro hc
      have := congrArg List.length hc
      rw [List.length_append] at this
      simp only [List.length_singleton] at this
      have := List.length_pos.mpr hne
      omega
    · rw [List.head?_append_of_ne_nil _ hne]
      exact hhead
    · unfold endIndex
      rw [if_pos (List.getLast?_concat _), List.length_append, List.length_singleton,
        Nat.add_sub_cancel, List.take_left]
      rfl
  rw [hq] at hp hr
  exact ⟨_, _, _, hp, hr, hq, by simp [tPath.operatorEq], by simp [tPath.operatorEq]⟩

/-- C27, witness: the absolute path of the elements `usr` and `lib`: `/usr/lib` and
`/usr/lib/` give the path built from the elements. -/
theorem constructors_agree_witness :
    ([bytes "usr", bytes "lib"] ≠ [] ∧
      (∀ e ∈ [bytes "usr", bytes "lib"], e ≠ [] ∧ (47 : Byte) ∉ e) ∧
      packedSize true [bytes "usr", bytes "lib"] + 1 < 4294967296 ∧
      canonicalString true [bytes "usr", bytes "lib"] = bytes "/usr/lib") ∧
    ∃ p q r, tPath.Set_string (canonicalString true [bytes "usr", bytes "lib"]) 47 = some p ∧
      tPath.Set_string (canonicalString true [bytes "usr", bytes "lib"] ++ [47]) 47 = some r ∧
      tPath.Set_elements true [bytes "usr", bytes "lib"] = some q ∧
      p.operatorEq q = true ∧ r.operatorEq q = true :=
  ⟨by decide,
    constructors_agree true [bytes "usr", bytes "lib"] (by decide) (by decide) (by decide)⟩

/-- The path built from a string of `n` characters `a`, where `n + 1` is 1 modulo `2^32`:
the table holds the offsets 0 and 1, the text is stored in full. -/
theorem Set_string_wrapped_memory (n : Nat) (hn : 1 ≤ n) (hw : toUInt (n + 1) = 1) :
    tPath.Set_string (List.replicate n 97) 47 =
      some ⟨1, [0, 1].flatMap uintBytes ++ (List.replicate n 97 ++ [0])⟩ := by
  obtain ⟨m, rfl⟩ : ∃ m, n = m + 1 := ⟨n - 1, by omega⟩
  have hnm : (47 : Byte) ∉ List.replicate (m + 1) (97 : Byte) := by
    intro hmem
    exact absurd (List.eq_of_mem_replicate hmem) (by decide)
  have hlast : ¬ ((List.replicate (m + 1) (97 : Byte)).getLast? = some 47) := by
    intro h
    exact hnm (List.mem_of_getLast?_eq_some h)
  have hhead : ¬ ((List.replicate (m + 1) (97 : Byte)).head? = some 47) := by
    simp [List.replicate_succ]
  have hend : endIndex (List.replicate (m + 1) 97) 47 = m + 1 := by
    unfold endIndex
    rw [if_neg hlast, List.length_replicate]
    rfl
  have hpos : separatorEntries (List.replicate (m + 1) 97) 47 (m + 1) = [] := by
    rw [separatorEntries_positions _ _ _ (by simp), List.take_of_length_le (by simp),
      positions_of_not_mem 47 _ hnm]
    rfl
  rw [Set_string_unfold _ _ (by simp), hend, hpos, if_neg (by simp), if_neg hhead, hw,
    List.take_of_length_le (by simp)]
  refine congrArg some ?_
  refine congrArg (tPath.mk 1) ?_
  generalize htb : ([0, 1].flatMap uintBytes) = tblB
  have hl : tblB.length = 8 := by rw [← htb]; rfl
  have hcons : (((0 :: ([] : List Nat)) ++ [1] : List Nat)) = [0, 1] := rfl
  simp only [hcons, htb, List.length_nil, List.append_assoc]
  rw [List.set_append_right _ _ (by rw [hl]; omega), hl,
    List.set_append_right _ _ (by rw [List.length_replicate]; omega),
    List.length_replicate,
    show (1 + 0 + 1) * 4 + (m + 1) + 1 - 1 - 8 - (m + 1) = 0 by omega]
  rfl

theorem wrapped_memory_differs (n : Nat) (hn : 1 ≤ n) :
    tPath.operatorEq ⟨1, [0, 1].flatMap uintBytes ++ (List.replicate n 97 ++ [0])⟩
      ⟨1, [0, 0, 0, 0, 1, 0, 0, 0, 0]⟩ = false := by
  rw [← Bool.not_eq_true, operatorEq_iff]
  intro hc
  have h1 := congrArg tPath.memory hc
  have h2 := congrArg List.length h1
  simp only [List.length_append, List.length_replicate, List.length_singleton,
    flatMap_uintBytes_length, List.length_cons, List.length_nil] at h2
  omega

/-- C27, counterexample: the one element of `2^32` bytes `a`, relative. The path built
from the string stores the `2^32` characters behind its table; the path built from the
element stores an empty element in a buffer of 9 bytes. The two paths differ. -/
theorem constructors_differ_huge_element :
    (∀ e ∈ [List.replicate 4294967296 (97 : Byte)], e ≠ [] ∧ (47 : Byte) ∉ e) ∧
    canonicalString false [List.replicate 4294967296 97] = List.replicate 4294967296 97 ∧
    tPath.Set_string (canonicalString false [List.replicate 4294967296 97]) 47 =
      some ⟨1, [0, 1].flatMap uintBytes ++ (List.replicate 4294967296 97 ++ [0])⟩ ∧
    tPath.Set_elements false [List.replicate 4294967296 97] =
      some ⟨1, [0, 0, 0, 0, 1, 0, 0, 0, 0]⟩ ∧
    tPath.operatorEq ⟨1, [0, 1].flatMap uintBytes ++ (List.replicate 4294967296 97 ++ [0])⟩
      ⟨1, [0, 0, 0, 0, 1, 0, 0, 0, 0]⟩ = false := by
  refine ⟨fun e he => ?_, canonicalString_single _, ?_, Set_elements_huge_element, ?_⟩
  · rw [List.mem_singleton] at he
    subst he
    constructor
    · intro hc
      have := congrArg List.length hc
      rw [List.length_replicate] at this
      exact absurd this (by decide)
    · intro hc
      exact absurd (List.eq_of_mem_replicate hc) (by decide)
  · rw [canonicalString_single]
    exact Set_string_wrapped_memory 4294967296 (by decide) (by decide)
  · exact wrapped_memory_differs 4294967296 (by decide)

/-- C28: whenever `tURI::Parse` throws, the `tURIElements` object passed in keeps its
five fields: the test of the match and the decoding of the path precede the first
assignment to `result`. -/
theorem Parse_atomic (self : tURI) (result : tURIElements)
    (h : (self.Parse result).1 = tOutcome.invalid_argument) :
    (self.Parse result).2 = result := by
  unfold tURI.Parse at h ⊢
  cases hm : regex_match self.uri with
  | none => rfl
  | some m =>
      rw [hm] at h
      simp only [] at h ⊢
      cases hd : tURI.Decode m.group5 with
      | none => rfl
      | some decoded =>
          rw [hd] at h
          simp only [] at h ⊢
          cases hp : tPath.Set_string (cstr decoded) 47 with
          | none => rfl
          | some path =>
              rw [hp] at h
              exact absurd h (by simp)

set_option maxRecDepth 100000 in
/-- C28, witness: `/a%zz` parsed into an object that holds the parts of `s://h/p?q#f`;
the call throws and the object is as before. So it is with `/a%4`, `/a%00` and with
`#`, line feed, which does not match the expression. -/
theorem Parse_atomic_witness :
    ((tURI.Parse ⟨bytes "/a%zz"⟩
          ⟨bytes "s", bytes "h", ⟨1, [1, 0, 0, 0, 3, 0, 0, 0, 47, 112, 0]⟩, bytes "q",
            bytes "f"⟩).1 = tOutcome.invalid_argument ∧
      tURI.Parse ⟨bytes "/a%4"⟩
          ⟨bytes "s", bytes "h", ⟨1, [1, 0, 0, 0, 3, 0, 0, 0, 47, 112, 0]⟩, bytes "q",
            bytes "f"⟩ =
        (tOutcome.invalid_argument,
          ⟨bytes "s", bytes "h", ⟨1, [1, 0, 0, 0, 3, 0, 0, 0, 47, 112, 0]⟩, bytes "q",
            bytes "f"⟩) ∧
      tURI.Parse ⟨bytes "/a%00"⟩
          ⟨bytes "s", bytes "h", ⟨1, [1, 0, 0, 0, 3, 0, 0, 0, 47, 112, 0]⟩, bytes "q",
            bytes "f"⟩ =
        (tOutcome.invalid_argument,
          ⟨bytes "s", bytes "h", ⟨1, [1, 0, 0, 0, 3, 0, 0, 0, 47, 112, 0]⟩, bytes "q",
            bytes "f"⟩) ∧
      tURI.Parse ⟨[35, 10]⟩
          ⟨bytes "s", bytes "h", ⟨1, [1, 0, 0, 0, 3, 0, 0, 0, 47, 112, 0]⟩, bytes "q",
            bytes "f"⟩ =
        (tOutcome.invalid_argument,
          ⟨bytes "s", bytes "h", ⟨1, [1, 0, 0, 0, 3, 0, 0, 0, 47, 112, 0]⟩, bytes "q",
            bytes "f"⟩)) ∧
    (tURI.Parse ⟨bytes "/a%zz"⟩
        ⟨bytes "s", bytes "h", ⟨1, [1, 0, 0, 0, 3, 0, 0, 0, 47, 112, 0]⟩, bytes "q",
          bytes "f"⟩).2 =
      ⟨bytes "s", bytes "h", ⟨1, [1, 0, 0, 0, 3, 0, 0, 0, 47, 112, 0]⟩, bytes "q", bytes "f"⟩ :=
  ⟨by decide,
    Parse_atomic ⟨bytes "/a%zz"⟩
      ⟨bytes "s", bytes "h", ⟨1, [1, 0, 0, 0, 3, 0, 0, 0, 47, 112, 0]⟩, bytes "q", bytes "f"⟩
      (by decide)⟩

/-- C29: the relative path built from the empty element sequence has a `memory` of four
bytes, the one table entry, where the default-constructed path and a cleared path have
none: it compares unequal to both, and so does `tPath().Append(tPath())`, which is built
from an empty sequence. All of them have `Size() == 0`. -/
theorem empty_paths_evaluated :
    tPath.Set_elements false [] = some ⟨0, [0, 0, 0, 0]⟩ ∧
    tPath.Size ⟨0, [0, 0, 0, 0]⟩ = 0 ∧ tPath.Size tPath.empty = 0 ∧
    tPath.operatorEq ⟨0, [0, 0, 0, 0]⟩ tPath.empty = false ∧
    tPath.Clear ⟨1, [1, 0, 0, 0, 3, 0, 0, 0, 47, 112, 0]⟩ = tPath.empty ∧
    tPath.operatorEq ⟨0, [0, 0, 0, 0]⟩
      (tPath.Clear ⟨1, [1, 0, 0, 0, 3, 0, 0, 0, 47, 112, 0]⟩) = false ∧
    tPath.IsAbsolute tPath.empty = some false ∧
    tPath.Append tPath.empty tPath.empty = some ⟨0, [0, 0, 0, 0]⟩ ∧
    (tPath.Append tPath.empty tPath.empty).map (fun p => p.operatorEq tPath.empty) =
      some false := by
  decide

end rrlib.uri
